import Mathlib

/-!
# chanz: channel operators as scheduler-driven state machines

Embedding of `chanz.go`.  A Go channel is a record (buffer, capacity, closed flag)
with `send`, `recv` and `close` that complete, block or panic as in Go.  Every
goroutine body is a small step function over an explicit control state, and a
system state lists the goroutines of one operator call together with the
producers of its inputs and the consumers of its outputs.  `next` returns every
state one scheduler choice can lead to, so a statement about `Reach` holds in all
executions and a statement `Inev next P s` says that every schedule comes to rest
after finitely many steps in a state satisfying `P`.
-/

namespace Chanz

/-! ## Definitions -/

/-- Outcome of one attempt at a channel operation: it completes with a
value, it blocks (the goroutine stays where it is), or it panics. -/
inductive Op (β : Type) where
  | ok (b : β)
  | block
  | fault
  deriving DecidableEq

/-- A buffered Go channel: queued values (oldest first), capacity, closed flag. -/
structure Chan (α : Type) where
  buf : List α
  cap : Nat
  closed : Bool
  deriving DecidableEq

/-- The channel built by make(chan T, cap). -/
def makeChan (α : Type) (cap : Nat) : Chan α :=
  { buf := [], cap := cap, closed := false }

/-- Send ch <- v: panics on a closed channel, blocks while the buffer is
full, otherwise queues v behind the values already there. -/
def Chan.send {α : Type} (c : Chan α) (v : α) : Op (Chan α) :=
  if c.closed then .fault
  else if c.buf.length < c.cap then .ok { c with buf := c.buf ++ [v] }
  else .block

/-- Receive v, ok := <-ch: takes the oldest queued value (also after close);
on an empty buffer it reports closure (none) when closed and blocks otherwise. -/
def Chan.recv {α : Type} (c : Chan α) : Op (Option α × Chan α) :=
  match c.buf with
  | v :: rest => .ok (some v, { c with buf := rest })
  | [] => if c.closed then .ok (none, c) else .block

/-- The call close(ch): panics when the channel is already closed. -/
def Chan.close {α : Type} (c : Chan α) : Op (Chan α) :=
  if c.closed then .fault else .ok { c with closed := true }

/-- Successor states contributed by one goroutine: none when it blocks or has
exited, the crashed state when it panics. -/
def Op.succ {β S : Type} (o : Op β) (f : β → S) (bad : S) : List S :=
  match o with
  | .ok b => [f b]
  | .block => []
  | .fault => [bad]

/-- States reachable from s0 by finitely many scheduler choices. -/
def Reach {S : Type} (next : S → List S) (s0 : S) (s : S) : Prop :=
  Relation.ReflTransGen (fun a b => b ∈ next a) s0 s

/-- Under every schedule the run from s is finite and stops in a state with
no enabled goroutine that satisfies P. -/
inductive Inev {S : Type} (next : S → List S) (P : S → Prop) : S → Prop where
  | stop (s : S) : next s = [] → P s → Inev next P s
  | step (s : S) : next s ≠ [] → (∀ t, t ∈ next s → Inev next P t) → Inev next P s

/-- The goroutine started by Stream together with the channel it feeds:
rest are the values of xs not yet sent, exited is set once the deferred
close has run. -/
structure Producer (T : Type) where
  rest : List T
  out : Chan T
  exited : Bool
  deriving DecidableEq

/-- A producer that sends xs in order on a fresh channel of capacity cap and
then closes it. -/
def Producer.new {T : Type} (cap : Nat) (xs : List T) : Producer T :=
  { rest := xs, out := makeChan T cap, exited := false }

/-- Stream(xs...): out := make(chan T, 1) and the goroutine that feeds it. -/
def Stream {T : Type} (xs : List T) : Producer T :=
  Producer.new 1 xs

/-- One step of the Stream goroutine: for i := range xs { out <- xs[i] },
then the deferred close(out). -/
def Producer.step {T : Type} (p : Producer T) : Op (Producer T) :=
  if p.exited then .block
  else match p.rest with
    | v :: rest =>
      match p.out.send v with
      | .ok c => .ok { p with rest := rest, out := c }
      | .block => .block
      | .fault => .fault
    | [] =>
      match p.out.close with
      | .ok c => .ok { p with out := c, exited := true }
      | .block => .block
      | .fault => .fault

/-- Control state of a Collect call: before the nil test, inside the range
loop with the slice built so far, or returned (none is the nil slice). -/
inductive CollectPc (T : Type) where
  | entry
  | loop (result : List T)
  | ret (r : Option (List T))
  deriving DecidableEq

/-- One step of Collect on the handle h (none is the nil channel): the nil
test returns nil; otherwise result := make([]T, 0) and each received value is
appended until the channel reports closure. -/
def Collect.step {T : Type} (h : Option (Chan T)) (pc : CollectPc T) :
    Op (CollectPc T × Option (Chan T)) :=
  match pc with
  | .entry =>
    match h with
    | none => .ok (.ret none, h)
    | some _ => .ok (.loop [], h)
  | .loop r =>
    match h with
    | none => .block
    | some c =>
      match c.recv with
      | .ok (some v, c1) => .ok (.loop (r ++ [v]), some c1)
      | .ok (none, c1) => .ok (.ret (some r), some c1)
      | .block => .block
      | .fault => .fault
  | .ret _ => .block

/-- Control state of a Reduce call. -/
inductive ReducePc (T : Type) where
  | entry
  | loop (acc : T)
  | ret (r : T)
  deriving DecidableEq

/-- One step of Reduce(in, acc, fn) on the handle h; the second component
counts the invocations of fn made by this step. -/
def Reduce.step {T : Type} (acc0 : T) (fn : T → T → T) (h : Option (Chan T))
    (pc : ReducePc T) : Op (ReducePc T × Option (Chan T) × Nat) :=
  match pc with
  | .entry =>
    match h with
    | none => .ok (.ret acc0, h, 0)
    | some _ => .ok (.loop acc0, h, 0)
  | .loop acc =>
    match h with
    | none => .block
    | some c =>
      match c.recv with
      | .ok (some v, c1) => .ok (.loop (fn acc v), some c1, 1)
      | .ok (none, c1) => .ok (.ret acc, some c1, 0)
      | .block => .block
      | .fault => .fault
  | .ret _ => .block

/-- The receive end handed to an operator: none for a nil handle, otherwise
the channel fed by the producer. -/
def handleOf {T : Type} (inp : Option (Producer T)) : Option (Chan T) :=
  inp.map (fun p => p.out)

/-- Store the channel state left by a receive back into the input. -/
def putBack {T : Type} (inp : Option (Producer T)) (c : Option (Chan T)) :
    Option (Producer T) :=
  match inp, c with
  | some p, some c1 => some { p with out := c1 }
  | _, _ => inp

/-- Successors contributed by the producer of an input handle, if any. -/
def feed {T S : Type} (inp : Option (Producer T)) (f : Producer T → S) (bad : S) : List S :=
  match inp with
  | none => []
  | some p => p.step.succ f bad

/-! ### Collect and Reduce applied to an input stream -/

/-- A Collect call running against an input handle and its producer. -/
structure CollectSys (T : Type) where
  inp : Option (Producer T)
  col : CollectPc T
  crashed : Bool
  deriving DecidableEq

/-- The state at the call Collect(in). -/
def CollectSys.init {T : Type} (inp : Option (Producer T)) : CollectSys T :=
  { inp := inp, col := .entry, crashed := false }

/-- All scheduler choices: the producer or the Collect loop moves. -/
def CollectSys.next {T : Type} (s : CollectSys T) : List (CollectSys T) :=
  if s.crashed then []
  else
    feed s.inp (fun p1 => { s with inp := some p1 }) { s with crashed := true }
    ++ (Collect.step (handleOf s.inp) s.col).succ
        (fun r => { s with col := r.1, inp := putBack s.inp r.2 }) { s with crashed := true }

/-- A Reduce call running against an input handle and its producer; calls
counts the invocations of fn. -/
structure ReduceSys (T : Type) where
  inp : Option (Producer T)
  red : ReducePc T
  calls : Nat
  crashed : Bool
  deriving DecidableEq

/-- The state at the call Reduce(in, acc, fn). -/
def ReduceSys.init {T : Type} (inp : Option (Producer T)) : ReduceSys T :=
  { inp := inp, red := .entry, calls := 0, crashed := false }

/-- All scheduler choices for Reduce(in, acc0, fn). -/
def ReduceSys.next {T : Type} (acc0 : T) (fn : T → T → T) (s : ReduceSys T) :
    List (ReduceSys T) :=
  if s.crashed then []
  else
    feed s.inp (fun p1 => { s with inp := some p1 }) { s with crashed := true }
    ++ (Reduce.step acc0 fn (handleOf s.inp) s.red).succ
        (fun r => { s with red := r.1, inp := putBack s.inp r.2.1, calls := s.calls + r.2.2 })
        { s with crashed := true }

/-- ReduceDefault(in, fn): var acc T; return Reduce(in, acc, fn). -/
def ReduceDefault.next {T : Type} [Inhabited T] (fn : T → T → T) (s : ReduceSys T) :
    List (ReduceSys T) :=
  ReduceSys.next default fn s

/-! ### Filter, Map and Remap -/

/-- Control state of the goroutine started by Filter, Map and Remap: the nil
test, the range loop, a pending send of v, the deferred close, exited. -/
inductive RelayPc (E : Type) where
  | entry
  | loop
  | send (v : E)
  | exit
  | done
  deriving DecidableEq

/-- One step of the Filter goroutine; the last component counts the calls
of cond made by the step. -/
def Filter.step {T : Type} (cond : T → Bool) (h : Option (Chan T)) (out : Chan T)
    (pc : RelayPc T) : Op (RelayPc T × Option (Chan T) × Chan T × Nat) :=
  match pc with
  | .entry =>
    match h with
    | none => .ok (.exit, h, out, 0)
    | some _ => .ok (.loop, h, out, 0)
  | .loop =>
    match h with
    | none => .block
    | some c =>
      match c.recv with
      | .ok (some v, c1) =>
        if cond v then .ok (.send v, some c1, out, 1) else .ok (.loop, some c1, out, 1)
      | .ok (none, c1) => .ok (.exit, some c1, out, 0)
      | .block => .block
      | .fault => .fault
  | .send v =>
    match out.send v with
    | .ok o1 => .ok (.loop, h, o1, 0)
    | .block => .block
    | .fault => .fault
  | .exit =>
    match out.close with
    | .ok o1 => .ok (.done, h, o1, 0)
    | .block => .block
    | .fault => .fault
  | .done => .block

/-- One step of the Remap goroutine; the last component counts the calls of
fn made by the step. -/
def Remap.step {T E : Type} (fn : T → E) (h : Option (Chan T)) (out : Chan E)
    (pc : RelayPc E) : Op (RelayPc E × Option (Chan T) × Chan E × Nat) :=
  match pc with
  | .entry =>
    match h with
    | none => .ok (.exit, h, out, 0)
    | some _ => .ok (.loop, h, out, 0)
  | .loop =>
    match h with
    | none => .block
    | some c =>
      match c.recv with
      | .ok (some v, c1) => .ok (.send (fn v), some c1, out, 1)
      | .ok (none, c1) => .ok (.exit, some c1, out, 0)
      | .block => .block
      | .fault => .fault
  | .send e =>
    match out.send e with
    | .ok o1 => .ok (.loop, h, o1, 0)
    | .block => .block
    | .fault => .fault
  | .exit =>
    match out.close with
    | .ok o1 => .ok (.done, h, o1, 0)
    | .block => .block
    | .fault => .fault
  | .done => .block

/-- One step of the Map goroutine (the body of Remap at a single element type). -/
def Map.step {T : Type} (fn : T → T) (h : Option (Chan T)) (out : Chan T)
    (pc : RelayPc T) : Op (RelayPc T × Option (Chan T) × Chan T × Nat) :=
  match pc with
  | .entry =>
    match h with
    | none => .ok (.exit, h, out, 0)
    | some _ => .ok (.loop, h, out, 0)
  | .loop =>
    match h with
    | none => .block
    | some c =>
      match c.recv with
      | .ok (some v, c1) => .ok (.send (fn v), some c1, out, 1)
      | .ok (none, c1) => .ok (.exit, some c1, out, 0)
      | .block => .block
      | .fault => .fault
  | .send e =>
    match out.send e with
    | .ok o1 => .ok (.loop, h, o1, 0)
    | .block => .block
    | .fault => .fault
  | .exit =>
    match out.close with
    | .ok o1 => .ok (.done, h, o1, 0)
    | .block => .block
    | .fault => .fault
  | .done => .block

/-- An operator with one input and one output (Filter, Map, Remap) together
with the producer of its input and a consumer draining its output with
Collect; calls counts the invocations of the callback. -/
structure RelaySys (T E : Type) where
  inp : Option (Producer T)
  pc : RelayPc E
  out : Chan E
  calls : Nat
  col : CollectPc E
  crashed : Bool
  deriving DecidableEq

/-- The state right after the operator returned: out := make(chan E, 1), the
goroutine started, nothing consumed yet. -/
def RelaySys.init {T E : Type} (inp : Option (Producer T)) : RelaySys T E :=
  { inp := inp, pc := .entry, out := makeChan E 1, calls := 0, col := .entry, crashed := false }

/-- Scheduler choices of a one-input, one-output operator whose goroutine
moves by step. -/
def RelaySys.next {T E : Type}
    (step : Option (Chan T) → Chan E → RelayPc E → Op (RelayPc E × Option (Chan T) × Chan E × Nat))
    (s : RelaySys T E) : List (RelaySys T E) :=
  if s.crashed then []
  else
    feed s.inp (fun p1 => { s with inp := some p1 }) { s with crashed := true }
    ++ (step (handleOf s.inp) s.out s.pc).succ
        (fun r => { s with pc := r.1, inp := putBack s.inp r.2.1, out := r.2.2.1,
                           calls := s.calls + r.2.2.2 })
        { s with crashed := true }
    ++ (Collect.step (some s.out) s.col).succ
        (fun r => { s with col := r.1, out := r.2.getD s.out }) { s with crashed := true }

/-- Filter(in, cond) drained by Collect. -/
def Filter.next {T : Type} (cond : T → Bool) (s : RelaySys T T) : List (RelaySys T T) :=
  RelaySys.next (Filter.step cond) s

/-- Map(in, fn) drained by Collect. -/
def Map.next {T : Type} (fn : T → T) (s : RelaySys T T) : List (RelaySys T T) :=
  RelaySys.next (Map.step fn) s

/-- Remap(in, fn) drained by Collect. -/
def Remap.next {T E : Type} (fn : T → E) (s : RelaySys T E) : List (RelaySys T E) :=
  RelaySys.next (Remap.step fn) s

/-! ### Split -/

/-- Control state of the Split goroutine; close1 and close2 are the two
deferred closes, run in the order out1 then out2. -/
inductive SplitPc (T : Type) where
  | entry
  | loop
  | send1 (v : T)
  | send2 (v : T)
  | close1
  | close2
  | done
  deriving DecidableEq

/-- Split(in, cond) with the producer of its input and one Collect consumer
per output, both running concurrently. -/
structure SplitSys (T : Type) where
  inp : Option (Producer T)
  pc : SplitPc T
  out1 : Chan T
  out2 : Chan T
  calls : Nat
  col1 : CollectPc T
  col2 : CollectPc T
  crashed : Bool
  deriving DecidableEq

/-- The state right after Split returned. -/
def SplitSys.init {T : Type} (inp : Option (Producer T)) : SplitSys T :=
  { inp := inp, pc := .entry, out1 := makeChan T 1, out2 := makeChan T 1, calls := 0,
    col1 := .entry, col2 := .entry, crashed := false }

/-- One step of the Split goroutine on the state s. -/
def Split.step {T : Type} (cond : T → Bool) (s : SplitSys T) : Op (SplitSys T) :=
  match s.pc with
  | .entry =>
    match s.inp with
    | none => .ok { s with pc := .close1 }
    | some _ => .ok { s with pc := .loop }
  | .loop =>
    match s.inp with
    | none => .block
    | some p =>
      match p.out.recv with
      | .ok (some v, c1) =>
        if cond v then
          .ok { s with pc := .send1 v, inp := some { p with out := c1 }, calls := s.calls + 1 }
        else
          .ok { s with pc := .send2 v, inp := some { p with out := c1 }, calls := s.calls + 1 }
      | .ok (none, c1) => .ok { s with pc := .close1, inp := some { p with out := c1 } }
      | .block => .block
      | .fault => .fault
  | .send1 v =>
    match s.out1.send v with
    | .ok o1 => .ok { s with pc := .loop, out1 := o1 }
    | .block => .block
    | .fault => .fault
  | .send2 v =>
    match s.out2.send v with
    | .ok o2 => .ok { s with pc := .loop, out2 := o2 }
    | .block => .block
    | .fault => .fault
  | .close1 =>
    match s.out1.close with
    | .ok o1 => .ok { s with pc := .close2, out1 := o1 }
    | .block => .block
    | .fault => .fault
  | .close2 =>
    match s.out2.close with
    | .ok o2 => .ok { s with pc := .done, out2 := o2 }
    | .block => .block
    | .fault => .fault
  | .done => .block

/-- Scheduler choices of the Split system. -/
def SplitSys.next {T : Type} (cond : T → Bool) (s : SplitSys T) : List (SplitSys T) :=
  if s.crashed then []
  else
    feed s.inp (fun p1 => { s with inp := some p1 }) { s with crashed := true }
    ++ (Split.step cond s).succ id { s with crashed := true }
    ++ (Collect.step (some s.out1) s.col1).succ
        (fun r => { s with col1 := r.1, out1 := r.2.getD s.out1 }) { s with crashed := true }
    ++ (Collect.step (some s.out2) s.col2).succ
        (fun r => { s with col2 := r.1, out2 := r.2.getD s.out2 }) { s with crashed := true }

/-! ### Join -/

/-- Control state of one forwarding goroutine of Join: the range loop over
its input, a pending send of v to out, the deferred wg.Done(), exited. -/
inductive FwdPc (T : Type) where
  | loop
  | send (v : T)
  | exit
  | done
  deriving DecidableEq

/-- A forwarding goroutine: the input channel it was started with (an index
into the channel store) and its control state. -/
structure Fwd (T : Type) where
  src : Nat
  pc : FwdPc T
  deriving DecidableEq

/-- Control state of the goroutine that closes out: in wg.Wait(), about to
run the deferred close(out), exited. -/
inductive CloserPc where
  | wait
  | exit
  | done
  deriving DecidableEq

/-- Control state of the Join call itself: the loop over ins with the
handles not yet visited, or returned. -/
inductive JoinPc where
  | spawning (rest : List (Option Nat))
  | returned
  deriving DecidableEq

/-- Join running against its inputs and a consumer draining out with
Collect.  chans holds the input channels with their producers; a handle is
none (nil) or the index of a channel in chans, so one channel may be
passed several times. -/
structure JoinSys (T : Type) where
  chans : List (Producer T)
  main : JoinPc
  fwds : List (Fwd T)
  wg : Nat
  closer : Option CloserPc
  out : Chan T
  col : CollectPc T
  crashed : Bool
  deriving DecidableEq

/-- The state at the call Join(ins...) once out := make(chan T, 1) has run. -/
def Join {T : Type} (chans : List (Producer T)) (ins : List (Option Nat)) : JoinSys T :=
  { chans := chans, main := .spawning ins, fwds := [], wg := 0, closer := none,
    out := makeChan T 1, col := .entry, crashed := false }

/-- One step of the Join call: a nil handle is skipped; for any other handle
wg.Add(1) and a forwarder is started; after the loop the closing goroutine is
started and out is returned. -/
def Join.mainStep {T : Type} (s : JoinSys T) : Op (JoinSys T) :=
  match s.main with
  | .spawning (none :: rest) => .ok { s with main := .spawning rest }
  | .spawning (some c :: rest) =>
    .ok { s with main := .spawning rest, wg := s.wg + 1, fwds := s.fwds ++ [{ src := c, pc := .loop }] }
  | .spawning [] => .ok { s with main := .returned, closer := some .wait }
  | .returned => .block

/-- One step of the producer of channel i. -/
def Join.feedStep {T : Type} (s : JoinSys T) (i : Nat) : Op (JoinSys T) :=
  match s.chans[i]? with
  | none => .block
  | some p =>
    match p.step with
    | .ok p1 => .ok { s with chans := s.chans.set i p1 }
    | .block => .block
    | .fault => .fault

/-- One step of forwarder k: for val := range ch { out <- val }, then the
deferred wg.Done(), which panics on a zero counter. -/
def Join.fwdStep {T : Type} (s : JoinSys T) (k : Nat) : Op (JoinSys T) :=
  match s.fwds[k]? with
  | none => .block
  | some f =>
    match f.pc with
    | .loop =>
      match s.chans[f.src]? with
      | none => .block
      | some p =>
        match p.out.recv with
        | .ok (some v, c1) =>
          .ok { s with chans := s.chans.set f.src { p with out := c1 },
                       fwds := s.fwds.set k { f with pc := .send v } }
        | .ok (none, c1) =>
          .ok { s with chans := s.chans.set f.src { p with out := c1 },
                       fwds := s.fwds.set k { f with pc := .exit } }
        | .block => .block
        | .fault => .fault
    | .send v =>
      match s.out.send v with
      | .ok o1 => .ok { s with out := o1, fwds := s.fwds.set k { f with pc := .loop } }
      | .block => .block
      | .fault => .fault
    | .exit =>
      if s.wg = 0 then .fault
      else .ok { s with wg := s.wg - 1, fwds := s.fwds.set k { f with pc := .done } }
    | .done => .block

/-- One step of the closing goroutine: wg.Wait() returns once the counter is
zero, then the deferred close(out) runs. -/
def Join.closerStep {T : Type} (s : JoinSys T) : Op (JoinSys T) :=
  match s.closer with
  | some .wait => if s.wg = 0 then .ok { s with closer := some .exit } else .block
  | some .exit =>
    match s.out.close with
    | .ok o1 => .ok { s with out := o1, closer := some .done }
    | .block => .block
    | .fault => .fault
  | some .done => .block
  | none => .block

/-- One step of the consumer, which holds out only once Join has returned. -/
def Join.collectStep {T : Type} (s : JoinSys T) : Op (JoinSys T) :=
  match s.main with
  | .spawning _ => .block
  | .returned =>
    match Collect.step (some s.out) s.col with
    | .ok r => .ok { s with col := r.1, out := r.2.getD s.out }
    | .block => .block
    | .fault => .fault

/-- Scheduler choices of the Join system. -/
def JoinSys.next {T : Type} (s : JoinSys T) : List (JoinSys T) :=
  if s.crashed then []
  else
    (Join.mainStep s).succ id { s with crashed := true }
    ++ (List.range s.chans.length).flatMap
        (fun i => (Join.feedStep s i).succ id { s with crashed := true })
    ++ (List.range s.fwds.length).flatMap
        (fun k => (Join.fwdStep s k).succ id { s with crashed := true })
    ++ (Join.closerStep s).succ id { s with crashed := true }
    ++ (Join.collectStep s).succ id { s with crashed := true }

/-! ### Vocabulary of the statements about Join -/

/-- The state reached by following the scheduler choices in sched, each
the position of a successor in next. -/
def follow {S : Type} (next : S → List S) (sched : List Nat) (s : S) : Option S :=
  match sched with
  | [] => some s
  | i :: rest =>
    match (next s)[i]? with
    | none => none
    | some t => follow next rest t

/-- The values of out whose origin label is c, in order. -/
def pick {T : Type} (c : Nat) (lab : List Nat) (out : List T) : List T :=
  ((lab.zip out).filter (fun a => a.1 == c)).map Prod.snd

/-- The sequence r is an interleaving of the sequences seq c of the channels
c in hs: its positions can be labelled with origins from hs such that the
values labelled c are exactly seq c, in order. -/
def Interleaving {T : Type} (seq : Nat → List T) (hs : List Nat) (r : List T) : Prop :=
  ∃ lab : List Nat, lab.length = r.length ∧ (∀ l, l ∈ lab → l ∈ hs) ∧
    ∀ c, c ∈ hs → pick c lab r = seq c

/-- The sequence r keeps the order of every channel passed once: its
positions can be labelled with origins from hs such that, for each channel c
that occurs exactly once in hs, the values labelled c are exactly seq c, in
order. -/
def OrderKept {T : Type} (seq : Nat → List T) (hs : List Nat) (r : List T) : Prop :=
  ∃ lab : List Nat, lab.length = r.length ∧ (∀ l, l ∈ lab → l ∈ hs) ∧
    ∀ c, hs.count c = 1 → pick c lab r = seq c

/-- The second components of the labels in lab whose first component is c,
in order: the places in channel c of its values, in order of delivery. -/
def ixOf (c : Nat) (lab : List (Nat × Nat)) : List Nat :=
  (lab.filter (fun a => a.1 == c)).map Prod.snd

/-- The sequence r is a merge of the channels in hs with bounded overtaking:
its positions can be labelled with pairs (c, j), c a channel in hs, such that
the value at a position labelled (c, j) is the j-th value of seq c, every
place of every channel in hs is the label of exactly one position, and a
position labelled (c, j) comes after all but at most m - 1 of the positions
labelled (c, i) with i < j, where m is the number of times c occurs in hs. -/
def BoundedMerge {T : Type} (seq : Nat → List T) (hs : List Nat) (r : List T) : Prop :=
  ∃ lab : List (Nat × Nat),
    r.map some = lab.map (fun a => (seq a.1)[a.2]?) ∧
    (∀ a, a ∈ lab → a.1 ∈ hs) ∧
    (∀ c, c ∈ hs → (ixOf c lab).Perm (List.range (seq c).length)) ∧
    ∀ l1 a, l1 ++ [a] <+: lab →
      a.2 < l1.countP (fun b => b.1 == a.1 && decide (b.2 < a.2)) + hs.count a.1

/-- Input streams described by capacity and contents. -/
def inputs {T : Type} (specs : List (Nat × List T)) : List (Producer T) :=
  specs.map (fun a => Producer.new a.1 a.2)

/-- The contents of the c-th described input. -/
def contents {T : Type} (specs : List (Nat × List T)) (c : Nat) : List T :=
  match specs[c]? with
  | none => []
  | some a => a.2

/-! ### Invariants and termination measures -/

/-- Reference relay: the common shape of the Filter, Map and Remap
goroutines, with act deciding what (if anything) is forwarded for a value. -/
def Relay.step {T E : Type} (act : T → Option E) (h : Option (Chan T)) (out : Chan E)
    (pc : RelayPc E) : Op (RelayPc E × Option (Chan T) × Chan E × Nat) :=
  match pc with
  | .entry =>
    match h with
    | none => .ok (.exit, h, out, 0)
    | some _ => .ok (.loop, h, out, 0)
  | .loop =>
    match h with
    | none => .block
    | some c =>
      match c.recv with
      | .ok (some v, c1) =>
        match act v with
        | some e => .ok (.send e, some c1, out, 1)
        | none => .ok (.loop, some c1, out, 1)
      | .ok (none, c1) => .ok (.exit, some c1, out, 0)
      | .block => .block
      | .fault => .fault
  | .send e =>
    match out.send e with
    | .ok o1 => .ok (.loop, h, o1, 0)
    | .block => .block
    | .fault => .fault
  | .exit =>
    match out.close with
    | .ok o1 => .ok (.done, h, o1, 0)
    | .block => .block
    | .fault => .fault
  | .done => .block

/-- The values a Collect call has taken from its channel so far. -/
def CollectPc.seen {T : Type} : CollectPc T → List T
  | .entry => []
  | .loop r => r
  | .ret r => r.getD []

/-- Steps a Collect call still has to take besides its receives. -/
def CollectPc.rank {T : Type} : CollectPc T → Nat
  | .entry => 2
  | .loop _ => 1
  | .ret _ => 0

/-- Consistency of a producer with its channel. -/
def Producer.Ok {T : Type} (p : Producer T) : Prop :=
  0 < p.out.cap ∧ p.out.closed = p.exited ∧ (p.exited = true → p.rest = [])

/-- Bound on the steps a producer and the readers of its channel still take on
its values. -/
def Producer.size {T : Type} (p : Producer T) : Nat :=
  2 * p.rest.length + p.out.buf.length + (if p.exited then 0 else 1)

/-- Values of the input not yet received by the operator. -/
def inflow {T : Type} (inp : Option (Producer T)) : List T :=
  match inp with
  | none => []
  | some p => p.out.buf ++ p.rest

/-- The size of the producer behind an input handle, zero for nil. -/
def inSize {T : Type} (inp : Option (Producer T)) : Nat :=
  match inp with
  | none => 0
  | some p => p.size

/-- The input is nil, or a consistent producer. -/
def InOk {T : Type} (inp : Option (Producer T)) : Prop :=
  match inp with
  | none => True
  | some p => p.Ok

/-- The input has been read to closure (vacuous for nil). -/
def inEnded {T : Type} (inp : Option (Producer T)) : Prop :=
  match inp with
  | none => True
  | some p => p.exited = true ∧ p.out.buf = []

/-- The value a relay goroutine has received and not yet sent. -/
def RelayPc.hold {E : Type} : RelayPc E → List E
  | .send v => [v]
  | _ => []

/-- Weight of a relay control state in the termination measure. -/
def RelayPc.rank {E : Type} : RelayPc E → Nat
  | .entry => 3
  | .loop => 2
  | .send _ => 6
  | .exit => 1
  | .done => 0

/-- Termination measure of a relay system: every step makes it smaller. -/
def RelaySys.size {T E : Type} (s : RelaySys T E) : Nat :=
  s.col.rank + s.pc.rank + 3 * s.out.buf.length + 5 * inSize s.inp

/-- Invariant of a relay system whose input delivers xs: no crash, the
forwarded image of xs is split over what the consumer took, the output buffer,
the held value and what is still to come, the callback ran once per value
received, and the output is closed only once the goroutine is done. -/
def RelaySys.Inv {T E : Type} (act : T → Option E) (xs : List T) (s : RelaySys T E) : Prop :=
  s.crashed = false ∧ s.out.cap = 1 ∧ InOk s.inp ∧
  xs.filterMap act = s.col.seen ++ s.out.buf ++ s.pc.hold ++ (inflow s.inp).filterMap act ∧
  s.calls + (inflow s.inp).length = xs.length ∧
  (match s.pc with
    | .entry => s.out.closed = false
    | .loop => s.out.closed = false ∧ s.inp ≠ none
    | .send _ => s.out.closed = false ∧ s.inp ≠ none
    | .exit => s.out.closed = false ∧ inEnded s.inp
    | .done => s.out.closed = true ∧ inEnded s.inp) ∧
  (∀ r, s.col = .ret r → r = some (xs.filterMap act) ∧ s.out.buf = [] ∧ s.out.closed = true)

/-- What holds when a relay system has come to rest. -/
def RelaySys.Final {T E : Type} (ys : List E) (n : Nat) (s : RelaySys T E) : Prop :=
  s.col = .ret (some ys) ∧ s.pc = .done ∧ s.out.closed = true ∧ s.out.buf = [] ∧
    s.crashed = false ∧ s.calls = n ∧ inEnded s.inp

/-- Steps a Reduce call still has to take besides its receives. -/
def ReducePc.rank {T : Type} : ReducePc T → Nat
  | .entry => 2
  | .loop _ => 1
  | .ret _ => 0

/-- Termination measure of a Collect call with its input. -/
def CollectSys.size {T : Type} (s : CollectSys T) : Nat :=
  s.col.rank + inSize s.inp

/-- Invariant of a Collect call on an input delivering xs (b tells whether the
handle is non-nil). -/
def CollectSys.Inv {T : Type} (b : Bool) (xs : List T) (s : CollectSys T) : Prop :=
  s.crashed = false ∧ s.inp.isSome = b ∧ InOk s.inp ∧
  (match s.col with
    | .entry => inflow s.inp = xs
    | .loop r => s.inp ≠ none ∧ r ++ inflow s.inp = xs
    | .ret r => r = s.inp.map (fun _ => xs) ∧ inEnded s.inp)

/-- What holds when a Collect call has come to rest. -/
def CollectSys.Final {T : Type} (r : Option (List T)) (s : CollectSys T) : Prop :=
  s.col = .ret r ∧ s.crashed = false ∧ inEnded s.inp

/-- Termination measure of a Reduce call with its input. -/
def ReduceSys.size {T : Type} (s : ReduceSys T) : Nat :=
  s.red.rank + inSize s.inp

/-- Invariant of Reduce(in, acc0, fn) on an input delivering xs: folding what
is still to come into the accumulator gives the fold of xs. -/
def ReduceSys.Inv {T : Type} (acc0 : T) (fn : T → T → T) (xs : List T) (s : ReduceSys T) : Prop :=
  s.crashed = false ∧ InOk s.inp ∧
  (match s.red with
    | .entry => s.calls = 0 ∧ inflow s.inp = xs
    | .loop acc => s.inp ≠ none ∧ (inflow s.inp).foldl fn acc = xs.foldl fn acc0 ∧
        s.calls + (inflow s.inp).length = xs.length
    | .ret r => r = xs.foldl fn acc0 ∧ s.calls = xs.length ∧ inEnded s.inp)

/-- What holds when a Reduce call has come to rest. -/
def ReduceSys.Final {T : Type} (r : T) (n : Nat) (s : ReduceSys T) : Prop :=
  s.red = .ret r ∧ s.calls = n ∧ s.crashed = false ∧ inEnded s.inp

/-- The value the Split goroutine is about to send on out1. -/
def SplitPc.hold1 {T : Type} : SplitPc T → List T
  | .send1 v => [v]
  | _ => []

/-- The value the Split goroutine is about to send on out2. -/
def SplitPc.hold2 {T : Type} : SplitPc T → List T
  | .send2 v => [v]
  | _ => []

/-- Weight of a Split control state in the termination measure. -/
def SplitPc.rank {T : Type} : SplitPc T → Nat
  | .entry => 4
  | .loop => 3
  | .send1 _ => 7
  | .send2 _ => 7
  | .close1 => 2
  | .close2 => 1
  | .done => 0

/-- Termination measure of a Split system. -/
def SplitSys.size {T : Type} (s : SplitSys T) : Nat :=
  s.col1.rank + s.col2.rank + s.pc.rank + 3 * s.out1.buf.length + 3 * s.out2.buf.length
    + 5 * inSize s.inp

/-- Invariant of a Split system whose input delivers xs: each half of xs is
split over what its consumer took, its output buffer, the held value and what
is still to come, and the outputs are closed in order only at the end. -/
def SplitSys.Inv {T : Type} (cond : T → Bool) (xs : List T) (s : SplitSys T) : Prop :=
  s.crashed = false ∧ s.out1.cap = 1 ∧ s.out2.cap = 1 ∧ InOk s.inp ∧
  xs.filter cond = s.col1.seen ++ s.out1.buf ++ s.pc.hold1 ++ (inflow s.inp).filter cond ∧
  xs.filter (fun v => !cond v) =
    s.col2.seen ++ s.out2.buf ++ s.pc.hold2 ++ (inflow s.inp).filter (fun v => !cond v) ∧
  s.calls + (inflow s.inp).length = xs.length ∧
  (match s.pc with
    | .entry => s.out1.closed = false ∧ s.out2.closed = false
    | .loop => s.out1.closed = false ∧ s.out2.closed = false ∧ s.inp ≠ none
    | .send1 v => s.out1.closed = false ∧ s.out2.closed = false ∧ s.inp ≠ none ∧ cond v = true
    | .send2 v => s.out1.closed = false ∧ s.out2.closed = false ∧ s.inp ≠ none ∧ cond v = false
    | .close1 => s.out1.closed = false ∧ s.out2.closed = false ∧ inEnded s.inp
    | .close2 => s.out1.closed = true ∧ s.out2.closed = false ∧ inEnded s.inp
    | .done => s.out1.closed = true ∧ s.out2.closed = true ∧ inEnded s.inp) ∧
  (∀ r, s.col1 = .ret r → r.isSome = true ∧ s.out1.buf = [] ∧ s.out1.closed = true) ∧
  (∀ r, s.col2 = .ret r → r.isSome = true ∧ s.out2.buf = [] ∧ s.out2.closed = true)

/-- What holds when a Split system has come to rest. -/
def SplitSys.Final {T : Type} (ys zs : List T) (n : Nat) (s : SplitSys T) : Prop :=
  s.col1 = .ret (some ys) ∧ s.col2 = .ret (some zs) ∧ s.pc = .done ∧
    s.out1.closed = true ∧ s.out2.closed = true ∧ s.out1.buf = [] ∧ s.out2.buf = [] ∧
    s.crashed = false ∧ s.calls = n ∧ inEnded s.inp

/-- The value a forwarder has received and not yet sent. -/
def FwdPc.hold {T : Type} : FwdPc T → List T
  | .send v => [v]
  | _ => []

/-- Weight of a forwarder control state in the termination measure. -/
def FwdPc.rank {T : Type} : FwdPc T → Nat
  | .loop => 2
  | .send _ => 6
  | .exit => 1
  | .done => 0

/-- One for a forwarder that has not yet run wg.Done(), zero afterwards. -/
def FwdPc.live {T : Type} : FwdPc T → Nat
  | .done => 0
  | _ => 1

/-- Whether a forwarder may still receive from its input. -/
def FwdPc.reading {T : Type} : FwdPc T → Bool
  | .loop => true
  | .send _ => true
  | _ => false

/-- Values received from channel c by forwarders and not yet sent on. -/
def held {T : Type} (fwds : List (Fwd T)) (c : Nat) : List T :=
  fwds.flatMap (fun f => if f.src = c then f.pc.hold else [])

/-- The handles Join has not yet visited. -/
def JoinPc.rest : JoinPc → List (Option Nat)
  | .spawning r => r
  | .returned => []

/-- Weight of the Join call in the termination measure. -/
def JoinPc.rank : JoinPc → Nat
  | .spawning r => 3 * r.length + 1
  | .returned => 0

/-- Weight of the closing goroutine in the termination measure. -/
def closerRank : Option CloserPc → Nat
  | none => 2
  | some .wait => 2
  | some .exit => 1
  | some .done => 0

/-- Termination measure of a Join system. -/
def JoinSys.size {T : Type} (s : JoinSys T) : Nat :=
  s.col.rank + closerRank s.closer + s.main.rank + (s.fwds.map (fun f => f.pc.rank)).sum
    + 3 * s.out.buf.length + 5 * (s.chans.map Producer.size).sum

/-- Invariant of a Join system over the non-nil handles hs with input c
delivering seq c: no crash, the wait group counts the forwarders that have not
finished, the output is closed only by the closing goroutine after the counter
reached zero, a forwarder past its loop has a closed and empty input, and the
delivered values can be labelled by origin such that each input that occurs
at most once in hs is split over its delivered values, the value held by its
forwarder and what is still to come. -/
def JoinSys.Inv {T : Type} (seq : Nat → List T) (hs : List Nat) (s : JoinSys T) : Prop :=
  s.crashed = false ∧ s.out.cap = 1 ∧
  (∀ (c : Nat) (p : Producer T), s.chans[c]? = some p → p.Ok) ∧
  s.fwds.map Fwd.src ++ s.main.rest.filterMap id = hs ∧
  (∀ c, c ∈ hs → c < s.chans.length) ∧
  s.wg = (s.fwds.map (fun f => f.pc.live)).sum ∧
  (match s.closer with
    | none => s.main ≠ .returned ∧ s.out.closed = false
    | some .wait => s.main = .returned ∧ s.out.closed = false
    | some .exit => s.main = .returned ∧ s.out.closed = false ∧ s.wg = 0
    | some .done => s.main = .returned ∧ s.out.closed = true ∧ s.wg = 0) ∧
  (∀ f, f ∈ s.fwds → f.pc.reading = false → inEnded s.chans[f.src]?) ∧
  (∃ lab : List Nat, lab.length = (s.col.seen ++ s.out.buf).length ∧
    (∀ l, l ∈ lab → l ∈ s.fwds.map Fwd.src) ∧
    ∀ c, hs.count c ≤ 1 →
      pick c lab (s.col.seen ++ s.out.buf) ++ held s.fwds c ++ inflow s.chans[c]? = seq c) ∧
  (∀ r, s.col = .ret r → r.isSome = true ∧ s.out.buf = [] ∧ s.out.closed = true)

/-- What holds when a Join system has come to rest. -/
def JoinSys.Final {T : Type} (seq : Nat → List T) (hs : List Nat) (s : JoinSys T) : Prop :=
  (∃ r, s.col = .ret (some r) ∧ OrderKept seq hs r) ∧
    s.main = .returned ∧ s.closer = some .done ∧ (∀ f, f ∈ s.fwds → f.pc = .done) ∧
    s.fwds.map Fwd.src = hs ∧ (∀ c, c ∈ hs → inEnded s.chans[c]?) ∧
    s.out.closed = true ∧ s.out.buf = [] ∧ s.crashed = false

/-- All values received by forwarders and not yet sent on. -/
def heldAll {T : Type} (fwds : List (Fwd T)) : List T :=
  fwds.flatMap (fun f => f.pc.hold)

/-- The values of the channels in hs (each channel once) as a multiset, for
per-channel sequences given by g. -/
def bag {T : Type} (hs : List Nat) (g : Nat → List T) : Multiset T :=
  ((hs.dedup).map (fun c => (↑(g c) : Multiset T))).sum

/-- Every value in flight in a Join system: delivered or buffered on out,
held by a forwarder, or still to come on an input in hs. -/
def JoinSys.stock {T : Type} (hs : List Nat) (s : JoinSys T) : Multiset T :=
  (↑(s.col.seen ++ s.out.buf) : Multiset T) + ↑(heldAll s.fwds)
    + bag hs (fun c => inflow s.chans[c]?)

/-- Conservation of values in a Join system: nothing is lost or duplicated,
whatever the handles are. -/
def JoinSys.Cons {T : Type} (seq : Nat → List T) (hs : List Nat) (s : JoinSys T) : Prop :=
  s.stock hs = bag hs seq

/-- The places in channel c of the values held by its forwarders, where gf
pairs every forwarder with the place in its input of the value it received
last. -/
def heldIx {T : Type} (gf : List (Fwd T × Nat)) (c : Nat) : List Nat :=
  gf.flatMap (fun a => if a.1.src = c then a.1.pc.hold.map (fun _ => a.2) else [])

/-- Bookkeeping of places in a Join system: the delivered values can be
labelled with channel and place, and every forwarder with the place of the
value it received last, such that labels and values agree, the places
delivered or held of each channel are exactly the places already received
from it, and a delivered place j of a channel passed m times comes after all
but at most m - 1 of the delivered places below j. -/
def JoinSys.Ord {T : Type} (seq : Nat → List T) (hs : List Nat) (s : JoinSys T) : Prop :=
  ∃ (lab : List (Nat × Nat)) (gf : List (Fwd T × Nat)),
    gf.map Prod.fst = s.fwds ∧
    (s.col.seen ++ s.out.buf).map some = lab.map (fun a => (seq a.1)[a.2]?) ∧
    (∀ a, a ∈ lab → a.1 ∈ s.fwds.map Fwd.src) ∧
    (∀ a v, a ∈ gf → a.1.pc = .send v → (seq a.1.src)[a.2]? = some v) ∧
    (∀ c : Nat, ∃ pre, pre ++ inflow s.chans[c]? = seq c ∧
      (↑(ixOf c lab) + ↑(heldIx gf c) : Multiset Nat) = ↑(List.range pre.length)) ∧
    ∀ l1 a, l1 ++ [a] <+: lab →
      a.2 < l1.countP (fun b => b.1 == a.1 && decide (b.2 < a.2)) + hs.count a.1

/-- Join drained by Reduce: the goroutines of a Join call, kept in sys (whose
Collect slot is not used), and a Reduce call on the output with its count of
calls of fn. -/
structure JoinReduceSys (T : Type) where
  sys : JoinSys T
  red : ReducePc T
  calls : Nat
  deriving DecidableEq

/-- The state at the call Reduce(Join(ins...), acc, fn). -/
def JoinReduce.init {T : Type} (chans : List (Producer T)) (ins : List (Option Nat)) :
    JoinReduceSys T :=
  { sys := Join chans ins, red := .entry, calls := 0 }

/-- One step of the Reduce call, which holds out only once Join has returned. -/
def JoinReduce.reduceStep {T : Type} (acc0 : T) (fn : T → T → T) (s : JoinReduceSys T) :
    Op (JoinReduceSys T) :=
  match s.sys.main with
  | .spawning _ => .block
  | .returned =>
    match Reduce.step acc0 fn (some s.sys.out) s.red with
    | .ok r =>
      .ok { sys := { s.sys with out := r.2.1.getD s.sys.out }, red := r.1,
            calls := s.calls + r.2.2 }
    | .block => .block
    | .fault => .fault

/-- Scheduler choices of Join drained by Reduce(out, acc0, fn). -/
def JoinReduce.next {T : Type} (acc0 : T) (fn : T → T → T) (s : JoinReduceSys T) :
    List (JoinReduceSys T) :=
  if s.sys.crashed then []
  else
    (Join.mainStep s.sys).succ (fun t => { s with sys := t })
        { s with sys := { s.sys with crashed := true } }
    ++ (List.range s.sys.chans.length).flatMap
        (fun i => (Join.feedStep s.sys i).succ (fun t => { s with sys := t })
          { s with sys := { s.sys with crashed := true } })
    ++ (List.range s.sys.fwds.length).flatMap
        (fun k => (Join.fwdStep s.sys k).succ (fun t => { s with sys := t })
          { s with sys := { s.sys with crashed := true } })
    ++ (Join.closerStep s.sys).succ (fun t => { s with sys := t })
        { s with sys := { s.sys with crashed := true } }
    ++ (JoinReduce.reduceStep acc0 fn s).succ id
        { s with sys := { s.sys with crashed := true } }

/-- The Reduce control state that corresponds to a Collect control state:
the accumulator is the fold of the slice collected so far. -/
def toReduce {T : Type} (acc0 : T) (fn : T → T → T) : CollectPc T → ReducePc T
  | .entry => .entry
  | .loop r => .loop (r.foldl fn acc0)
  | .ret r => .ret ((r.getD []).foldl fn acc0)

/-- The state of Join drained by Reduce that corresponds to a state of Join
drained by Collect. -/
def asReduce {T : Type} (acc0 : T) (fn : T → T → T) (s : JoinSys T) : JoinReduceSys T :=
  { sys := { s with col := .entry }, red := toReduce acc0 fn s.col, calls := s.col.seen.length }

/-- Apply a function to the result of a completed operation. -/
def Op.map {α β : Type} (f : α → β) : Op α → Op β
  | .ok a => .ok (f a)
  | .block => .block
  | .fault => .fault

/-! ## Lemmas and theorems -/

theorem Reach.inv {S : Type} {next : S → List S} {Inv : S → Prop} {s0 : S}
    (h0 : Inv s0) (hstep : ∀ s t, Inv s → t ∈ next s → Inv t) :
    ∀ s, Reach next s0 s → Inv s := by
  intro s hs
  induction hs with
  | refl => exact h0
  | tail _ hbc ih => exact hstep _ _ ih hbc

theorem Inev.of_measure {S : Type} {next : S → List S} {P : S → Prop} (Inv : S → Prop)
    (μ : S → Nat)
    (hstep : ∀ s t, Inv s → t ∈ next s → Inv t ∧ μ t < μ s)
    (hend : ∀ s, Inv s → next s = [] → P s) :
    ∀ s, Inv s → Inev next P s := by
  intro s hs
  generalize h : μ s = n
  induction n using Nat.strong_induction_on generalizing s with
  | _ n ih =>
    by_cases hn : next s = []
    · exact Inev.stop s hn (hend s hs hn)
    · refine Inev.step s hn ?_
      intro t ht
      have := hstep s t hs ht
      exact ih (μ t) (h ▸ this.2) t this.1 rfl

theorem Op.mem_succ {β S : Type} (o : Op β) (f : β → S) (bad x : S) :
    x ∈ o.succ f bad ↔ (∃ b, o = .ok b ∧ x = f b) ∨ (o = .fault ∧ x = bad) := by
  cases o <;> simp [Op.succ]

theorem Op.succ_eq_nil {β S : Type} (o : Op β) (f : β → S) (bad : S) :
    o.succ f bad = [] ↔ o = .block := by
  cases o <;> simp [Op.succ]

theorem Chan.recv_some {T : Type} {c c1 : Chan T} {v : T} (h : c.recv = .ok (some v, c1)) :
    c.buf = v :: c1.buf ∧ c1.cap = c.cap ∧ c1.closed = c.closed := by
  obtain ⟨buf, cap, closed⟩ := c
  cases buf with
  | nil => simp only [Chan.recv] at h; split at h <;> simp at h
  | cons a l => simp [Chan.recv] at h; obtain ⟨rfl, rfl⟩ := h; simp

theorem Chan.recv_none {T : Type} {c c1 : Chan T} (h : c.recv = .ok (none, c1)) :
    c.buf = [] ∧ c.closed = true ∧ c1 = c := by
  obtain ⟨buf, cap, closed⟩ := c
  cases buf with
  | nil => simp only [Chan.recv] at h; split at h <;> simp_all
  | cons a l => simp [Chan.recv] at h

theorem Chan.recv_block {T : Type} {c : Chan T} (h : c.recv = .block) :
    c.buf = [] ∧ c.closed = false := by
  obtain ⟨buf, cap, closed⟩ := c
  cases buf with
  | nil => simp only [Chan.recv] at h; split at h <;> simp_all
  | cons a l => simp [Chan.recv] at h

theorem Chan.recv_ne_fault {T : Type} (c : Chan T) : c.recv ≠ .fault := by
  obtain ⟨buf, cap, closed⟩ := c
  cases buf with
  | nil => simp only [Chan.recv]; split <;> simp
  | cons a l => simp [Chan.recv]

theorem Chan.send_ok {T : Type} {c c1 : Chan T} {v : T} (h : c.send v = .ok c1) :
    c.closed = false ∧ c.buf.length < c.cap ∧ c1.buf = c.buf ++ [v] ∧ c1.cap = c.cap ∧
      c1.closed = false := by
  obtain ⟨buf, cap, closed⟩ := c
  simp only [Chan.send] at h
  split at h
  · simp at h
  · split at h
    · simp at h; subst h; simp_all
    · simp at h

theorem Chan.send_block {T : Type} {c : Chan T} {v : T} (h : c.send v = .block) :
    c.closed = false ∧ c.cap ≤ c.buf.length := by
  simp only [Chan.send] at h
  split at h
  · simp at h
  · split at h
    · simp at h
    · simp_all

theorem Chan.send_fault {T : Type} {c : Chan T} {v : T} (h : c.send v = .fault) :
    c.closed = true := by
  simp only [Chan.send] at h
  split at h
  · assumption
  · split at h <;> simp at h

theorem Chan.close_ok {T : Type} {c c1 : Chan T} (h : c.close = .ok c1) :
    c.closed = false ∧ c1.buf = c.buf ∧ c1.cap = c.cap ∧ c1.closed = true := by
  simp only [Chan.close] at h
  split at h
  · simp at h
  · simp at h; subst h; simp_all

theorem Chan.close_ne_block {T : Type} (c : Chan T) : c.close ≠ .block := by
  simp only [Chan.close]; split <;> simp

theorem Chan.close_fault {T : Type} {c : Chan T} (h : c.close = .fault) : c.closed = true := by
  simp only [Chan.close] at h
  split at h
  · assumption
  · simp at h

theorem Producer.producer_step_ok {T : Type} {p p1 : Producer T} (h : p.step = .ok p1) :
    p.exited = false ∧ p.out.closed = false ∧ p1.out.cap = p.out.cap ∧
    ((∃ v, p.rest = v :: p1.rest ∧ p1.out.buf = p.out.buf ++ [v] ∧
        p.out.buf.length < p.out.cap ∧ p1.exited = false ∧ p1.out.closed = false) ∨
     (p.rest = [] ∧ p1.rest = [] ∧ p1.out.buf = p.out.buf ∧ p1.exited = true ∧
        p1.out.closed = true)) := by
  obtain ⟨rest, out, exited⟩ := p
  simp only [Producer.step] at h
  split at h
  · simp at h
  · cases rest with
    | nil =>
      simp only at h
      split at h <;> simp at h
      rename_i c hc
      subst h
      have := Chan.close_ok hc
      simp_all
    | cons v rest =>
      simp only at h
      split at h <;> simp at h
      rename_i c hc
      subst h
      have := Chan.send_ok hc
      simp_all

theorem Producer.step_fault {T : Type} {p : Producer T} (h : p.step = .fault) :
    p.exited = false ∧ p.out.closed = true := by
  obtain ⟨rest, out, exited⟩ := p
  simp only [Producer.step] at h
  split at h
  · simp at h
  · cases rest with
    | nil =>
      simp only at h
      split at h <;> simp at h
      rename_i hc
      have := Chan.close_fault hc
      simp_all
    | cons v rest =>
      simp only at h
      split at h <;> simp at h
      rename_i hc
      have := Chan.send_fault hc
      simp_all

theorem Producer.producer_step_block {T : Type} {p : Producer T} (h : p.step = .block) :
    p.exited = true ∨ (p.rest ≠ [] ∧ p.out.closed = false ∧ p.out.cap ≤ p.out.buf.length) := by
  obtain ⟨rest, out, exited⟩ := p
  simp only [Producer.step] at h
  split at h
  · simp_all
  · cases rest with
    | nil =>
      simp only at h
      split at h <;> simp at h
      rename_i hc
      exact absurd hc (Chan.close_ne_block _)
    | cons v rest =>
      simp only at h
      split at h <;> simp at h
      rename_i hc
      have := Chan.send_block hc
      simp_all

theorem Collect.collect_step_ok {T : Type} {c : Chan T} {pc pc1 : CollectPc T} {h1 : Option (Chan T)}
    (h : Collect.step (some c) pc = .ok (pc1, h1)) :
    (pc = .entry ∧ pc1 = .loop [] ∧ h1 = some c) ∨
    (∃ r v c1, pc = .loop r ∧ pc1 = .loop (r ++ [v]) ∧ h1 = some c1 ∧
        c.buf = v :: c1.buf ∧ c1.cap = c.cap ∧ c1.closed = c.closed) ∨
    (∃ r, pc = .loop r ∧ pc1 = .ret (some r) ∧ h1 = some c ∧ c.buf = [] ∧ c.closed = true) := by
  cases pc with
  | entry => simp [Collect.step] at h; simp [h]
  | ret r => simp [Collect.step] at h
  | loop r =>
    simp only [Collect.step] at h
    split at h <;> simp at h
    · rename_i v c1 hc
      obtain ⟨rfl, rfl⟩ := h
      have := Chan.recv_some hc
      simp_all
    · rename_i c1 hc
      obtain ⟨rfl, rfl⟩ := h
      have := Chan.recv_none hc
      simp_all

theorem Collect.collect_step_ne_fault {T : Type} (h : Option (Chan T)) (pc : CollectPc T) :
    Collect.step h pc ≠ .fault := by
  cases pc with
  | entry => cases h <;> simp [Collect.step]
  | ret r => simp [Collect.step]
  | loop r =>
    cases h with
    | none => simp [Collect.step]
    | some c =>
      simp only [Collect.step]
      split <;> simp
      rename_i hc
      exact absurd hc (Chan.recv_ne_fault _)

theorem Collect.collect_step_block {T : Type} {c : Chan T} {pc : CollectPc T}
    (h : Collect.step (some c) pc = .block) :
    (∃ r, pc = .ret r) ∨ (∃ r, pc = .loop r ∧ c.buf = [] ∧ c.closed = false) := by
  cases pc with
  | entry => simp [Collect.step] at h
  | ret r => simp
  | loop r =>
    simp only [Collect.step] at h
    split at h <;> simp at h
    rename_i hc
    have := Chan.recv_block hc
    simp_all

theorem Producer.step_inv {T : Type} {p p1 : Producer T} (hp : p.Ok) (h : p.step = .ok p1) :
    p1.Ok ∧ p1.size < p.size ∧ p1.out.buf ++ p1.rest = p.out.buf ++ p.rest ∧
      p1.out.closed = p1.exited := by
  obtain ⟨h1, h2, h3, h4⟩ := Producer.producer_step_ok h
  obtain ⟨c1, c2, c3⟩ := hp
  rcases h4 with ⟨v, e1, e2, e3, e4, e5⟩ | ⟨e1, e2, e3, e4, e5⟩
  · refine ⟨⟨by omega, by simp [e4, e5], by simp [e4]⟩, ?_, by simp [e1, e2], by simp [e4, e5]⟩
    simp [Producer.size, e1, e2, e4, h1]
    omega
  · refine ⟨⟨by omega, by simp [e4, e5], by simp [e2]⟩, ?_, by simp [e1, e2, e3], by simp [e4, e5]⟩
    simp [Producer.size, e1, e2, e3, e4, h1]

theorem Producer.step_safe {T : Type} {p : Producer T} (hp : p.Ok) : p.step ≠ .fault := by
  intro h
  have := Producer.step_fault h
  have := hp.2.1
  simp_all

theorem RelaySys.relay_inv_step {T E : Type} (act : T → Option E) (xs : List T) (s t : RelaySys T E)
    (hs : s.Inv act xs) (ht : t ∈ RelaySys.next (Relay.step act) s) :
    t.Inv act xs ∧ t.size < s.size := by
  obtain ⟨inp, pc, out, calls, col, crashed⟩ := s
  obtain ⟨hc, hcap, hin, hdata, hcalls, hpc, hcol⟩ := hs
  simp only at hc hcap hin hdata hcalls hpc hcol
  subst hc
  simp only [RelaySys.next, Bool.false_eq_true, if_false, List.mem_append, Op.mem_succ] at ht
  rcases ht with (ht | ht) | ht
  · -- the producer moves
    cases inp with
    | none => simp [feed] at ht
    | some p =>
      simp only [feed, Op.mem_succ] at ht
      rcases ht with ⟨p1, hp1, rfl⟩ | ⟨hf, _⟩
      · obtain ⟨k1, k2, k3, k4⟩ := Producer.step_inv hin hp1
        obtain ⟨q1, q2, q3, q4⟩ := Producer.producer_step_ok hp1
        refine ⟨⟨rfl, hcap, k1, ?_, ?_, ?_, hcol⟩, ?_⟩
        · simpa [inflow, k3] using hdata
        · have := congrArg List.length k3
          simp [inflow] at this hcalls ⊢
          omega
        · cases pc <;> simp_all [inEnded]
        · simp [RelaySys.size, inSize]; omega
      · exact absurd hf (Producer.step_safe hin)
  · -- the operator goroutine moves
    cases pc with
    | entry =>
      cases inp with
      | none =>
        simp [Relay.step, handleOf, putBack] at ht
        subst ht
        simp_all [RelaySys.Inv, RelaySys.size, RelayPc.rank, RelayPc.hold, inEnded, InOk]
      | some p =>
        simp [Relay.step, handleOf, putBack] at ht
        subst ht
        simp_all [RelaySys.Inv, RelaySys.size, RelayPc.rank, RelayPc.hold, inEnded, InOk, inSize]
    | loop =>
      cases inp with
      | none => simp at hpc
      | some p =>
        simp only [Relay.step, handleOf, Option.map] at ht
        obtain ⟨rest, pout, exited⟩ := p
        obtain ⟨k1, k2, k3⟩ := hin
        simp only at k1 k2 k3 ht
        cases hr : pout.recv with
        | block => simp [hr] at ht
        | fault => exact absurd hr (Chan.recv_ne_fault _)
        | ok r =>
          obtain ⟨ov, c1⟩ := r
          cases ov with
          | none =>
            obtain ⟨e1, e2, rfl⟩ := Chan.recv_none hr
            simp [hr, putBack] at ht
            subst ht
            simp_all [RelaySys.Inv, RelaySys.size, RelayPc.rank, RelayPc.hold, inEnded, InOk,
              inSize, inflow, Producer.size, Producer.Ok]
          | some v =>
            obtain ⟨e1, e2, e3⟩ := Chan.recv_some hr
            cases ha : act v with
            | none =>
              simp [hr, ha, putBack] at ht
              subst ht
              simp_all [RelaySys.Inv, RelaySys.size, RelayPc.rank, RelayPc.hold, inEnded, InOk,
                inSize, inflow, Producer.size, Producer.Ok]
              omega
            | some e =>
              simp [hr, ha, putBack] at ht
              subst ht
              simp_all [RelaySys.Inv, RelaySys.size, RelayPc.rank, RelayPc.hold, inEnded, InOk,
                inSize, inflow, Producer.size, Producer.Ok]
              constructor
              · omega
              · split <;> omega
    | send v =>
      simp only [Relay.step] at ht
      cases hr : out.send v with
      | block => simp [hr] at ht
      | fault => have := Chan.send_fault hr; simp_all
      | ok o1 =>
        obtain ⟨e1, e2, e3, e4, e5⟩ := Chan.send_ok hr
        simp [hr] at ht
        subst ht
        cases inp with
        | none => simp at hpc
        | some p =>
          simp_all [RelaySys.Inv, RelaySys.size, RelayPc.rank, RelayPc.hold, inEnded, InOk,
            inSize, inflow, Producer.size, Producer.Ok, putBack, handleOf]
    | exit =>
      simp only [Relay.step] at ht
      cases hr : out.close with
      | block => simp [hr] at ht
      | fault => have := Chan.close_fault hr; simp_all
      | ok o1 =>
        obtain ⟨e1, e2, e3, e4⟩ := Chan.close_ok hr
        simp [hr] at ht
        subst ht
        cases inp with
        | none =>
          simp_all [RelaySys.Inv, RelaySys.size, RelayPc.rank, RelayPc.hold, inEnded, InOk,
            inSize, inflow, Producer.size, Producer.Ok, putBack, handleOf]
        | some p =>
          simp_all [RelaySys.Inv, RelaySys.size, RelayPc.rank, RelayPc.hold, inEnded, InOk,
            inSize, inflow, Producer.size, Producer.Ok, putBack, handleOf]
    | done => simp [Relay.step] at ht
  · -- the consumer moves
    rcases ht with ⟨⟨pc1, h1⟩, hst, rfl⟩ | ⟨hf, _⟩
    · rcases Collect.collect_step_ok hst with ⟨rfl, rfl, rfl⟩ | ⟨r, v, c1, rfl, rfl, rfl, e1, e2, e3⟩ |
        ⟨r, rfl, rfl, rfl, e1, e2⟩
      · simp_all [RelaySys.Inv, RelaySys.size, CollectPc.rank, CollectPc.seen]
      · simp_all [RelaySys.Inv, RelaySys.size, CollectPc.rank, CollectPc.seen]
      · cases pc <;> cases inp <;>
          simp_all [RelaySys.Inv, RelaySys.size, CollectPc.rank, CollectPc.seen, inflow, inEnded,
            InOk, Producer.Ok, RelayPc.hold]
    · exact absurd hf (Collect.collect_step_ne_fault _ _)

theorem feed_eq_nil {T S : Type} (inp : Option (Producer T)) (f : Producer T → S) (bad : S) :
    feed inp f bad = [] ↔ ∀ p, inp = some p → p.step = .block := by
  cases inp <;> simp [feed, Op.succ_eq_nil]

theorem Relay.relay_step_block {T E : Type} {act : T → Option E} {h : Option (Chan T)} {out : Chan E}
    {pc : RelayPc E} (hb : Relay.step act h out pc = .block) :
    pc = .done ∨ (pc = .loop ∧ ∀ c, h = some c → c.buf = [] ∧ c.closed = false) ∨
      (∃ v, pc = .send v ∧ out.closed = false ∧ out.cap ≤ out.buf.length) := by
  cases pc with
  | entry => cases h <;> simp [Relay.step] at hb
  | loop =>
    cases h with
    | none => simp
    | some c =>
      simp only [Relay.step] at hb
      cases hr : c.recv with
      | block => have := Chan.recv_block hr; simp_all
      | fault => exact absurd hr (Chan.recv_ne_fault _)
      | ok r =>
        obtain ⟨ov, c1⟩ := r
        cases ov with
        | none => simp [hr] at hb
        | some v => cases ha : act v <;> simp [hr, ha] at hb
  | send v =>
    simp only [Relay.step] at hb
    cases hr : out.send v with
    | block => have := Chan.send_block hr; simp_all
    | fault => simp [hr] at hb
    | ok o1 => simp [hr] at hb
  | exit =>
    simp only [Relay.step] at hb
    cases hr : out.close with
    | block => exact absurd hr (Chan.close_ne_block _)
    | fault => simp [hr] at hb
    | ok o1 => simp [hr] at hb
  | done => simp

theorem RelaySys.relay_inv_end {T E : Type} (act : T → Option E) (xs : List T) (s : RelaySys T E)
    (hs : s.Inv act xs) (hn : RelaySys.next (Relay.step act) s = []) :
    s.Final (xs.filterMap act) xs.length := by
  obtain ⟨inp, pc, out, calls, col, crashed⟩ := s
  obtain ⟨hc, hcap, hin, hdata, hcalls, hpc, hcol⟩ := hs
  simp only at hc hcap hin hdata hcalls hpc hcol
  subst hc
  simp only [RelaySys.next, Bool.false_eq_true, if_false, List.append_eq_nil, Op.succ_eq_nil,
    feed_eq_nil] at hn
  obtain ⟨⟨h1, h2⟩, h3⟩ := hn
  rcases Collect.collect_step_block h3 with ⟨r, rfl⟩ | ⟨r, rfl, e1, e2⟩
  · obtain ⟨rfl, e1, e2⟩ := hcol r rfl
    clear hdata hcol
    cases pc <;> cases inp <;>
      simp_all [RelaySys.Final, inflow, inEnded, InOk, Producer.Ok, RelayPc.hold, CollectPc.seen]
  · exfalso
    rcases Relay.relay_step_block h2 with rfl | ⟨rfl, h4⟩ | ⟨v, rfl, e3, e4⟩
    · simp_all
    · cases inp with
      | none => simp at hpc
      | some p =>
        have h5 := h4 p.out (by simp [handleOf])
        have h6 := Producer.producer_step_block (h1 p rfl)
        simp [InOk, Producer.Ok] at hin
        rcases h6 with h6 | h6
        · simp_all
        · have := h5.1
          simp [this] at h6
          omega
    · simp [e1] at e4
      omega

theorem RelaySys.relay_inv_init {T E : Type} (act : T → Option E) (cap : Nat) (hcap : 0 < cap)
    (xs : List T) : (RelaySys.init (some (Producer.new cap xs)) : RelaySys T E).Inv act xs := by
  simp [RelaySys.Inv, RelaySys.init, Producer.new, makeChan, InOk, Producer.Ok, hcap,
    CollectPc.seen, RelayPc.hold, inflow]

theorem RelaySys.relay_inv_init_nil {T E : Type} (act : T → Option E) :
    (RelaySys.init none : RelaySys T E).Inv act [] := by
  simp [RelaySys.Inv, RelaySys.init, makeChan, InOk, CollectPc.seen, RelayPc.hold, inflow]

theorem RelaySys.relay_inev {T E : Type} (act : T → Option E) (xs : List T) (s : RelaySys T E)
    (hs : s.Inv act xs) :
    Inev (RelaySys.next (Relay.step act)) (RelaySys.Final (xs.filterMap act) xs.length) s :=
  Inev.of_measure (RelaySys.Inv act xs) RelaySys.size
    (fun a b ha hb => RelaySys.relay_inv_step act xs a b ha hb)
    (fun a ha hn => RelaySys.relay_inv_end act xs a ha hn) s hs

theorem Filter.filter_step_eq {T : Type} (cond : T → Bool) :
    Filter.step cond = Relay.step (fun v => if cond v then some v else none) := by
  funext h out pc
  cases pc <;> try rfl
  cases h with
  | none => rfl
  | some c =>
    simp only [Filter.step, Relay.step]
    cases c.recv with
    | block => rfl
    | fault => rfl
    | ok r =>
      obtain ⟨ov, c1⟩ := r
      cases ov with
      | none => rfl
      | some v => cases hv : cond v <;> simp [hv]

theorem Remap.remap_step_eq {T E : Type} (fn : T → E) :
    Remap.step fn = Relay.step (fun v => some (fn v)) := by
  funext h out pc
  cases pc <;> rfl

theorem Map.map_step_eq {T : Type} (fn : T → T) :
    Map.step fn = Relay.step (fun v => some (fn v)) := by
  funext h out pc
  cases pc <;> rfl

theorem Collect.step_nil {T : Type} (pc : CollectPc T) :
    Collect.step (none : Option (Chan T)) pc =
      match pc with
      | .entry => .ok (.ret none, none)
      | _ => .block := by
  cases pc <;> rfl

theorem CollectSys.collect_inv_step {T : Type} (b : Bool) (xs : List T) (s t : CollectSys T)
    (hs : s.Inv b xs) (ht : t ∈ s.next) : t.Inv b xs ∧ t.size < s.size := by
  obtain ⟨inp, col, crashed⟩ := s
  obtain ⟨hc, hb, hin, hcol⟩ := hs
  simp only at hc hb hin hcol
  subst hc
  simp only [CollectSys.next, Bool.false_eq_true, if_false, List.mem_append, Op.mem_succ] at ht
  rcases ht with ht | ht
  · cases inp with
    | none => simp [feed] at ht
    | some p =>
      simp only [feed, Op.mem_succ] at ht
      rcases ht with ⟨p1, hp1, rfl⟩ | ⟨hf, _⟩
      · obtain ⟨k1, k2, k3, k4⟩ := Producer.step_inv hin hp1
        obtain ⟨q1, q2, q3, q4⟩ := Producer.producer_step_ok hp1
        refine ⟨⟨rfl, hb, k1, ?_⟩, ?_⟩
        · cases col <;> simp_all [inEnded, inflow]
        · simp [CollectSys.size, inSize]; omega
      · exact absurd hf (Producer.step_safe hin)
  · cases inp with
    | none =>
      cases col <;> simp [handleOf, Collect.step] at ht
      subst ht
      simp_all [CollectSys.Inv, CollectSys.size, CollectPc.rank, putBack, inEnded, InOk, inflow,
        inSize]
    | some p =>
      rcases ht with ⟨⟨pc1, h1⟩, hst, rfl⟩ | ⟨hf, _⟩
      · simp only [handleOf, Option.map] at hst
        rcases Collect.collect_step_ok hst with ⟨rfl, rfl, rfl⟩ | ⟨r, v, c1, rfl, rfl, rfl, e1, e2, e3⟩ |
          ⟨r, rfl, rfl, rfl, e1, e2⟩
        · simp_all [CollectSys.Inv, CollectSys.size, CollectPc.rank, putBack, inEnded, InOk,
            inflow, inSize]
        · simp_all [CollectSys.Inv, CollectSys.size, CollectPc.rank, putBack, inEnded, InOk,
            inflow, inSize, Producer.Ok, Producer.size]
        · simp_all [CollectSys.Inv, CollectSys.size, CollectPc.rank, putBack, inEnded, InOk,
            inflow, inSize, Producer.Ok, Producer.size]
      · exact absurd hf (Collect.collect_step_ne_fault _ _)

theorem CollectSys.collect_inv_end {T : Type} (b : Bool) (xs : List T) (s : CollectSys T)
    (hs : s.Inv b xs) (hn : s.next = []) : s.Final (if b then some xs else none) := by
  obtain ⟨inp, col, crashed⟩ := s
  obtain ⟨hc, hb, hin, hcol⟩ := hs
  simp only at hc hb hin hcol
  subst hc hb
  simp only [CollectSys.next, Bool.false_eq_true, if_false, List.append_eq_nil, Op.succ_eq_nil,
    feed_eq_nil] at hn
  obtain ⟨h1, h2⟩ := hn
  cases inp with
  | none =>
    cases col <;> simp [handleOf, Collect.step] at h2
    · simp at hcol
    · simp_all [CollectSys.Final]
  | some p =>
    simp only [handleOf, Option.map] at h2
    rcases Collect.collect_step_block h2 with ⟨r, rfl⟩ | ⟨r, rfl, e1, e2⟩
    · simp_all [CollectSys.Final]
    · exfalso
      have h6 := Producer.producer_step_block (h1 p rfl)
      simp [InOk, Producer.Ok] at hin
      rcases h6 with h6 | h6
      · simp_all
      · simp [e1] at h6
        omega

theorem CollectSys.collect_inv_init {T : Type} (cap : Nat) (hcap : 0 < cap) (xs : List T) :
    (CollectSys.init (some (Producer.new cap xs))).Inv true xs := by
  simp [CollectSys.Inv, CollectSys.init, Producer.new, makeChan, InOk, Producer.Ok, hcap, inflow]

theorem CollectSys.collect_inv_init_nil {T : Type} :
    (CollectSys.init (none : Option (Producer T))).Inv false [] := by
  simp [CollectSys.Inv, CollectSys.init, InOk, inflow]

theorem Reduce.reduce_step_ok {T : Type} {acc0 : T} {fn : T → T → T} {c : Chan T} {pc pc1 : ReducePc T}
    {h1 : Option (Chan T)} {n : Nat}
    (h : Reduce.step acc0 fn (some c) pc = .ok (pc1, h1, n)) :
    (pc = .entry ∧ pc1 = .loop acc0 ∧ h1 = some c ∧ n = 0) ∨
    (∃ a v c1, pc = .loop a ∧ pc1 = .loop (fn a v) ∧ h1 = some c1 ∧ n = 1 ∧
        c.buf = v :: c1.buf ∧ c1.cap = c.cap ∧ c1.closed = c.closed) ∨
    (∃ a, pc = .loop a ∧ pc1 = .ret a ∧ h1 = some c ∧ n = 0 ∧ c.buf = [] ∧ c.closed = true) := by
  cases pc with
  | entry => simp [Reduce.step] at h; simp [h]
  | ret r => simp [Reduce.step] at h
  | loop r =>
    simp only [Reduce.step] at h
    split at h <;> simp at h
    · rename_i v c1 hc
      obtain ⟨rfl, rfl, rfl⟩ := h
      have := Chan.recv_some hc
      simp_all
    · rename_i c1 hc
      obtain ⟨rfl, rfl, rfl⟩ := h
      have := Chan.recv_none hc
      simp_all

theorem Reduce.reduce_step_ne_fault {T : Type} (acc0 : T) (fn : T → T → T) (h : Option (Chan T))
    (pc : ReducePc T) : Reduce.step acc0 fn h pc ≠ .fault := by
  cases pc with
  | entry => cases h <;> simp [Reduce.step]
  | ret r => simp [Reduce.step]
  | loop r =>
    cases h with
    | none => simp [Reduce.step]
    | some c =>
      simp only [Reduce.step]
      split <;> simp
      rename_i hc
      exact absurd hc (Chan.recv_ne_fault _)

theorem Reduce.reduce_step_block {T : Type} {acc0 : T} {fn : T → T → T} {c : Chan T} {pc : ReducePc T}
    (h : Reduce.step acc0 fn (some c) pc = .block) :
    (∃ r, pc = .ret r) ∨ (∃ r, pc = .loop r ∧ c.buf = [] ∧ c.closed = false) := by
  cases pc with
  | entry => simp [Reduce.step] at h
  | ret r => simp
  | loop r =>
    simp only [Reduce.step] at h
    split at h <;> simp at h
    rename_i hc
    have := Chan.recv_block hc
    simp_all

theorem ReduceSys.reduce_inv_step {T : Type} (acc0 : T) (fn : T → T → T) (xs : List T)
    (s t : ReduceSys T) (hs : s.Inv acc0 fn xs) (ht : t ∈ ReduceSys.next acc0 fn s) :
    t.Inv acc0 fn xs ∧ t.size < s.size := by
  obtain ⟨inp, red, calls, crashed⟩ := s
  obtain ⟨hc, hin, hred⟩ := hs
  simp only at hc hin hred
  subst hc
  simp only [ReduceSys.next, Bool.false_eq_true, if_false, List.mem_append, Op.mem_succ] at ht
  rcases ht with ht | ht
  · cases inp with
    | none => simp [feed] at ht
    | some p =>
      simp only [feed, Op.mem_succ] at ht
      rcases ht with ⟨p1, hp1, rfl⟩ | ⟨hf, _⟩
      · obtain ⟨k1, k2, k3, k4⟩ := Producer.step_inv hin hp1
        obtain ⟨q1, q2, q3, q4⟩ := Producer.producer_step_ok hp1
        refine ⟨⟨rfl, k1, ?_⟩, ?_⟩
        · cases red <;> simp_all [inEnded, inflow]
        · simp [ReduceSys.size, inSize]; omega
      · exact absurd hf (Producer.step_safe hin)
  · cases inp with
    | none =>
      cases red <;> simp [handleOf, Reduce.step] at ht
      subst ht
      simp_all [ReduceSys.Inv, ReduceSys.size, ReducePc.rank, putBack, inEnded, InOk, inflow,
        inSize]
    | some p =>
      rcases ht with ⟨⟨pc1, h1, n⟩, hst, rfl⟩ | ⟨hf, _⟩
      · simp only [handleOf, Option.map] at hst
        rcases Reduce.reduce_step_ok hst with ⟨rfl, rfl, rfl, rfl⟩ |
          ⟨r, v, c1, rfl, rfl, rfl, rfl, e1, e2, e3⟩ | ⟨r, rfl, rfl, rfl, rfl, e1, e2⟩
        · simp_all [ReduceSys.Inv, ReduceSys.size, ReducePc.rank, putBack, inEnded, InOk,
            inflow, inSize]
        · simp_all [ReduceSys.Inv, ReduceSys.size, ReducePc.rank, putBack, inEnded, InOk,
            inflow, inSize, Producer.Ok, Producer.size]
          omega
        · simp_all [ReduceSys.Inv, ReduceSys.size, ReducePc.rank, putBack, inEnded, InOk,
            inflow, inSize, Producer.Ok, Producer.size]
      · exact absurd hf (Reduce.reduce_step_ne_fault _ _ _ _)

theorem ReduceSys.reduce_inv_end {T : Type} (acc0 : T) (fn : T → T → T) (xs : List T)
    (s : ReduceSys T) (hs : s.Inv acc0 fn xs) (hn : ReduceSys.next acc0 fn s = []) :
    s.Final (xs.foldl fn acc0) xs.length := by
  obtain ⟨inp, red, calls, crashed⟩ := s
  obtain ⟨hc, hin, hred⟩ := hs
  simp only at hc hin hred
  subst hc
  simp only [ReduceSys.next, Bool.false_eq_true, if_false, List.append_eq_nil, Op.succ_eq_nil,
    feed_eq_nil] at hn
  obtain ⟨h1, h2⟩ := hn
  cases inp with
  | none =>
    cases red <;> simp [handleOf, Reduce.step] at h2
    · simp at hred
    · simp_all [ReduceSys.Final]
  | some p =>
    simp only [handleOf, Option.map] at h2
    rcases Reduce.reduce_step_block h2 with ⟨r, rfl⟩ | ⟨r, rfl, e1, e2⟩
    · simp_all [ReduceSys.Final]
    · exfalso
      have h6 := Producer.producer_step_block (h1 p rfl)
      simp [InOk, Producer.Ok] at hin
      rcases h6 with h6 | h6
      · simp_all
      · simp [e1] at h6
        omega

theorem ReduceSys.reduce_inv_init {T : Type} (acc0 : T) (fn : T → T → T) (cap : Nat) (hcap : 0 < cap)
    (xs : List T) : (ReduceSys.init (some (Producer.new cap xs))).Inv acc0 fn xs := by
  simp [ReduceSys.Inv, ReduceSys.init, Producer.new, makeChan, InOk, Producer.Ok, hcap, inflow]

theorem ReduceSys.reduce_inv_init_nil {T : Type} (acc0 : T) (fn : T → T → T) :
    (ReduceSys.init (none : Option (Producer T))).Inv acc0 fn [] := by
  simp [ReduceSys.Inv, ReduceSys.init, InOk, inflow]

theorem Chan.close_eq {T : Type} {c c1 : Chan T} (h : c.close = .ok c1) :
    c.closed = false ∧ c1 = { c with closed := true } := by
  simp only [Chan.close] at h
  split at h
  · simp at h
  · simp at h; subst h; simp_all

theorem SplitSys.split_inv_step {T : Type} (cond : T → Bool) (xs : List T) (s t : SplitSys T)
    (hs : s.Inv cond xs) (ht : t ∈ SplitSys.next cond s) :
    t.Inv cond xs ∧ t.size < s.size := by
  obtain ⟨inp, pc, out1, out2, calls, col1, col2, crashed⟩ := s
  obtain ⟨hc, hcap1, hcap2, hin, hd1, hd2, hcalls, hpc, hcol1, hcol2⟩ := hs
  simp only at hc hcap1 hcap2 hin hd1 hd2 hcalls hpc hcol1 hcol2
  subst hc
  simp only [SplitSys.next, Bool.false_eq_true, if_false, List.mem_append, Op.mem_succ] at ht
  rcases ht with ((ht | ht) | ht) | ht
  · -- the producer moves
    cases inp with
    | none => simp [feed] at ht
    | some p =>
      simp only [feed, Op.mem_succ] at ht
      rcases ht with ⟨p1, hp1, rfl⟩ | ⟨hf, _⟩
      · obtain ⟨k1, k2, k3, k4⟩ := Producer.step_inv hin hp1
        obtain ⟨q1, q2, q3, q4⟩ := Producer.producer_step_ok hp1
        refine ⟨⟨rfl, hcap1, hcap2, k1, ?_, ?_, ?_, ?_, hcol1, hcol2⟩, ?_⟩
        · simpa [inflow, k3] using hd1
        · simpa [inflow, k3] using hd2
        · have := congrArg List.length k3
          simp [inflow] at this hcalls ⊢
          omega
        · cases pc <;> simp_all [inEnded]
        · simp [SplitSys.size, inSize]; omega
      · exact absurd hf (Producer.step_safe hin)
  · -- the Split goroutine moves
    cases pc with
    | entry =>
      cases inp with
      | none =>
        simp [Split.step] at ht
        subst ht
        simp_all [SplitSys.Inv, SplitSys.size, SplitPc.rank, SplitPc.hold1, SplitPc.hold2,
          inEnded, InOk]
      | some p =>
        simp [Split.step] at ht
        subst ht
        simp_all [SplitSys.Inv, SplitSys.size, SplitPc.rank, SplitPc.hold1, SplitPc.hold2,
          inEnded, InOk, inSize]
    | loop =>
      cases inp with
      | none => simp at hpc
      | some p =>
        simp only [Split.step] at ht
        obtain ⟨rest, pout, exited⟩ := p
        obtain ⟨k1, k2, k3⟩ := hin
        simp only at k1 k2 k3 ht
        cases hr : pout.recv with
        | block => simp [hr] at ht
        | fault => exact absurd hr (Chan.recv_ne_fault _)
        | ok r =>
          obtain ⟨ov, c1⟩ := r
          cases ov with
          | none =>
            obtain ⟨e1, e2, rfl⟩ := Chan.recv_none hr
            simp [hr] at ht
            subst ht
            simp_all [SplitSys.Inv, SplitSys.size, SplitPc.rank, SplitPc.hold1, SplitPc.hold2,
              inEnded, InOk, inSize, inflow, Producer.size, Producer.Ok]
          | some v =>
            obtain ⟨e1, e2, e3⟩ := Chan.recv_some hr
            cases ha : cond v with
            | false =>
              simp [hr, ha] at ht
              subst ht
              simp_all [SplitSys.Inv, SplitSys.size, SplitPc.rank, SplitPc.hold1, SplitPc.hold2,
                inEnded, InOk, inSize, inflow, Producer.size, Producer.Ok]
              constructor
              · omega
              · split <;> omega
            | true =>
              simp [hr, ha] at ht
              subst ht
              simp_all [SplitSys.Inv, SplitSys.size, SplitPc.rank, SplitPc.hold1, SplitPc.hold2,
                inEnded, InOk, inSize, inflow, Producer.size, Producer.Ok]
              constructor
              · omega
              · split <;> omega
    | send1 v =>
      simp only [Split.step] at ht
      cases hr : out1.send v with
      | block => simp [hr] at ht
      | fault => have := Chan.send_fault hr; simp_all
      | ok o1 =>
        obtain ⟨e1, e2, e3, e4, e5⟩ := Chan.send_ok hr
        simp [hr] at ht
        subst ht
        cases inp with
        | none => simp at hpc
        | some p =>
          simp_all [SplitSys.Inv, SplitSys.size, SplitPc.rank, SplitPc.hold1, SplitPc.hold2,
            inEnded, InOk, inSize, inflow, Producer.size, Producer.Ok]
    | send2 v =>
      simp only [Split.step] at ht
      cases hr : out2.send v with
      | block => simp [hr] at ht
      | fault => have := Chan.send_fault hr; simp_all
      | ok o1 =>
        obtain ⟨e1, e2, e3, e4, e5⟩ := Chan.send_ok hr
        simp [hr] at ht
        subst ht
        cases inp with
        | none => simp at hpc
        | some p =>
          simp_all [SplitSys.Inv, SplitSys.size, SplitPc.rank, SplitPc.hold1, SplitPc.hold2,
            inEnded, InOk, inSize, inflow, Producer.size, Producer.Ok]
          omega
    | close1 =>
      simp only [Split.step] at ht
      cases hr : out1.close with
      | block => simp [hr] at ht
      | fault => have := Chan.close_fault hr; simp_all
      | ok o1 =>
        obtain ⟨e1, rfl⟩ := Chan.close_eq hr
        simp [hr] at ht
        subst ht
        clear hr
        cases inp <;>
          simp_all [SplitSys.Inv, SplitSys.size, SplitPc.rank, SplitPc.hold1, SplitPc.hold2,
            inEnded, InOk, inSize, inflow, Producer.size, Producer.Ok]
    | close2 =>
      simp only [Split.step] at ht
      cases hr : out2.close with
      | block => simp [hr] at ht
      | fault => have := Chan.close_fault hr; simp_all
      | ok o1 =>
        obtain ⟨e1, rfl⟩ := Chan.close_eq hr
        simp [hr] at ht
        subst ht
        clear hr
        cases inp <;>
          simp_all [SplitSys.Inv, SplitSys.size, SplitPc.rank, SplitPc.hold1, SplitPc.hold2,
            inEnded, InOk, inSize, inflow, Producer.size, Producer.Ok]
    | done => simp [Split.step] at ht
  · -- the consumer of out1 moves
    rcases ht with ⟨⟨pc1, h1⟩, hst, rfl⟩ | ⟨hf, _⟩
    · rcases Collect.collect_step_ok hst with ⟨rfl, rfl, rfl⟩ | ⟨r, v, c1, rfl, rfl, rfl, e1, e2, e3⟩ |
        ⟨r, rfl, rfl, rfl, e1, e2⟩
      · simp_all [SplitSys.Inv, SplitSys.size, CollectPc.rank, CollectPc.seen]
      · simp_all [SplitSys.Inv, SplitSys.size, CollectPc.rank, CollectPc.seen]
      · cases pc <;> cases inp <;>
          simp_all [SplitSys.Inv, SplitSys.size, CollectPc.rank, CollectPc.seen, inflow, inEnded,
            InOk, Producer.Ok, SplitPc.hold1, SplitPc.hold2]
    · exact absurd hf (Collect.collect_step_ne_fault _ _)
  · -- the consumer of out2 moves
    rcases ht with ⟨⟨pc1, h1⟩, hst, rfl⟩ | ⟨hf, _⟩
    · rcases Collect.collect_step_ok hst with ⟨rfl, rfl, rfl⟩ | ⟨r, v, c1, rfl, rfl, rfl, e1, e2, e3⟩ |
        ⟨r, rfl, rfl, rfl, e1, e2⟩
      · simp_all [SplitSys.Inv, SplitSys.size, CollectPc.rank, CollectPc.seen]
      · simp_all [SplitSys.Inv, SplitSys.size, CollectPc.rank, CollectPc.seen]
      · cases pc <;> cases inp <;>
          simp_all [SplitSys.Inv, SplitSys.size, CollectPc.rank, CollectPc.seen, inflow, inEnded,
            InOk, Producer.Ok, SplitPc.hold1, SplitPc.hold2]
    · exact absurd hf (Collect.collect_step_ne_fault _ _)

theorem Split.split_step_block {T : Type} {cond : T → Bool} {s : SplitSys T}
    (hb : Split.step cond s = .block) :
    s.pc = .done ∨ (s.pc = .loop ∧ ∀ p, s.inp = some p → p.out.buf = [] ∧ p.out.closed = false) ∨
      (∃ v, s.pc = .send1 v ∧ s.out1.closed = false ∧ s.out1.cap ≤ s.out1.buf.length) ∨
      (∃ v, s.pc = .send2 v ∧ s.out2.closed = false ∧ s.out2.cap ≤ s.out2.buf.length) := by
  obtain ⟨inp, pc, out1, out2, calls, col1, col2, crashed⟩ := s
  cases pc with
  | entry => cases inp <;> simp [Split.step] at hb
  | loop =>
    cases inp with
    | none => simp
    | some p =>
      simp only [Split.step] at hb
      cases hr : p.out.recv with
      | block => have := Chan.recv_block hr; simp_all
      | fault => exact absurd hr (Chan.recv_ne_fault _)
      | ok r =>
        obtain ⟨ov, c1⟩ := r
        cases ov with
        | none => simp [hr] at hb
        | some v => cases ha : cond v <;> simp [hr, ha] at hb
  | send1 v =>
    simp only [Split.step] at hb
    cases hr : out1.send v with
    | block => have := Chan.send_block hr; simp_all
    | fault => simp [hr] at hb
    | ok o1 => simp [hr] at hb
  | send2 v =>
    simp only [Split.step] at hb
    cases hr : out2.send v with
    | block => have := Chan.send_block hr; simp_all
    | fault => simp [hr] at hb
    | ok o1 => simp [hr] at hb
  | close1 =>
    simp only [Split.step] at hb
    cases hr : out1.close with
    | block => exact absurd hr (Chan.close_ne_block _)
    | fault => simp [hr] at hb
    | ok o1 => simp [hr] at hb
  | close2 =>
    simp only [Split.step] at hb
    cases hr : out2.close with
    | block => exact absurd hr (Chan.close_ne_block _)
    | fault => simp [hr] at hb
    | ok o1 => simp [hr] at hb
  | done => simp

theorem SplitSys.split_inv_end {T : Type} (cond : T → Bool) (xs : List T) (s : SplitSys T)
    (hs : s.Inv cond xs) (hn : SplitSys.next cond s = []) :
    s.Final (xs.filter cond) (xs.filter (fun v => !cond v)) xs.length := by
  obtain ⟨hc, hcap1, hcap2, hin, hd1, hd2, hcalls, hpc, hcol1, hcol2⟩ := hs
  simp only [SplitSys.next, hc, Bool.false_eq_true, if_false, List.append_eq_nil, Op.succ_eq_nil,
    feed_eq_nil] at hn
  obtain ⟨⟨⟨h1, h2⟩, h3⟩, h4⟩ := hn
  have hb := Split.split_step_block h2
  obtain ⟨inp, pc, out1, out2, calls, col1, col2, crashed⟩ := s
  simp only at hc hcap1 hcap2 hin hd1 hd2 hcalls hpc hcol1 hcol2 h1 h3 h4 hb
  subst hc
  clear h2
  have key : pc = .done := by
    rcases hb with rfl | ⟨rfl, h5⟩ | ⟨v, rfl, e3, e4⟩ | ⟨v, rfl, e3, e4⟩
    · rfl
    · exfalso
      cases inp with
      | none => simp at hpc
      | some p =>
        have h5 := h5 p rfl
        have h6 := Producer.producer_step_block (h1 p rfl)
        simp [InOk, Producer.Ok] at hin
        rcases h6 with h6 | h6
        · simp_all
        · simp [h5.1] at h6
          omega
    · exfalso
      rcases Collect.collect_step_block h3 with ⟨r, rfl⟩ | ⟨r, rfl, e1, e2⟩
      · have := hcol1 r rfl
        simp_all
      · simp [e1] at e4
        omega
    · exfalso
      rcases Collect.collect_step_block h4 with ⟨r, rfl⟩ | ⟨r, rfl, e1, e2⟩
      · have := hcol2 r rfl
        simp_all
      · simp [e1] at e4
        omega
  subst key
  simp only at hpc
  obtain ⟨c1, c2, c3⟩ := hpc
  have hflow : inflow inp = [] := by
    cases inp with
    | none => rfl
    | some p => simp_all [inEnded, InOk, Producer.Ok, inflow]
  rcases Collect.collect_step_block h3 with ⟨r1, rfl⟩ | ⟨r, rfl, e1, e2⟩
  · rcases Collect.collect_step_block h4 with ⟨r2, rfl⟩ | ⟨r, rfl, e1, e2⟩
    · obtain ⟨a1, a2, a3⟩ := hcol1 r1 rfl
      obtain ⟨b1, b2, b3⟩ := hcol2 r2 rfl
      cases r1 with
      | none => simp at a1
      | some l1 =>
        cases r2 with
        | none => simp at b1
        | some l2 =>
          simp [hflow, a2, b2, CollectPc.seen, SplitPc.hold1, SplitPc.hold2] at hd1 hd2 hcalls
          simp [SplitSys.Final, hd1, hd2, c1, c2, c3, a2, b2, hcalls]
    · simp_all
  · simp_all

theorem SplitSys.split_inv_init {T : Type} (cond : T → Bool) (cap : Nat) (hcap : 0 < cap)
    (xs : List T) : (SplitSys.init (some (Producer.new cap xs))).Inv cond xs := by
  simp [SplitSys.Inv, SplitSys.init, Producer.new, makeChan, InOk, Producer.Ok, hcap,
    CollectPc.seen, SplitPc.hold1, SplitPc.hold2, inflow]

theorem SplitSys.split_inv_init_nil {T : Type} (cond : T → Bool) :
    (SplitSys.init (none : Option (Producer T))).Inv cond [] := by
  simp [SplitSys.Inv, SplitSys.init, makeChan, InOk, CollectPc.seen, SplitPc.hold1,
    SplitPc.hold2, inflow]

theorem set_decomp {α : Type} {l : List α} {k : Nat} {a : α} (h : l[k]? = some a) :
    ∃ l1 l2, l = l1 ++ a :: l2 ∧ l1.length = k ∧ ∀ b, l.set k b = l1 ++ b :: l2 := by
  induction l generalizing k with
  | nil => simp at h
  | cons x l ih =>
    cases k with
    | zero =>
      simp at h
      subst h
      exact ⟨[], l, rfl, rfl, fun b => rfl⟩
    | succ k =>
      simp at h
      obtain ⟨l1, l2, e1, e2, e3⟩ := ih h
      refine ⟨x :: l1, l2, by simp [e1], by simp [e2], fun b => ?_⟩
      simp [e3]

theorem sum_map_set {α : Type} (g : α → Nat) {l : List α} {k : Nat} {a : α}
    (h : l[k]? = some a) (b : α) :
    ((l.set k b).map g).sum + g a = (l.map g).sum + g b := by
  obtain ⟨l1, l2, e1, _, e3⟩ := set_decomp h
  rw [e3 b, e1]
  simp
  omega

theorem held_append {T : Type} (l1 l2 : List (Fwd T)) (c : Nat) :
    held (l1 ++ l2) c = held l1 c ++ held l2 c := by
  simp [held]

theorem held_cons {T : Type} (f : Fwd T) (l : List (Fwd T)) (c : Nat) :
    held (f :: l) c = (if f.src = c then f.pc.hold else []) ++ held l c := by
  simp [held]

theorem held_eq_nil {T : Type} (l : List (Fwd T)) (c : Nat)
    (h : ∀ g, g ∈ l → g.src = c → g.pc.hold = []) : held l c = [] := by
  induction l with
  | nil => rfl
  | cons f l ih =>
    rw [held_cons, ih (fun g hg => h g (List.mem_cons_of_mem _ hg))]
    by_cases hc : f.src = c
    · simp [hc, h f (List.mem_cons_self _ _) hc]
    · simp [hc]

theorem pick_snoc {T : Type} (c l : Nat) (lab : List Nat) (d : List T) (v : T)
    (h : lab.length = d.length) :
    pick c (lab ++ [l]) (d ++ [v]) = pick c lab d ++ (if l = c then [v] else []) := by
  unfold pick
  rw [List.zip_append h]
  by_cases hl : l = c <;> simp [List.filter_append, hl, List.filter_cons]

theorem pick_nil {T : Type} (c : Nat) : pick c [] ([] : List T) = [] := rfl

theorem pick_nil_of_not_mem {T : Type} (c : Nat) (lab : List Nat) (d : List T)
    (h : c ∉ lab) : pick c lab d = [] := by
  unfold pick
  simp only [List.map_eq_nil_iff, List.filter_eq_nil_iff]
  intro a ha
  have := (List.of_mem_zip ha).1
  simp
  intro hc
  exact h (hc ▸ this)

theorem Join.main_inv {T : Type} (seq : Nat → List T) (hs : List Nat) (s t : JoinSys T)
    (hinv : s.Inv seq hs) (ht : Join.mainStep s = .ok t) : t.Inv seq hs ∧ t.size < s.size := by
  obtain ⟨chans, main, fwds, wg, closer, out, col, crashed⟩ := s
  obtain ⟨hc, hcap, hok, hhs, hval, hwg, hcl, hend, hdata, hcol⟩ := hinv
  simp only at hc hcap hok hhs hval hwg hcl hend hdata hcol
  subst hc
  cases main with
  | returned => simp [Join.mainStep] at ht
  | spawning rest =>
    cases rest with
    | nil =>
      simp [Join.mainStep] at ht
      subst ht
      cases closer with
      | some cl => cases cl <;> simp at hcl
      | none =>
        refine ⟨⟨rfl, hcap, hok, ?_, hval, hwg, ?_, hend, hdata, hcol⟩, ?_⟩
        · simpa [JoinPc.rest] using hhs
        · simpa using hcl.2
        · simp [JoinSys.size, JoinPc.rank, closerRank]
    | cons h rest =>
      cases h with
      | none =>
        simp [Join.mainStep] at ht
        subst ht
        refine ⟨⟨rfl, hcap, hok, ?_, hval, hwg, ?_, hend, hdata, hcol⟩, ?_⟩
        · simpa [JoinPc.rest] using hhs
        · cases closer with
          | some cl => cases cl <;> simp at hcl
          | none => simpa using hcl
        · simp [JoinSys.size, JoinPc.rank]
      | some c =>
        simp [Join.mainStep] at ht
        subst ht
        refine ⟨⟨rfl, hcap, hok, ?_, hval, ?_, ?_, ?_, ?_, hcol⟩, ?_⟩
        · simpa [JoinPc.rest] using hhs
        · simp [hwg, FwdPc.live]
        · cases closer with
          | some cl => cases cl <;> simp at hcl
          | none => simpa using hcl
        · intro f hf hr
          simp at hf
          rcases hf with hf | rfl
          · exact hend f hf hr
          · simp [FwdPc.reading] at hr
        · obtain ⟨lab, hl1, hl2, hl3⟩ := hdata
          refine ⟨lab, hl1, ?_, ?_⟩
          · intro l hl
            have := hl2 l hl
            simp at this ⊢
            exact Or.inl this
          · intro c1 hc1
            simpa [held_append, held_cons, FwdPc.hold, held] using hl3 c1 hc1
        · simp [JoinSys.size, JoinPc.rank, FwdPc.rank]
          omega

theorem Join.main_safe {T : Type} (s : JoinSys T) : Join.mainStep s ≠ .fault := by
  obtain ⟨chans, main, fwds, wg, closer, out, col, crashed⟩ := s
  cases main with
  | returned => simp [Join.mainStep]
  | spawning rest =>
    cases rest with
    | nil => simp [Join.mainStep]
    | cons h rest => cases h <;> simp [Join.mainStep]

theorem Join.feed_inv {T : Type} (seq : Nat → List T) (hs : List Nat) (s t : JoinSys T) (i : Nat)
    (hinv : s.Inv seq hs) (ht : Join.feedStep s i = .ok t) : t.Inv seq hs ∧ t.size < s.size := by
  obtain ⟨chans, main, fwds, wg, closer, out, col, crashed⟩ := s
  obtain ⟨hc, hcap, hok, hhs, hval, hwg, hcl, hend, hdata, hcol⟩ := hinv
  simp only at hc hcap hok hhs hval hwg hcl hend hdata hcol
  subst hc
  simp only [Join.feedStep] at ht
  cases hp : chans[i]? with
  | none => simp [hp] at ht
  | some p =>
    simp only [hp] at ht
    cases hst : p.step with
    | block => simp [hst] at ht
    | fault => simp [hst] at ht
    | ok p1 =>
      simp [hst] at ht
      subst ht
      obtain ⟨k1, k2, k3, k4⟩ := Producer.step_inv (hok i p hp) hst
      obtain ⟨q1, q2, q3, q4⟩ := Producer.producer_step_ok hst
      have hi : i < chans.length := by
        by_contra hcon
        rw [List.getElem?_eq_none (by omega)] at hp
        simp at hp
      refine ⟨⟨rfl, hcap, ?_, hhs, ?_, hwg, hcl, ?_, ?_, hcol⟩, ?_⟩
      · intro c p2 hp2
        simp only [List.getElem?_set] at hp2
        split at hp2
        · simp [hi] at hp2
          subst hp2
          exact k1
        · exact hok c p2 hp2
      · simpa using hval
      · intro f hf hr
        have := hend f hf hr
        simp only [List.getElem?_set]
        split
        · rename_i hfi
          subst hfi
          simp [hp, inEnded, q1] at this
        · exact this
      · obtain ⟨lab, hl1, hl2, hl3⟩ := hdata
        refine ⟨lab, hl1, hl2, ?_⟩
        intro c hc1
        have := hl3 c hc1
        simp only [List.getElem?_set]
        split
        · rename_i hfi
          subst hfi
          rw [hp] at this
          simpa [hi, inflow, k3] using this
        · exact this
      · have := sum_map_set Producer.size hp p1
        simp only [JoinSys.size]
        omega

theorem Join.feed_safe {T : Type} (seq : Nat → List T) (hs : List Nat) (s : JoinSys T) (i : Nat)
    (hinv : s.Inv seq hs) : Join.feedStep s i ≠ .fault := by
  obtain ⟨hc, hcap, hok, _⟩ := hinv
  simp only [Join.feedStep]
  cases hp : s.chans[i]? with
  | none => simp
  | some p =>
    simp only
    cases hst : p.step with
    | block => simp
    | ok p1 => simp
    | fault => exact absurd hst (Producer.step_safe (hok i p hp))

theorem Chan.send_eq {T : Type} {c c1 : Chan T} {v : T} (h : c.send v = .ok c1) :
    c.closed = false ∧ c.buf.length < c.cap ∧ c1 = { c with buf := c.buf ++ [v] } := by
  simp only [Chan.send] at h
  split at h
  · simp at h
  · split at h
    · simp at h; subst h; simp_all
    · simp at h

/-- Facts about a forwarder sitting at position k of the list whose input
occurs at most once among the handles. -/
theorem fwd_split {T : Type} {fwds : List (Fwd T)} {k : Nat} {f : Fwd T} {rest : List Nat}
    {hs : List Nat} (hk : fwds[k]? = some f) (hhs : fwds.map Fwd.src ++ rest = hs)
    (hnd : hs.count f.src ≤ 1) :
    ∃ l1 l2, fwds = l1 ++ f :: l2 ∧ l1.length = k ∧
      (∀ g, g ∈ l1 → g.src ≠ f.src) ∧ (∀ g, g ∈ l2 → g.src ≠ f.src) := by
  obtain ⟨l1, l2, e1, e2, e3⟩ := set_decomp hk
  subst e1
  rw [← hhs] at hnd
  simp only [List.map_append, List.map_cons, List.count_append, List.count_cons_self] at hnd
  refine ⟨l1, l2, rfl, e2, ?_, ?_⟩
  · intro g hg hsrc
    have h2 : f.src ∈ l1.map Fwd.src := hsrc ▸ List.mem_map_of_mem _ hg
    have := List.count_pos_iff.2 h2
    omega
  · intro g hg hsrc
    have h2 : f.src ∈ l2.map Fwd.src := hsrc ▸ List.mem_map_of_mem _ hg
    have := List.count_pos_iff.2 h2
    omega

theorem held_mid {T : Type} (l1 l2 : List (Fwd T)) (f : Fwd T)
    (h1 : ∀ g, g ∈ l1 → g.src ≠ f.src) (h2 : ∀ g, g ∈ l2 → g.src ≠ f.src) :
    held (l1 ++ f :: l2) f.src = f.pc.hold := by
  rw [held_append, held_cons, held_eq_nil l1 _ (fun g hg hc => absurd hc (h1 g hg)),
    held_eq_nil l2 _ (fun g hg hc => absurd hc (h2 g hg))]
  simp

theorem held_other {T : Type} (l1 l2 : List (Fwd T)) (f f1 : Fwd T) (c : Nat)
    (h : f.src ≠ c) (h1 : f1.src = f.src) :
    held (l1 ++ f1 :: l2) c = held (l1 ++ f :: l2) c := by
  simp [held_append, held_cons, h, h1]

theorem live_pos {T : Type} (l1 l2 : List (Fwd T)) (f : Fwd T) (h : f.pc.live = 1) :
    0 < ((l1 ++ f :: l2).map (fun f => f.pc.live)).sum := by
  simp [h]

theorem Join.fwd_inv {T : Type} (seq : Nat → List T) (hs : List Nat)
    (s t : JoinSys T) (k : Nat)
    (hinv : s.Inv seq hs) (ht : Join.fwdStep s k = .ok t) : t.Inv seq hs ∧ t.size < s.size := by
  obtain ⟨chans, main, fwds, wg, closer, out, col, crashed⟩ := s
  obtain ⟨hc, hcap, hok, hhs, hval, hwg, hcl, hend, hdata, hcol⟩ := hinv
  simp only at hc hcap hok hhs hval hwg hcl hend hdata hcol
  subst hc
  simp only [Join.fwdStep] at ht
  cases hk : fwds[k]? with
  | none => simp [hk] at ht
  | some f =>
    simp only [hk] at ht
    have hsplit := fun hnd : hs.count f.src ≤ 1 => fwd_split hk hhs hnd
    obtain ⟨l1, l2, rfl, _, hset⟩ := set_decomp hk
    obtain ⟨src, pc⟩ := f
    simp only at ht
    cases pc with
    | done => simp at ht
    | exit =>
      have hpos := live_pos l1 l2 ⟨src, .exit⟩ rfl
      have hwg0 : wg ≠ 0 := by omega
      simp [hwg0, hset] at ht
      subst ht
      refine ⟨⟨rfl, hcap, hok, ?_, hval, ?_, ?_, ?_, ?_, hcol⟩, ?_⟩
      · simpa using hhs
      · simp [FwdPc.live] at hwg ⊢
        omega
      · cases closer with
        | none => simpa using hcl
        | some cl =>
          cases cl with
          | wait => simpa using hcl
          | exit => simp at hcl; omega
          | done => simp at hcl; omega
      · intro g hg hr
        simp at hg
        rcases hg with hg | rfl | hg
        · exact hend g (by simp [hg]) hr
        · exact hend ⟨src, .exit⟩ (by simp) rfl
        · exact hend g (by simp [hg]) hr
      · obtain ⟨lab, hl1, hl2, hl3⟩ := hdata
        refine ⟨lab, hl1, by simpa using hl2, ?_⟩
        intro c hc1
        simpa [held_append, held_cons, FwdPc.hold] using hl3 c hc1
      · simp [JoinSys.size, FwdPc.rank]
    | send v =>
      cases hr : out.send v with
      | block => simp [hr] at ht
      | fault => simp [hr] at ht
      | ok o1 =>
        obtain ⟨e1, e2, rfl⟩ := Chan.send_eq hr
        simp [hr, hset] at ht
        subst ht
        refine ⟨⟨rfl, hcap, hok, ?_, hval, ?_, ?_, ?_, ?_, ?_⟩, ?_⟩
        · simpa using hhs
        · simpa [FwdPc.live] using hwg
        · cases closer with
          | none => simpa using hcl
          | some cl => cases cl <;> simp_all
        · intro g hg hr
          simp at hg
          rcases hg with hg | rfl | hg
          · exact hend g (by simp [hg]) hr
          · simp [FwdPc.reading] at hr
          · exact hend g (by simp [hg]) hr
        · obtain ⟨lab, hl1, hl2, hl3⟩ := hdata
          refine ⟨lab ++ [src], ?_, ?_, ?_⟩
          · simp at hl1 ⊢
            omega
          · intro l hl
            simp at hl
            rcases hl with hl | rfl
            · simpa using hl2 l hl
            · simp
          · intro c hc1
            have h3 := hl3 c hc1
            simp only [← List.append_assoc]
            rw [pick_snoc c src lab _ v (by simpa using hl1)]
            by_cases hsc : src = c
            · subst hsc
              obtain ⟨m1, m2, hm, _, hd1, hd2⟩ := hsplit hc1
              obtain ⟨rfl, hm2⟩ := List.append_inj hm (by
                have := congrArg List.length hm
                simp at this
                omega)
              simp only [List.cons.injEq, true_and] at hm2
              subst hm2
              simp only at hd1 hd2
              have a1 := held_mid l1 l2 ⟨src, FwdPc.send v⟩ hd1 hd2
              have a2 := held_mid l1 l2 ⟨src, FwdPc.loop⟩ hd1 hd2
              simp only at a1 a2
              rw [a1] at h3
              rw [a2]
              simpa [FwdPc.hold] using h3
            · rw [held_other l1 l2 ⟨src, FwdPc.send v⟩ ⟨src, FwdPc.loop⟩ c hsc rfl]
              simpa [hsc] using h3
        · intro r hr
          have := hcol r hr
          simp_all
        · simp [JoinSys.size, FwdPc.rank]
          omega
    | loop =>
      cases hp : chans[src]? with
      | none => simp [hp] at ht
      | some p =>
        simp only [hp] at ht
        have hi : src < chans.length := by
          by_contra hcon
          rw [List.getElem?_eq_none (by omega)] at hp
          simp at hp
        have hpok := hok src p hp
        obtain ⟨prest, pout, pexited⟩ := p
        obtain ⟨k1, k2, k3⟩ := hpok
        simp only at k1 k2 k3 ht
        cases hr : pout.recv with
        | block => simp [hr] at ht
        | fault => simp [hr] at ht
        | ok r =>
          obtain ⟨ov, c1⟩ := r
          cases ov with
          | none =>
            obtain ⟨e1, e2, rfl⟩ := Chan.recv_none hr
            simp [hr, hset] at ht
            subst ht
            have hsame : chans.set src ⟨prest, c1, pexited⟩ = chans := by
              apply List.ext_getElem?
              intro j
              simp only [List.getElem?_set]
              split
              · rename_i hj
                subst hj
                simp [hi, hp]
              · rfl
            rw [hsame]
            refine ⟨⟨rfl, hcap, hok, ?_, hval, ?_, hcl, ?_, ?_, hcol⟩, ?_⟩
            · simpa using hhs
            · simpa [FwdPc.live] using hwg
            · intro g hg hr
              simp at hg
              rcases hg with hg | rfl | hg
              · exact hend g (by simp [hg]) hr
              · simp [hp, inEnded, e1, ← k2, e2]
              · exact hend g (by simp [hg]) hr
            · obtain ⟨lab, hl1, hl2, hl3⟩ := hdata
              refine ⟨lab, hl1, by simpa using hl2, ?_⟩
              intro c hc1
              simpa [held_append, held_cons, FwdPc.hold] using hl3 c hc1
            · simp [JoinSys.size, FwdPc.rank]
          | some v =>
            obtain ⟨e1, e2, e3⟩ := Chan.recv_some hr
            simp [hr, hset] at ht
            subst ht
            have hkeep : ∀ g : Fwd T, g ∈ l1 ++ ⟨src, FwdPc.loop⟩ :: l2 → g.pc.reading = false →
                inEnded (chans.set src ⟨prest, c1, pexited⟩)[g.src]? := by
              intro g hg hr
              have := hend g hg hr
              by_cases hgs : src = g.src
              · rw [← hgs, hp] at this
                simp [inEnded, e1] at this
              · rwa [List.getElem?_set_ne hgs]
            refine ⟨⟨rfl, hcap, ?_, ?_, ?_, ?_, hcl, ?_, ?_, hcol⟩, ?_⟩
            · intro c p2 hp2
              simp only [List.getElem?_set] at hp2
              split at hp2
              · simp [hi] at hp2
                subst hp2
                exact ⟨by simpa [e2] using k1, by simpa [e3] using k2, k3⟩
              · exact hok c p2 hp2
            · simpa using hhs
            · simpa using hval
            · simpa [FwdPc.live] using hwg
            · intro g hg hr
              simp at hg
              rcases hg with hg | rfl | hg
              · exact hkeep g (by simp [hg]) hr
              · simp [FwdPc.reading] at hr
              · exact hkeep g (by simp [hg]) hr
            · obtain ⟨lab, hl1, hl2, hl3⟩ := hdata
              refine ⟨lab, hl1, by simpa using hl2, ?_⟩
              intro c hc1
              have h3 := hl3 c hc1
              by_cases hsc : src = c
              · subst hsc
                obtain ⟨m1, m2, hm, _, hd1, hd2⟩ := hsplit hc1
                obtain ⟨rfl, hm2⟩ := List.append_inj hm (by
                  have := congrArg List.length hm
                  simp at this
                  omega)
                simp only [List.cons.injEq, true_and] at hm2
                subst hm2
                simp only at hd1 hd2
                have a1 := held_mid l1 l2 ⟨src, FwdPc.send v⟩ hd1 hd2
                have a2 := held_mid l1 l2 ⟨src, FwdPc.loop⟩ hd1 hd2
                simp only at a1 a2
                rw [a2, hp] at h3
                rw [a1]
                simpa [FwdPc.hold, hi, inflow, e1] using h3
              · rw [held_other l1 l2 ⟨src, FwdPc.loop⟩ ⟨src, FwdPc.send v⟩ c hsc rfl,
                  List.getElem?_set_ne hsc]
                exact h3
            · have := sum_map_set Producer.size hp ⟨prest, c1, pexited⟩
              simp [JoinSys.size, FwdPc.rank, Producer.size, e1] at this ⊢
              omega

theorem Join.closed_wg {T : Type} {seq : Nat → List T} {hs : List Nat} {s : JoinSys T}
    (hinv : s.Inv seq hs) (hcl : s.out.closed = true) : s.closer = some .done ∧ s.wg = 0 := by
  obtain ⟨_, _, _, _, _, _, h, _⟩ := hinv
  cases hc : s.closer with
  | none => simp [hc] at h; simp_all
  | some cl => cases cl <;> simp [hc] at h <;> simp_all

theorem Join.fwd_safe {T : Type} (seq : Nat → List T) (hs : List Nat) (s : JoinSys T) (k : Nat)
    (hinv : s.Inv seq hs) : Join.fwdStep s k ≠ .fault := by
  have hwg := hinv.2.2.2.2.2.1
  simp only [Join.fwdStep]
  cases hk : s.fwds[k]? with
  | none => simp
  | some f =>
    obtain ⟨l1, l2, e1, _, _⟩ := set_decomp hk
    obtain ⟨src, pc⟩ := f
    simp only
    cases pc with
    | done => simp
    | exit =>
      have hpos := live_pos l1 l2 ⟨src, (.exit : FwdPc T)⟩ rfl
      rw [← e1, ← hwg] at hpos
      have : s.wg ≠ 0 := by omega
      simp [this]
    | send v =>
      simp only
      cases hr : s.out.send v with
      | block => simp
      | ok o1 => simp
      | fault =>
        exfalso
        have hpos := live_pos l1 l2 ⟨src, FwdPc.send v⟩ rfl
        rw [← e1, ← hwg] at hpos
        have := (Join.closed_wg hinv (Chan.send_fault hr)).2
        omega
    | loop =>
      simp only
      cases hp : s.chans[src]? with
      | none => simp
      | some p =>
        simp only
        cases hr : p.out.recv with
        | block => simp
        | fault => exact absurd hr (Chan.recv_ne_fault _)
        | ok r =>
          obtain ⟨ov, c1⟩ := r
          cases ov <;> simp

theorem Join.closer_inv {T : Type} (seq : Nat → List T) (hs : List Nat) (s t : JoinSys T)
    (hinv : s.Inv seq hs) (ht : Join.closerStep s = .ok t) : t.Inv seq hs ∧ t.size < s.size := by
  obtain ⟨chans, main, fwds, wg, closer, out, col, crashed⟩ := s
  obtain ⟨hc, hcap, hok, hhs, hval, hwg, hcl, hend, hdata, hcol⟩ := hinv
  simp only at hc hcap hok hhs hval hwg hcl hend hdata hcol
  subst hc
  cases closer with
  | none => simp [Join.closerStep] at ht
  | some cl =>
    cases cl with
    | done => simp [Join.closerStep] at ht
    | wait =>
      simp only [Join.closerStep] at ht
      split at ht
      · rename_i h0
        simp at ht
        subst ht
        simp at hcl
        refine ⟨⟨rfl, hcap, hok, hhs, hval, hwg, ?_, hend, hdata, hcol⟩, ?_⟩
        · simp [hcl, h0]
        · simp [JoinSys.size, closerRank]
      · simp at ht
    | exit =>
      simp only [Join.closerStep] at ht
      cases hr : out.close with
      | block => simp [hr] at ht
      | fault => simp [hr] at ht
      | ok o1 =>
        obtain ⟨e1, rfl⟩ := Chan.close_eq hr
        simp [hr] at ht
        subst ht
        simp at hcl
        refine ⟨⟨rfl, hcap, hok, hhs, hval, hwg, ?_, hend, hdata, ?_⟩, ?_⟩
        · simp [hcl]
        · intro r hr
          have := hcol r hr
          simp_all
        · simp [JoinSys.size, closerRank]

theorem Join.closer_safe {T : Type} (seq : Nat → List T) (hs : List Nat) (s : JoinSys T)
    (hinv : s.Inv seq hs) : Join.closerStep s ≠ .fault := by
  have hcl := hinv.2.2.2.2.2.2.1
  simp only [Join.closerStep]
  cases hc : s.closer with
  | none => simp
  | some cl =>
    cases cl with
    | done => simp
    | wait => simp only; split <;> simp
    | exit =>
      simp only
      cases hr : s.out.close with
      | block => simp
      | ok o1 => simp
      | fault =>
        have := Chan.close_fault hr
        simp [hc] at hcl
        simp_all

theorem Join.collect_inv {T : Type} (seq : Nat → List T) (hs : List Nat) (s t : JoinSys T)
    (hinv : s.Inv seq hs) (ht : Join.collectStep s = .ok t) : t.Inv seq hs ∧ t.size < s.size := by
  obtain ⟨chans, main, fwds, wg, closer, out, col, crashed⟩ := s
  obtain ⟨hc, hcap, hok, hhs, hval, hwg, hcl, hend, hdata, hcol⟩ := hinv
  simp only at hc hcap hok hhs hval hwg hcl hend hdata hcol
  subst hc
  cases main with
  | spawning rest => simp [Join.collectStep] at ht
  | returned =>
    simp only [Join.collectStep] at ht
    cases hst : Collect.step (some out) col with
    | block => simp [hst] at ht
    | fault => simp [hst] at ht
    | ok r =>
      obtain ⟨pc1, h1⟩ := r
      simp [hst] at ht
      subst ht
      rcases Collect.collect_step_ok hst with ⟨rfl, rfl, rfl⟩ | ⟨r, v, c1, rfl, rfl, rfl, e1, e2, e3⟩ |
        ⟨r, rfl, rfl, rfl, e1, e2⟩
      · refine ⟨⟨rfl, hcap, hok, hhs, hval, hwg, hcl, hend, ?_, ?_⟩, ?_⟩
        · obtain ⟨lab, hl1, hl2, hl3⟩ := hdata
          exact ⟨lab, by simpa [CollectPc.seen] using hl1, hl2,
            by simpa [CollectPc.seen] using hl3⟩
        · simp
        · simp [JoinSys.size, CollectPc.rank]
      · refine ⟨⟨rfl, ?_, hok, hhs, hval, hwg, ?_, hend, ?_, ?_⟩, ?_⟩
        · simpa [e2] using hcap
        · cases closer with
          | none => simp at hcl
          | some cl => cases cl <;> simp_all
        · obtain ⟨lab, hl1, hl2, hl3⟩ := hdata
          exact ⟨lab, by simpa [CollectPc.seen, e1] using hl1, hl2,
            by simpa [CollectPc.seen, e1] using hl3⟩
        · simp
        · simp [JoinSys.size, CollectPc.rank, e1]
      · refine ⟨⟨rfl, hcap, hok, hhs, hval, hwg, hcl, hend, ?_, ?_⟩, ?_⟩
        · obtain ⟨lab, hl1, hl2, hl3⟩ := hdata
          exact ⟨lab, by simpa [CollectPc.seen] using hl1, hl2,
            by simpa [CollectPc.seen] using hl3⟩
        · simp [e1, e2]
        · simp [JoinSys.size, CollectPc.rank]

theorem Join.collect_safe {T : Type} (s : JoinSys T) : Join.collectStep s ≠ .fault := by
  simp only [Join.collectStep]
  cases s.main with
  | spawning rest => simp
  | returned =>
    simp only
    cases hst : Collect.step (some s.out) s.col with
    | block => simp
    | ok r => simp
    | fault => exact absurd hst (Collect.collect_step_ne_fault _ _)

theorem JoinSys.mem_next {T : Type} (s t : JoinSys T) (ht : t ∈ s.next) :
    s.crashed = false ∧
    ((Join.mainStep s = .ok t ∨ (∃ i, Join.feedStep s i = .ok t) ∨
      (∃ k, Join.fwdStep s k = .ok t) ∨ Join.closerStep s = .ok t ∨
      Join.collectStep s = .ok t) ∨
     (Join.mainStep s = .fault ∨ (∃ i, Join.feedStep s i = .fault) ∨
      (∃ k, Join.fwdStep s k = .fault) ∨ Join.closerStep s = .fault ∨
      Join.collectStep s = .fault)) := by
  simp only [JoinSys.next] at ht
  split at ht
  · simp at ht
  · rename_i hc
    refine ⟨by simpa using hc, ?_⟩
    simp only [List.mem_append, List.mem_flatMap, List.mem_range, Op.mem_succ, id] at ht
    rcases ht with (((h | ⟨i, _, h⟩) | ⟨k, _, h⟩) | h) | h
    · rcases h with ⟨b, hb, rfl⟩ | ⟨hf, _⟩
      · exact Or.inl (Or.inl hb)
      · exact Or.inr (Or.inl hf)
    · rcases h with ⟨b, hb, rfl⟩ | ⟨hf, _⟩
      · exact Or.inl (Or.inr (Or.inl ⟨i, hb⟩))
      · exact Or.inr (Or.inr (Or.inl ⟨i, hf⟩))
    · rcases h with ⟨b, hb, rfl⟩ | ⟨hf, _⟩
      · exact Or.inl (Or.inr (Or.inr (Or.inl ⟨k, hb⟩)))
      · exact Or.inr (Or.inr (Or.inr (Or.inl ⟨k, hf⟩)))
    · rcases h with ⟨b, hb, rfl⟩ | ⟨hf, _⟩
      · exact Or.inl (Or.inr (Or.inr (Or.inr (Or.inl hb))))
      · exact Or.inr (Or.inr (Or.inr (Or.inr (Or.inl hf))))
    · rcases h with ⟨b, hb, rfl⟩ | ⟨hf, _⟩
      · exact Or.inl (Or.inr (Or.inr (Or.inr (Or.inr hb))))
      · exact Or.inr (Or.inr (Or.inr (Or.inr (Or.inr hf))))

theorem JoinSys.join_inv_step {T : Type} (seq : Nat → List T) (hs : List Nat)
    (s t : JoinSys T) (hinv : s.Inv seq hs) (ht : t ∈ s.next) :
    t.Inv seq hs ∧ t.size < s.size := by
  obtain ⟨_, h | h⟩ := JoinSys.mem_next s t ht
  · rcases h with h | ⟨i, h⟩ | ⟨k, h⟩ | h | h
    · exact Join.main_inv seq hs s t hinv h
    · exact Join.feed_inv seq hs s t i hinv h
    · exact Join.fwd_inv seq hs s t k hinv h
    · exact Join.closer_inv seq hs s t hinv h
    · exact Join.collect_inv seq hs s t hinv h
  · exfalso
    rcases h with h | ⟨i, h⟩ | ⟨k, h⟩ | h | h
    · exact Join.main_safe s h
    · exact Join.feed_safe seq hs s i hinv h
    · exact Join.fwd_safe seq hs s k hinv h
    · exact Join.closer_safe seq hs s hinv h
    · exact Join.collect_safe s h

theorem live_zero {T : Type} (fwds : List (Fwd T))
    (h : (fwds.map (fun f => f.pc.live)).sum = 0) : ∀ f, f ∈ fwds → f.pc = .done := by
  induction fwds with
  | nil => simp
  | cons g l ih =>
    simp at h
    intro f hf
    simp at hf
    rcases hf with rfl | hf
    · obtain ⟨src, pc⟩ := f
      cases pc <;> simp [FwdPc.live] at h ⊢
    · exact ih h.2 f hf

theorem live_sum_done {T : Type} (fwds : List (Fwd T))
    (h : ∀ f, f ∈ fwds → f.pc = .done) : (fwds.map (fun f => f.pc.live)).sum = 0 := by
  induction fwds with
  | nil => rfl
  | cons g l ih =>
    have hg := h g (by simp)
    have hl := ih (fun f hf => h f (by simp [hf]))
    have hg0 : g.pc.live = 0 := by rw [hg]; rfl
    rw [List.map_cons, List.sum_cons, hl, hg0]

theorem live_exists {T : Type} (fwds : List (Fwd T))
    (h : (fwds.map (fun f => f.pc.live)).sum ≠ 0) : ∃ f, f ∈ fwds ∧ f.pc ≠ .done := by
  by_contra hcon
  push_neg at hcon
  exact h (live_sum_done fwds hcon)

theorem Join.main_block {T : Type} {s : JoinSys T} (h : Join.mainStep s = .block) :
    s.main = .returned := by
  obtain ⟨chans, main, fwds, wg, closer, out, col, crashed⟩ := s
  cases main with
  | returned => rfl
  | spawning rest =>
    cases rest with
    | nil => simp [Join.mainStep] at h
    | cons a rest => cases a <;> simp [Join.mainStep] at h

theorem JoinSys.next_nil {T : Type} (s : JoinSys T) (hc : s.crashed = false)
    (hn : s.next = []) :
    Join.mainStep s = .block ∧ (∀ i, i < s.chans.length → Join.feedStep s i = .block) ∧
      (∀ k, k < s.fwds.length → Join.fwdStep s k = .block) ∧ Join.closerStep s = .block ∧
      Join.collectStep s = .block := by
  simp only [JoinSys.next, hc, Bool.false_eq_true, if_false, List.append_eq_nil,
    Op.succ_eq_nil, List.flatMap_eq_nil_iff, List.mem_range] at hn
  obtain ⟨⟨⟨⟨h1, h2⟩, h3⟩, h4⟩, h5⟩ := hn
  exact ⟨h1, h2, h3, h4, h5⟩

theorem JoinSys.join_inv_end {T : Type} (seq : Nat → List T) (hs : List Nat) (s : JoinSys T)
    (hinv : s.Inv seq hs) (hn : s.next = []) : s.Final seq hs := by
  obtain ⟨b1, b2, b3, b4, b5⟩ := JoinSys.next_nil s hinv.1 hn
  have hmain := Join.main_block b1
  obtain ⟨chans, main, fwds, wg, closer, out, col, crashed⟩ := s
  obtain ⟨hc, hcap, hok, hhs, hval, hwg, hcl, hend, hdata, hcol⟩ := hinv
  simp only at hc hcap hok hhs hval hwg hcl hend hdata hcol hmain b2 b3
  subst hc hmain
  simp only [JoinPc.rest, List.filterMap_nil, List.append_nil] at hhs
  simp only [Join.collectStep] at b5
  have hcb : Collect.step (some out) col = .block := by
    cases hst : Collect.step (some out) col <;> simp [hst] at b5
    rfl
  rcases Collect.collect_step_block hcb with ⟨r, rfl⟩ | ⟨r, rfl, e1, e2⟩
  · obtain ⟨a1, a2, a3⟩ := hcol r rfl
    cases r with
    | none => simp at a1
    | some l =>
      cases closer with
      | none => simp at hcl
      | some cl =>
        cases cl with
        | wait => simp [a3] at hcl
        | exit => simp [a3] at hcl
        | done =>
          simp at hcl
          have hdone := live_zero fwds (by omega)
          have hended : ∀ c, c ∈ hs → inEnded chans[c]? := by
            intro c hc
            rw [← hhs] at hc
            obtain ⟨f, hf, rfl⟩ := List.mem_map.1 hc
            exact hend f hf (by simp [hdone f hf, FwdPc.reading])
          refine ⟨⟨l, rfl, ?_⟩, rfl, rfl, hdone, hhs, hended, a3, a2, rfl⟩
          obtain ⟨lab, hl1, hl2, hl3⟩ := hdata
          refine ⟨lab, ?_, ?_, ?_⟩
          · simpa [CollectPc.seen, a2] using hl1
          · intro x hx
            rw [← hhs]
            exact hl2 x hx
          · intro c hc1
            have hc : c ∈ hs := List.count_pos_iff.1 (by omega)
            have h3 := hl3 c (by omega)
            have hh : held fwds c = [] :=
              held_eq_nil fwds c (fun g hg _ => by simp [hdone g hg, FwdPc.hold])
            have hi : inflow chans[c]? = [] := by
              have := hended c hc
              cases hp : chans[c]? with
              | none => rfl
              | some p =>
                have hpok := hok c p hp
                simp [hp, inEnded] at this
                simp [inflow, this, hpok.2.2 this.1]
            simpa [hh, hi, CollectPc.seen, a2] using h3
  · exfalso
    cases closer with
    | none => simp at hcl
    | some cl =>
      cases cl with
      | done => simp [e2] at hcl
      | exit =>
        simp only [Join.closerStep] at b4
        cases hr : out.close with
        | block => exact absurd hr (Chan.close_ne_block _)
        | fault => simp [hr] at b4
        | ok o1 => simp [hr] at b4
      | wait =>
        simp only [Join.closerStep] at b4
        have hwg0 : wg ≠ 0 := by
          intro h0
          simp [h0] at b4
        obtain ⟨f, hf, hfd⟩ := live_exists fwds (by omega)
        obtain ⟨k, hk⟩ := List.mem_iff_getElem?.1 hf
        have hklt : k < fwds.length := by
          by_contra hcon
          rw [List.getElem?_eq_none (by omega)] at hk
          simp at hk
        have hb := b3 k hklt
        simp only [Join.fwdStep, hk] at hb
        obtain ⟨src, pc⟩ := f
        cases pc with
        | done => simp at hfd
        | exit => simp [hwg0] at hb
        | send v =>
          simp only at hb
          cases hr : out.send v with
          | fault => simp [hr] at hb
          | ok o1 => simp [hr] at hb
          | block =>
            have := (Chan.send_block hr).2
            simp [e1, hcap] at this
        | loop =>
          simp only at hb
          have hsrc : src < chans.length := by
            apply hval
            rw [← hhs]
            exact List.mem_map.2 ⟨_, hf, rfl⟩
          cases hp : chans[src]? with
          | none =>
            rw [List.getElem?_eq_none_iff] at hp
            omega
          | some p =>
            simp only [hp] at hb
            cases hr : p.out.recv with
            | fault => exact absurd hr (Chan.recv_ne_fault _)
            | ok r =>
              obtain ⟨ov, c1⟩ := r
              cases ov <;> simp [hr] at hb
            | block =>
              obtain ⟨g1, g2⟩ := Chan.recv_block hr
              have hfb := b2 src hsrc
              simp only [Join.feedStep, hp] at hfb
              have hpb : p.step = .block := by
                cases hst : p.step <;> simp [hst] at hfb
                rfl
              have hpok := hok src p hp
              rcases Producer.producer_step_block hpb with h6 | h6
              · have := hpok.2.1
                simp_all
              · have := hpok.1
                simp [g1] at h6
                omega

theorem JoinSys.join_inv_init {T : Type} (specs : List (Nat × List T)) (ins : List (Option Nat))
    (hcap : ∀ a, a ∈ specs → 0 < a.1) (hval : ∀ c, c ∈ ins.filterMap id → c < specs.length) :
    (Join (inputs specs) ins).Inv (contents specs) (ins.filterMap id) := by
  refine ⟨rfl, rfl, ?_, ?_, ?_, rfl, ?_, ?_, ⟨[], rfl, ?_, ?_⟩, ?_⟩
  · intro c p hp
    simp only [Join, inputs, List.getElem?_map] at hp
    cases ha : specs[c]? with
    | none => simp [ha] at hp
    | some a =>
      simp [ha] at hp
      subst hp
      have := hcap a (List.mem_iff_getElem?.2 ⟨c, ha⟩)
      simp [Producer.Ok, Producer.new, makeChan, this]
  · simp [Join, JoinPc.rest]
  · intro c hc
    simpa [Join, inputs] using hval c hc
  · simp [Join, makeChan]
  · simp [Join]
  · simp
  · intro c _
    simp only [Join, inputs, List.getElem?_map, contents, CollectPc.seen, makeChan]
    cases ha : specs[c]? <;> simp [pick, held, inflow, Producer.new, makeChan]
  · simp [Join]

theorem JoinSys.join_inev {T : Type} (seq : Nat → List T) (hs : List Nat)
    (s : JoinSys T) (hinv : s.Inv seq hs) : Inev JoinSys.next (JoinSys.Final seq hs) s :=
  Inev.of_measure (JoinSys.Inv seq hs) JoinSys.size
    (fun a b ha hb => JoinSys.join_inv_step seq hs a b ha hb)
    (fun a ha hn => JoinSys.join_inv_end seq hs a ha hn) s hinv

theorem pick_cons {T : Type} (c l : Nat) (lab : List Nat) (v : T) (d : List T) :
    pick c (l :: lab) (v :: d) = if l = c then v :: pick c lab d else pick c lab d := by
  by_cases h : l = c <;> simp [pick, List.filter_cons, h]

theorem flatMap_insert {T : Type} (hs : List Nat) (hnd : hs.Nodup) (l : Nat) (hl : l ∈ hs)
    (v : T) (g : Nat → List T) :
    (hs.flatMap (fun c => if l = c then v :: g c else g c)).Perm (v :: hs.flatMap g) := by
  induction hs with
  | nil => simp at hl
  | cons h t ih =>
    simp only [List.nodup_cons] at hnd
    simp only [List.flatMap_cons]
    by_cases hlh : l = h
    · subst hlh
      have : t.flatMap (fun c => if l = c then v :: g c else g c) = t.flatMap g := by
        apply List.flatMap_congr
        intro c hc
        have : l ≠ c := fun e => hnd.1 (e ▸ hc)
        simp [this]
      simp [this]
    · have hlt : l ∈ t := by
        simp at hl
        rcases hl with hl | hl
        · exact absurd hl hlh
        · exact hl
      simp only [hlh, if_false]
      exact (List.Perm.append_left _ (ih hnd.2 hlt)).trans List.perm_middle

theorem pick_perm {T : Type} (hs : List Nat) (hnd : hs.Nodup) (lab : List Nat) (d : List T)
    (hlen : lab.length = d.length) (hlab : ∀ l, l ∈ lab → l ∈ hs) :
    d.Perm (hs.flatMap (fun c => pick c lab d)) := by
  induction d generalizing lab with
  | nil =>
    have : hs.flatMap (fun c => pick c lab ([] : List T)) = [] := by
      simp [List.flatMap_eq_nil_iff, pick]
    rw [this]
  | cons v d ih =>
    cases lab with
    | nil => simp at hlen
    | cons l lab =>
      simp only [pick_cons]
      have h1 := ih lab (by simpa using hlen) (fun x hx => hlab x (by simp [hx]))
      have h2 := flatMap_insert hs hnd l (hlab l (by simp)) v (fun c => pick c lab d)
      exact (List.Perm.cons v h1).trans h2.symm

theorem Interleaving.perm {T : Type} {seq : Nat → List T} {hs : List Nat} {r : List T}
    (h : Interleaving seq hs r) (hnd : hs.Nodup) : r.Perm (hs.flatMap seq) := by
  obtain ⟨lab, h1, h2, h3⟩ := h
  have := pick_perm hs hnd lab r h1 h2
  rwa [List.flatMap_congr (fun c hc => h3 c hc)] at this

theorem Interleaving.single {T : Type} {seq : Nat → List T} {c : Nat} {r : List T}
    (h : Interleaving seq [c] r) : r = seq c := by
  obtain ⟨lab, h1, h2, h3⟩ := h
  rw [← h3 c (by simp)]
  clear h3
  induction r generalizing lab with
  | nil => cases lab <;> simp [pick]
  | cons v d ih =>
    cases lab with
    | nil => simp at h1
    | cons l lab =>
      have hl : l = c := by simpa using h2 l (by simp)
      rw [pick_cons, if_pos hl]
      rw [← ih lab (by simpa using h1) (fun x hx => h2 x (by simp [hx]))]

theorem Interleaving.nil {T : Type} {seq : Nat → List T} {r : List T}
    (h : Interleaving seq [] r) : r = [] := by
  obtain ⟨lab, h1, h2, _⟩ := h
  cases lab with
  | nil => simpa using h1.symm
  | cons l lab => simpa using h2 l (by simp)

theorem OrderKept.interleaving {T : Type} {seq : Nat → List T} {hs : List Nat} {r : List T}
    (h : OrderKept seq hs r) (hnd : hs.Nodup) : Interleaving seq hs r := by
  obtain ⟨lab, h1, h2, h3⟩ := h
  exact ⟨lab, h1, h2, fun c hc => h3 c (List.count_eq_one_of_mem hnd hc)⟩

theorem Inev.exists_end {S : Type} {next : S → List S} {P : S → Prop} {s : S}
    (h : Inev next P s) : ∃ t, Reach next s t ∧ next t = [] ∧ P t := by
  induction h with
  | stop s hn hp => exact ⟨s, Relation.ReflTransGen.refl, hn, hp⟩
  | step s hne _ ih =>
    cases hs : next s with
    | nil => exact absurd hs hne
    | cons a l =>
      have ha : a ∈ next s := by simp [hs]
      obtain ⟨t, ht, hn, hp⟩ := ih a ha
      exact ⟨t, Relation.ReflTransGen.head ha ht, hn, hp⟩

theorem sum_flatMap_seq {M : Type} [AddCommMonoid M] (seq : Nat → List M) (hs : List Nat) :
    (hs.flatMap seq).sum = (hs.map (fun c => (seq c).sum)).sum := by
  induction hs with
  | nil => rfl
  | cons h t ih => simp [List.flatMap_cons, ih]

theorem follow_reach {S : Type} (next : S → List S) (sched : List Nat) (s t : S)
    (h : follow next sched s = some t) : Reach next s t := by
  induction sched generalizing s with
  | nil =>
    simp [follow] at h
    subst h
    exact Relation.ReflTransGen.refl
  | cons i rest ih =>
    simp only [follow] at h
    cases hn : (next s)[i]? with
    | none => simp [hn] at h
    | some u =>
      simp only [hn] at h
      have hu : u ∈ next s := List.mem_iff_getElem?.2 ⟨i, hn⟩
      exact Relation.ReflTransGen.head hu (ih u h)

theorem Inev.reach_end {S : Type} {next : S → List S} {P : S → Prop} {s t : S}
    (h : Inev next P s) (hr : Reach next s t) (hn : next t = []) : P t := by
  induction hr using Relation.ReflTransGen.head_induction_on with
  | refl =>
    cases h with
    | stop _ _ hp => exact hp
    | step _ hne _ => exact absurd hn hne
  | head hab _ ih =>
    cases h with
    | stop _ hnil _ => simp [hnil] at hab
    | step _ _ hall => exact ih (hall _ hab)

theorem Inev.mono {S : Type} {next : S → List S} {P Q : S → Prop} {s : S}
    (h : Inev next P s) (hpq : ∀ t, P t → Q t) : Inev next Q s := by
  induction h with
  | stop s hn hp => exact Inev.stop s hn (hpq s hp)
  | step s hne _ ih => exact Inev.step s hne ih

theorem sum_map_update {M : Type} [AddCommMonoid M] (l : List Nat) (hnd : l.Nodup) (c : Nat)
    (hc : c ∈ l) (g g1 : Nat → M) (h : ∀ x, x ≠ c → g1 x = g x) :
    (l.map g1).sum + g c = (l.map g).sum + g1 c := by
  induction l with
  | nil => simp at hc
  | cons a l ih =>
    simp only [List.nodup_cons] at hnd
    simp only [List.map_cons, List.sum_cons]
    by_cases hac : a = c
    · subst hac
      have : l.map g1 = l.map g := by
        apply List.map_congr_left
        intro x hx
        exact h x (fun e => hnd.1 (e ▸ hx))
      rw [this]
      abel
    · have hcl : c ∈ l := by
        simp at hc
        rcases hc with hc | hc
        · exact absurd hc.symm hac
        · exact hc
      have := ih hnd.2 hcl
      rw [h a hac]
      calc g a + (l.map g1).sum + g c = g a + ((l.map g1).sum + g c) := by abel
        _ = g a + ((l.map g).sum + g1 c) := by rw [this]
        _ = g a + (l.map g).sum + g1 c := by abel

theorem bag_congr {T : Type} (hs : List Nat) (g g1 : Nat → List T) (h : ∀ c, g1 c = g c) :
    bag hs g1 = bag hs g := by
  have : g1 = g := funext h
  rw [this]

theorem bag_take {T : Type} (hs : List Nat) (c : Nat) (hc : c ∈ hs) (v : T)
    (g g1 : Nat → List T) (h : ∀ x, x ≠ c → g1 x = g x) (hv : g c = v :: g1 c) :
    bag hs g = bag hs g1 + {v} := by
  have := sum_map_update (hs.dedup) (List.nodup_dedup hs) c (List.mem_dedup.2 hc)
    (fun c => (↑(g c) : Multiset T)) (fun c => (↑(g1 c) : Multiset T))
    (fun x hx => by simp only [h x hx])
  simp only [hv] at this
  rw [← Multiset.cons_coe, ← Multiset.singleton_add] at this
  unfold bag
  have h2 : (List.map (fun c => (↑(g1 c) : Multiset T)) hs.dedup).sum + {v} + ↑(g1 c)
      = (List.map (fun c => (↑(g c) : Multiset T)) hs.dedup).sum + ↑(g1 c) := by
    rw [← this]
    abel
  exact (add_right_cancel h2).symm

theorem heldAll_mid {T : Type} (l1 l2 : List (Fwd T)) (f : Fwd T) :
    (↑(heldAll (l1 ++ f :: l2)) : Multiset T) =
      ↑(heldAll l1) + ↑(f.pc.hold) + ↑(heldAll l2) := by
  simp [heldAll, List.flatMap_append, List.flatMap_cons, add_assoc]

theorem Join.cons_main {T : Type} (seq : Nat → List T) (hs : List Nat) (s t : JoinSys T)
    (hcons : s.Cons seq hs) (ht : Join.mainStep s = .ok t) : t.Cons seq hs := by
  obtain ⟨chans, main, fwds, wg, closer, out, col, crashed⟩ := s
  cases main with
  | returned => simp [Join.mainStep] at ht
  | spawning rest =>
    cases rest with
    | nil =>
      simp [Join.mainStep] at ht
      subst ht
      exact hcons
    | cons h rest =>
      cases h with
      | none =>
        simp [Join.mainStep] at ht
        subst ht
        exact hcons
      | some c =>
        simp [Join.mainStep] at ht
        subst ht
        simpa [JoinSys.Cons, JoinSys.stock, heldAll, FwdPc.hold] using hcons

theorem Join.cons_feed {T : Type} (seq : Nat → List T) (hs : List Nat) (s t : JoinSys T)
    (i : Nat) (hcons : s.Cons seq hs) (ht : Join.feedStep s i = .ok t) : t.Cons seq hs := by
  obtain ⟨chans, main, fwds, wg, closer, out, col, crashed⟩ := s
  simp only [Join.feedStep] at ht
  cases hp : chans[i]? with
  | none => simp [hp] at ht
  | some p =>
    simp only [hp] at ht
    cases hst : p.step with
    | block => simp [hst] at ht
    | fault => simp [hst] at ht
    | ok p1 =>
      simp [hst] at ht
      subst ht
      obtain ⟨q1, q2, q3, q4⟩ := Producer.producer_step_ok hst
      have hi : i < chans.length := by
        by_contra hcon
        rw [List.getElem?_eq_none (by omega)] at hp
        simp at hp
      have hflow : p1.out.buf ++ p1.rest = p.out.buf ++ p.rest := by
        rcases q4 with ⟨v, e1, e2, _⟩ | ⟨e1, e2, e3, _⟩
        · simp [e1, e2]
        · simp [e1, e2, e3]
      have hsame : ∀ c : Nat, inflow (chans.set i p1)[c]? = inflow chans[c]? := by
        intro c
        simp only [List.getElem?_set]
        split
        · rename_i hic
          subst hic
          simp [hi, hp, inflow, hflow]
        · rfl
      unfold JoinSys.Cons JoinSys.stock at hcons ⊢
      simp only at hcons ⊢
      rw [bag_congr hs _ _ hsame]
      exact hcons

theorem Join.cons_fwd {T : Type} (seq : Nat → List T) (hs : List Nat) (s t : JoinSys T)
    (k : Nat) (hinv : s.Inv seq hs) (hcons : s.Cons seq hs) (ht : Join.fwdStep s k = .ok t) :
    t.Cons seq hs := by
  obtain ⟨chans, main, fwds, wg, closer, out, col, crashed⟩ := s
  have hhs := hinv.2.2.2.1
  clear hinv
  simp only at hhs
  simp only [Join.fwdStep] at ht
  cases hk : fwds[k]? with
  | none => simp [hk] at ht
  | some f =>
    simp only [hk] at ht
    obtain ⟨l1, l2, rfl, _, hset⟩ := set_decomp hk
    obtain ⟨src, pc⟩ := f
    have hsrc : src ∈ hs := by
      rw [← hhs]
      simp
    simp only at ht
    unfold JoinSys.Cons JoinSys.stock at hcons ⊢
    simp only at hcons
    cases pc with
    | done => simp at ht
    | exit =>
      by_cases hwg0 : wg = 0
      · simp [hwg0] at ht
      · simp [hwg0, hset] at ht
        subst ht
        simp only
        rw [heldAll_mid] at hcons ⊢
        exact hcons
    | send v =>
      cases hr : out.send v with
      | block => simp [hr] at ht
      | fault => simp [hr] at ht
      | ok o1 =>
        obtain ⟨e1, e2, rfl⟩ := Chan.send_eq hr
        simp [hr, hset] at ht
        subst ht
        simp only
        rw [heldAll_mid] at hcons ⊢
        rw [← hcons]
        have hsnoc : (↑(col.seen ++ (out.buf ++ [v])) : Multiset T) =
            ↑(col.seen ++ out.buf) + {v} := by
          rw [← List.append_assoc, ← Multiset.coe_add, Multiset.coe_singleton]
        rw [hsnoc]
        simp only [FwdPc.hold, Multiset.coe_nil, Multiset.coe_singleton, add_zero]
        abel
    | loop =>
      cases hp : chans[src]? with
      | none => simp [hp] at ht
      | some p =>
        simp only [hp] at ht
        have hi : src < chans.length := by
          by_contra hcon
          rw [List.getElem?_eq_none (by omega)] at hp
          simp at hp
        obtain ⟨prest, pout, pexited⟩ := p
        simp only at ht
        cases hr : pout.recv with
        | block => simp [hr] at ht
        | fault => simp [hr] at ht
        | ok r =>
          obtain ⟨ov, c1⟩ := r
          cases ov with
          | none =>
            obtain ⟨e1, e2, rfl⟩ := Chan.recv_none hr
            simp [hr, hset] at ht
            subst ht
            have hsame : chans.set src ⟨prest, c1, pexited⟩ = chans := by
              apply List.ext_getElem?
              intro j
              simp only [List.getElem?_set]
              split
              · rename_i hj
                subst hj
                simp [hi, hp]
              · rfl
            simp only
            rw [hsame, heldAll_mid] at *
            exact hcons
          | some v =>
            obtain ⟨e1, e2, e3⟩ := Chan.recv_some hr
            simp [hr, hset] at ht
            subst ht
            simp only
            have hb := bag_take hs src hsrc v (fun c => inflow chans[c]?)
              (fun c => inflow (chans.set src ⟨prest, c1, pexited⟩)[c]?)
              (fun x hx => by
                simp only
                rw [List.getElem?_set_ne (fun e => hx e.symm)])
              (by simp [hp, hi, inflow, e1])
            rw [heldAll_mid] at hcons ⊢
            rw [← hcons, hb]
            simp only [FwdPc.hold, Multiset.coe_nil, Multiset.coe_singleton, add_zero]
            abel

theorem Join.cons_closer {T : Type} (seq : Nat → List T) (hs : List Nat) (s t : JoinSys T)
    (hcons : s.Cons seq hs) (ht : Join.closerStep s = .ok t) : t.Cons seq hs := by
  obtain ⟨chans, main, fwds, wg, closer, out, col, crashed⟩ := s
  cases closer with
  | none => simp [Join.closerStep] at ht
  | some cl =>
    cases cl with
    | done => simp [Join.closerStep] at ht
    | wait =>
      simp only [Join.closerStep] at ht
      split at ht
      · simp at ht
        subst ht
        exact hcons
      · simp at ht
    | exit =>
      simp only [Join.closerStep] at ht
      cases hr : out.close with
      | block => simp [hr] at ht
      | fault => simp [hr] at ht
      | ok o1 =>
        obtain ⟨e1, rfl⟩ := Chan.close_eq hr
        simp [hr] at ht
        subst ht
        exact hcons

theorem Join.cons_collect {T : Type} (seq : Nat → List T) (hs : List Nat) (s t : JoinSys T)
    (hcons : s.Cons seq hs) (ht : Join.collectStep s = .ok t) : t.Cons seq hs := by
  obtain ⟨chans, main, fwds, wg, closer, out, col, crashed⟩ := s
  cases main with
  | spawning rest => simp [Join.collectStep] at ht
  | returned =>
    simp only [Join.collectStep] at ht
    cases hst : Collect.step (some out) col with
    | block => simp [hst] at ht
    | fault => simp [hst] at ht
    | ok r =>
      obtain ⟨pc1, h1⟩ := r
      simp [hst] at ht
      subst ht
      unfold JoinSys.Cons JoinSys.stock at hcons ⊢
      simp only at hcons ⊢
      rcases Collect.collect_step_ok hst with ⟨rfl, rfl, rfl⟩ | ⟨r, v, c1, rfl, rfl, rfl, e1, e2, e3⟩ |
        ⟨r, rfl, rfl, rfl, e1, e2⟩
      · simpa [CollectPc.seen] using hcons
      · simpa [CollectPc.seen, e1] using hcons
      · simpa [CollectPc.seen] using hcons

theorem JoinSys.cons_step {T : Type} (seq : Nat → List T) (hs : List Nat) (s t : JoinSys T)
    (hinv : s.Inv seq hs) (hcons : s.Cons seq hs) (ht : t ∈ s.next) : t.Cons seq hs := by
  obtain ⟨_, h | h⟩ := JoinSys.mem_next s t ht
  · rcases h with h | ⟨i, h⟩ | ⟨k, h⟩ | h | h
    · exact Join.cons_main seq hs s t hcons h
    · exact Join.cons_feed seq hs s t i hcons h
    · exact Join.cons_fwd seq hs s t k hinv hcons h
    · exact Join.cons_closer seq hs s t hcons h
    · exact Join.cons_collect seq hs s t hcons h
  · exfalso
    rcases h with h | ⟨i, h⟩ | ⟨k, h⟩ | h | h
    · exact Join.main_safe s h
    · exact Join.feed_safe seq hs s i hinv h
    · exact Join.fwd_safe seq hs s k hinv h
    · exact Join.closer_safe seq hs s hinv h
    · exact Join.collect_safe s h

theorem bag_nil {T : Type} (hs : List Nat) (g : Nat → List T) (h : ∀ c, c ∈ hs → g c = []) :
    bag hs g = 0 := by
  unfold bag
  apply List.sum_eq_zero
  intro x hx
  obtain ⟨c, hc, rfl⟩ := List.mem_map.1 hx
  rw [h c (List.mem_dedup.1 hc)]
  rfl

theorem bag_flatMap {T : Type} (hs : List Nat) (g : Nat → List T) :
    bag hs g = ↑((hs.dedup).flatMap g) := by
  unfold bag
  induction hs.dedup with
  | nil => rfl
  | cons a l ih => simp [List.flatMap_cons, ih]

theorem heldAll_done {T : Type} (fwds : List (Fwd T)) (h : ∀ f, f ∈ fwds → f.pc = .done) :
    heldAll fwds = [] := by
  unfold heldAll
  rw [List.flatMap_eq_nil_iff]
  intro f hf
  rw [h f hf]
  rfl

theorem JoinSys.cons_init {T : Type} (specs : List (Nat × List T)) (ins : List (Option Nat)) :
    (Join (inputs specs) ins).Cons (contents specs) (ins.filterMap id) := by
  unfold JoinSys.Cons JoinSys.stock
  have : ∀ c : Nat, inflow (Join (inputs specs) ins).chans[c]? = contents specs c := by
    intro c
    simp only [Join, inputs, List.getElem?_map, contents]
    cases ha : specs[c]? <;> simp [inflow, Producer.new, makeChan]
  rw [bag_congr _ _ _ this]
  simp [Join, CollectPc.seen, makeChan, heldAll]

theorem JoinSys.end_perm {T : Type} (seq : Nat → List T) (hs : List Nat) (s : JoinSys T)
    (hinv : s.Inv seq hs) (hcons : s.Cons seq hs) (hfin : s.Final seq hs) :
    ∀ r, s.col = .ret (some r) → r.Perm ((hs.dedup).flatMap seq) := by
  intro r hr
  obtain ⟨_, _, _, hdone, _, hended, _, hbuf, _⟩ := hfin
  have hok := hinv.2.2.1
  unfold JoinSys.Cons JoinSys.stock at hcons
  have hflow : bag hs (fun c => inflow s.chans[c]?) = 0 := by
    apply bag_nil
    intro c hc
    have he := hended c hc
    cases hp : s.chans[c]? with
    | none => rfl
    | some p =>
      rw [hp] at he
      have hpok := hok c p hp
      simp [inflow, he.2, hpok.2.2 he.1]
  rw [hflow, heldAll_done _ hdone, hr, hbuf, bag_flatMap] at hcons
  simp only [CollectPc.seen, Option.getD_some, List.append_nil, Multiset.coe_nil, add_zero]
    at hcons
  exact Multiset.coe_eq_coe.1 hcons

theorem JoinSys.inev_perm {T : Type} (seq : Nat → List T) (hs : List Nat) (s : JoinSys T)
    (hinv : s.Inv seq hs) (hcons : s.Cons seq hs) :
    Inev JoinSys.next
      (fun t => JoinSys.Final seq hs t ∧
        ∀ r, t.col = .ret (some r) → r.Perm ((hs.dedup).flatMap seq)) s :=
  Inev.of_measure (fun t => JoinSys.Inv seq hs t ∧ JoinSys.Cons seq hs t) JoinSys.size
    (fun a b ha hb => ⟨⟨(JoinSys.join_inv_step seq hs a b ha.1 hb).1,
      JoinSys.cons_step seq hs a b ha.1 ha.2 hb⟩, (JoinSys.join_inv_step seq hs a b ha.1 hb).2⟩)
    (fun a ha hn => ⟨JoinSys.join_inv_end seq hs a ha.1 hn,
      JoinSys.end_perm seq hs a ha.1 ha.2 (JoinSys.join_inv_end seq hs a ha.1 hn)⟩)
    s ⟨hinv, hcons⟩

theorem heldIx_mid {T : Type} (g1 g2 : List (Fwd T × Nat)) (f : Fwd T) (i c : Nat) :
    (↑(heldIx (g1 ++ (f, i) :: g2) c) : Multiset Nat) =
      ↑(heldIx g1 c) + ↑(if f.src = c then f.pc.hold.map (fun _ => i) else []) +
        ↑(heldIx g2 c) := by
  simp [heldIx, List.flatMap_append, List.flatMap_cons, add_assoc]

theorem heldIx_length_le {T : Type} (gf : List (Fwd T × Nat)) (c : Nat) :
    (heldIx gf c).length ≤ ((gf.map Prod.fst).map Fwd.src).count c := by
  induction gf with
  | nil => simp [heldIx]
  | cons a l ih =>
    have hcons : heldIx (a :: l) c =
        (if a.1.src = c then a.1.pc.hold.map (fun _ => a.2) else []) ++ heldIx l c := by
      simp [heldIx]
    rw [hcons]
    simp only [List.map_cons, List.length_append, List.count_cons]
    by_cases hc : a.1.src = c
    · have : (a.1.pc.hold).length ≤ 1 := by cases a.1.pc <;> simp [FwdPc.hold]
      simp only [hc, if_true, List.length_map, beq_self_eq_true]
      omega
    · have hne : (a.1.src == c) = false := by simpa using hc
      simp only [hc, if_false, List.length_nil, hne]
      omega

theorem ixOf_snoc (c : Nat) (lab : List (Nat × Nat)) (a : Nat × Nat) :
    ixOf c (lab ++ [a]) = ixOf c lab ++ (if a.1 = c then [a.2] else []) := by
  by_cases h : a.1 = c <;> simp [ixOf, List.filter_append, List.filter_cons, h]

theorem countP_range_lt (n i : Nat) (h : i ≤ n) :
    (List.range n).countP (fun x => decide (x < i)) = i := by
  induction n with
  | zero => simp at h; simp [h]
  | succ n ih =>
    rw [List.range_succ, List.countP_append]
    by_cases hin : i ≤ n
    · rw [ih hin]
      have : ¬ n < i := by omega
      simp [this]
    · have hi : i = n + 1 := by omega
      subst hi
      have : (List.range n).countP (fun x => decide (x < n + 1)) = n := by
        rw [List.countP_eq_length.2]
        · simp
        · intro a ha
          simp at ha
          simp
          omega
      rw [this]
      simp

theorem countP_ixOf (c i : Nat) (lab : List (Nat × Nat)) :
    (ixOf c lab).countP (fun x => decide (x < i)) =
      lab.countP (fun b => b.1 == c && decide (b.2 < i)) := by
  unfold ixOf
  rw [List.countP_map, List.countP_filter]
  apply List.countP_congr
  intro x _
  simp [and_comm]

theorem overtake_bound (D H : List Nat) (n i m : Nat)
    (h : (↑D + ↑H : Multiset Nat) = ↑(List.range n)) (hi : i ∈ H) (hm : H.length ≤ m) :
    i < D.countP (fun x => decide (x < i)) + m := by
  have hperm : (D ++ H).Perm (List.range n) := by
    rw [Multiset.coe_add] at h
    exact Multiset.coe_eq_coe.1 h
  have hin : i < n := by
    have : i ∈ D ++ H := by simp [hi]
    simpa using (hperm.mem_iff).1 this
  have hcount := hperm.countP_eq (fun x => decide (x < i))
  rw [List.countP_append, countP_range_lt n i (by omega)] at hcount
  have hlt : H.countP (fun x => decide (x < i)) < H.length := by
    refine lt_of_le_of_ne (List.countP_le_length _) ?_
    intro heq
    have := (List.countP_eq_length.1 heq) i hi
    simp at this
  omega

theorem gf_split {T : Type} {gf : List (Fwd T × Nat)} {l1 l2 : List (Fwd T)} {f : Fwd T}
    (h : gf.map Prod.fst = l1 ++ f :: l2) :
    ∃ g1 i g2, gf = g1 ++ (f, i) :: g2 ∧ g1.map Prod.fst = l1 ∧ g2.map Prod.fst = l2 := by
  obtain ⟨g1, g3, rfl, h1, h2⟩ := List.map_eq_append_iff.1 h
  obtain ⟨a, g2, rfl, h3, h4⟩ := List.map_eq_cons_iff.1 h2
  obtain ⟨f1, i⟩ := a
  simp only at h3
  subst h3
  exact ⟨g1, i, g2, rfl, h1, h4⟩

theorem Join.ord_main {T : Type} (seq : Nat → List T) (hs : List Nat) (s t : JoinSys T)
    (hord : s.Ord seq hs) (ht : Join.mainStep s = .ok t) : t.Ord seq hs := by
  obtain ⟨chans, main, fwds, wg, closer, out, col, crashed⟩ := s
  obtain ⟨lab, gf, hgf, hval, hlab, hheld, hix, hov⟩ := hord
  simp only at hgf hval hlab hheld hix hov
  cases main with
  | returned => simp [Join.mainStep] at ht
  | spawning rest =>
    cases rest with
    | nil =>
      simp [Join.mainStep] at ht
      subst ht
      exact ⟨lab, gf, hgf, hval, hlab, hheld, hix, hov⟩
    | cons h rest =>
      cases h with
      | none =>
        simp [Join.mainStep] at ht
        subst ht
        exact ⟨lab, gf, hgf, hval, hlab, hheld, hix, hov⟩
      | some c =>
        simp [Join.mainStep] at ht
        subst ht
        refine ⟨lab, gf ++ [(⟨c, .loop⟩, 0)], ?_, hval, ?_, ?_, ?_, hov⟩
        · simp [hgf]
        · intro a ha
          simp only [List.map_append, List.mem_append]
          exact Or.inl (hlab a ha)
        · intro a v ha hpc
          simp only [List.mem_append, List.mem_singleton] at ha
          rcases ha with ha | rfl
          · exact hheld a v ha hpc
          · simp at hpc
        · intro c1
          obtain ⟨pre, h1, h2⟩ := hix c1
          refine ⟨pre, h1, ?_⟩
          have : heldIx (gf ++ [(⟨c, FwdPc.loop⟩, 0)]) c1 = heldIx gf c1 := by
            simp [heldIx, FwdPc.hold]
          rw [this]
          exact h2

theorem Join.ord_feed {T : Type} (seq : Nat → List T) (hs : List Nat) (s t : JoinSys T)
    (i : Nat) (hord : s.Ord seq hs) (ht : Join.feedStep s i = .ok t) : t.Ord seq hs := by
  obtain ⟨chans, main, fwds, wg, closer, out, col, crashed⟩ := s
  obtain ⟨lab, gf, hgf, hval, hlab, hheld, hix, hov⟩ := hord
  simp only at hgf hval hlab hheld hix hov
  simp only [Join.feedStep] at ht
  cases hp : chans[i]? with
  | none => simp [hp] at ht
  | some p =>
    simp only [hp] at ht
    cases hst : p.step with
    | block => simp [hst] at ht
    | fault => simp [hst] at ht
    | ok p1 =>
      simp [hst] at ht
      subst ht
      obtain ⟨q1, q2, q3, q4⟩ := Producer.producer_step_ok hst
      have hi : i < chans.length := by
        by_contra hcon
        rw [List.getElem?_eq_none (by omega)] at hp
        simp at hp
      have hflow : p1.out.buf ++ p1.rest = p.out.buf ++ p.rest := by
        rcases q4 with ⟨v, e1, e2, _⟩ | ⟨e1, e2, e3, _⟩
        · simp [e1, e2]
        · simp [e1, e2, e3]
      have hsame : ∀ c : Nat, inflow (chans.set i p1)[c]? = inflow chans[c]? := by
        intro c
        simp only [List.getElem?_set]
        split
        · rename_i hic
          subst hic
          simp [hi, hp, inflow, hflow]
        · rfl
      refine ⟨lab, gf, hgf, hval, hlab, hheld, ?_, hov⟩
      intro c
      obtain ⟨pre, h1, h2⟩ := hix c
      exact ⟨pre, by simp only [hsame]; exact h1, h2⟩

theorem Join.ord_fwd {T : Type} (seq : Nat → List T) (hs : List Nat) (s t : JoinSys T)
    (k : Nat) (hinv : s.Inv seq hs) (hord : s.Ord seq hs) (ht : Join.fwdStep s k = .ok t) :
    t.Ord seq hs := by
  obtain ⟨chans, main, fwds, wg, closer, out, col, crashed⟩ := s
  have hhs := hinv.2.2.2.1
  clear hinv
  obtain ⟨lab, gf, hgf, hval, hlab, hheld, hix, hov⟩ := hord
  simp only at hhs hgf hval hlab hheld hix hov
  simp only [Join.fwdStep] at ht
  cases hk : fwds[k]? with
  | none => simp [hk] at ht
  | some f =>
    simp only [hk] at ht
    obtain ⟨l1, l2, rfl, _, hset⟩ := set_decomp hk
    obtain ⟨g1, i, g2, rfl, rfl, rfl⟩ := gf_split hgf
    obtain ⟨src, pc⟩ := f
    simp only at ht
    have hkeep : ∀ (pc1 : FwdPc T) (j : Nat) (a : Fwd T × Nat) (v : T),
        (∀ w, pc1 = .send w → (seq src)[j]? = some w) →
        a ∈ g1 ++ (⟨src, pc1⟩, j) :: g2 → a.1.pc = .send v → (seq a.1.src)[a.2]? = some v := by
      intro pc1 j a v h1 ha hpc
      simp only [List.mem_append, List.mem_cons] at ha
      rcases ha with ha | rfl | ha
      · exact hheld a v (by simp [ha]) hpc
      · exact h1 v hpc
      · exact hheld a v (by simp [ha]) hpc
    cases pc with
    | done => simp at ht
    | exit =>
      by_cases hwg0 : wg = 0
      · simp [hwg0] at ht
      · simp [hwg0, hset] at ht
        subst ht
        refine ⟨lab, g1 ++ (⟨src, .done⟩, i) :: g2, by simp, hval, by simpa using hlab,
          fun a v => hkeep .done i a v (by simp), ?_, hov⟩
        intro c
        obtain ⟨pre, h1, h2⟩ := hix c
        refine ⟨pre, h1, ?_⟩
        rw [heldIx_mid] at h2 ⊢
        simpa [FwdPc.hold] using h2
    | send v =>
      cases hr : out.send v with
      | block => simp [hr] at ht
      | fault => simp [hr] at ht
      | ok o1 =>
        obtain ⟨e1, e2, rfl⟩ := Chan.send_eq hr
        simp [hr, hset] at ht
        subst ht
        have hv : (seq src)[i]? = some v := hheld (⟨src, .send v⟩, i) v (by simp) rfl
        refine ⟨lab ++ [(src, i)], g1 ++ (⟨src, .loop⟩, i) :: g2, by simp, ?_, ?_,
          fun a w => hkeep .loop i a w (by simp), ?_, ?_⟩
        · simp only [← List.append_assoc, List.map_append, hval, List.map_cons, List.map_nil, hv]
        · intro a ha
          simp only [List.mem_append, List.mem_singleton] at ha
          rcases ha with ha | rfl
          · simpa using hlab a ha
          · simp
        · intro c
          obtain ⟨pre, h1, h2⟩ := hix c
          refine ⟨pre, h1, ?_⟩
          rw [heldIx_mid] at h2 ⊢
          rw [ixOf_snoc, ← h2]
          by_cases hc : src = c
          · simp only [hc, if_true, FwdPc.hold, List.map_cons, List.map_nil,
              ← Multiset.coe_add, Multiset.coe_nil, Multiset.coe_singleton]
            abel
          · simp only [hc, if_false]
            simp
        · intro l a hpre
          rcases List.prefix_concat_iff.1 hpre with h | h
          · obtain ⟨rfl, h2⟩ := List.append_inj' h rfl
            simp only [List.cons.injEq, and_true] at h2
            subst h2
            simp only
            obtain ⟨pre, h1, h2⟩ := hix src
            have hmem : i ∈ heldIx (g1 ++ (⟨src, FwdPc.send v⟩, i) :: g2) src := by
              simp [heldIx, FwdPc.hold]
            have hlen := heldIx_length_le (g1 ++ (⟨src, FwdPc.send v⟩, i) :: g2) src
            have hcnt : ((List.map Prod.fst (g1 ++ (⟨src, FwdPc.send v⟩, i) :: g2)).map
                Fwd.src).count src ≤ hs.count src := by
              rw [← hhs, List.count_append]
              simp
            have := overtake_bound _ _ _ i (hs.count src) h2 hmem (by omega)
            rwa [countP_ixOf] at this
          · exact hov l a h
    | loop =>
      cases hp : chans[src]? with
      | none => simp [hp] at ht
      | some p =>
        simp only [hp] at ht
        have hi : src < chans.length := by
          by_contra hcon
          rw [List.getElem?_eq_none (by omega)] at hp
          simp at hp
        obtain ⟨prest, pout, pexited⟩ := p
        simp only at ht
        cases hr : pout.recv with
        | block => simp [hr] at ht
        | fault => simp [hr] at ht
        | ok r =>
          obtain ⟨ov, c1⟩ := r
          cases ov with
          | none =>
            obtain ⟨e1, e2, rfl⟩ := Chan.recv_none hr
            simp [hr, hset] at ht
            subst ht
            have hsame : chans.set src ⟨prest, c1, pexited⟩ = chans := by
              apply List.ext_getElem?
              intro j
              simp only [List.getElem?_set]
              split
              · rename_i hj
                subst hj
                simp [hi, hp]
              · rfl
            rw [hsame]
            refine ⟨lab, g1 ++ (⟨src, .exit⟩, i) :: g2, by simp, hval, by simpa using hlab,
              fun a v => hkeep .exit i a v (by simp), ?_, hov⟩
            intro c
            obtain ⟨pre, h1, h2⟩ := hix c
            refine ⟨pre, h1, ?_⟩
            rw [heldIx_mid] at h2 ⊢
            simpa [FwdPc.hold] using h2
          | some v =>
            obtain ⟨e1, e2, e3⟩ := Chan.recv_some hr
            simp [hr, hset] at ht
            subst ht
            obtain ⟨pre0, hp1, hp2⟩ := hix src
            have hseq : seq src = pre0 ++ v :: (c1.buf ++ prest) := by
              rw [← hp1, hp]
              simp [inflow, e1]
            refine ⟨lab, g1 ++ (⟨src, .send v⟩, pre0.length) :: g2, by simp, hval,
              by simpa using hlab, fun a w => hkeep (.send v) pre0.length a w ?_, ?_, hov⟩
            · intro w hw
              simp only [FwdPc.send.injEq] at hw
              subst hw
              rw [hseq, List.getElem?_append_right (Nat.le_refl _)]
              simp
            · intro c
              by_cases hc : src = c
              · subst hc
                refine ⟨pre0 ++ [v], ?_, ?_⟩
                · rw [hseq]
                  simp [hi, inflow]
                · rw [heldIx_mid] at hp2 ⊢
                  simp only [List.length_append, List.length_singleton, List.range_succ,
                    ← Multiset.coe_add, ← hp2, if_true, FwdPc.hold, List.map_cons, List.map_nil,
                    Multiset.coe_nil, Multiset.coe_singleton]
                  abel
              · obtain ⟨pre, h1, h2⟩ := hix c
                refine ⟨pre, ?_, ?_⟩
                · rw [List.getElem?_set_ne hc]
                  exact h1
                · rw [heldIx_mid] at h2 ⊢
                  simpa [hc, FwdPc.hold] using h2

theorem Join.ord_closer {T : Type} (seq : Nat → List T) (hs : List Nat) (s t : JoinSys T)
    (hord : s.Ord seq hs) (ht : Join.closerStep s = .ok t) : t.Ord seq hs := by
  obtain ⟨chans, main, fwds, wg, closer, out, col, crashed⟩ := s
  cases closer with
  | none => simp [Join.closerStep] at ht
  | some cl =>
    cases cl with
    | done => simp [Join.closerStep] at ht
    | wait =>
      simp only [Join.closerStep] at ht
      split at ht
      · simp at ht
        subst ht
        exact hord
      · simp at ht
    | exit =>
      simp only [Join.closerStep] at ht
      cases hr : out.close with
      | block => simp [hr] at ht
      | fault => simp [hr] at ht
      | ok o1 =>
        obtain ⟨e1, rfl⟩ := Chan.close_eq hr
        simp [hr] at ht
        subst ht
        exact hord

theorem Join.ord_collect {T : Type} (seq : Nat → List T) (hs : List Nat) (s t : JoinSys T)
    (hord : s.Ord seq hs) (ht : Join.collectStep s = .ok t) : t.Ord seq hs := by
  obtain ⟨chans, main, fwds, wg, closer, out, col, crashed⟩ := s
  cases main with
  | spawning rest => simp [Join.collectStep] at ht
  | returned =>
    simp only [Join.collectStep] at ht
    cases hst : Collect.step (some out) col with
    | block => simp [hst] at ht
    | fault => simp [hst] at ht
    | ok r =>
      obtain ⟨pc1, h1⟩ := r
      simp [hst] at ht
      subst ht
      obtain ⟨lab, gf, hgf, hval, hlab, hheld, hix, hov⟩ := hord
      simp only at hgf hval hlab hheld hix hov
      refine ⟨lab, gf, hgf, ?_, hlab, hheld, hix, hov⟩
      rcases Collect.collect_step_ok hst with ⟨rfl, rfl, rfl⟩ | ⟨r, v, c1, rfl, rfl, rfl, e1, e2, e3⟩ |
        ⟨r, rfl, rfl, rfl, e1, e2⟩
      · simpa [CollectPc.seen] using hval
      · simpa [CollectPc.seen, e1] using hval
      · simpa [CollectPc.seen] using hval

theorem JoinSys.ord_step {T : Type} (seq : Nat → List T) (hs : List Nat) (s t : JoinSys T)
    (hinv : s.Inv seq hs) (hord : s.Ord seq hs) (ht : t ∈ s.next) : t.Ord seq hs := by
  obtain ⟨_, h | h⟩ := JoinSys.mem_next s t ht
  · rcases h with h | ⟨i, h⟩ | ⟨k, h⟩ | h | h
    · exact Join.ord_main seq hs s t hord h
    · exact Join.ord_feed seq hs s t i hord h
    · exact Join.ord_fwd seq hs s t k hinv hord h
    · exact Join.ord_closer seq hs s t hord h
    · exact Join.ord_collect seq hs s t hord h
  · exfalso
    rcases h with h | ⟨i, h⟩ | ⟨k, h⟩ | h | h
    · exact Join.main_safe s h
    · exact Join.feed_safe seq hs s i hinv h
    · exact Join.fwd_safe seq hs s k hinv h
    · exact Join.closer_safe seq hs s hinv h
    · exact Join.collect_safe s h

theorem JoinSys.ord_init {T : Type} (specs : List (Nat × List T)) (ins : List (Option Nat)) :
    (Join (inputs specs) ins).Ord (contents specs) (ins.filterMap id) := by
  refine ⟨[], [], rfl, ?_, ?_, ?_, ?_, ?_⟩
  · simp [Join, CollectPc.seen, makeChan]
  · simp
  · simp
  · intro c
    refine ⟨[], ?_, ?_⟩
    · simp only [Join, inputs, List.getElem?_map, contents, List.nil_append]
      cases ha : specs[c]? <;> simp [inflow, Producer.new, makeChan]
    · simp [ixOf, heldIx]
  · intro l a h
    simp at h

theorem JoinSys.end_merge {T : Type} (seq : Nat → List T) (hs : List Nat) (s : JoinSys T)
    (hinv : s.Inv seq hs) (hord : s.Ord seq hs) (hfin : s.Final seq hs) :
    ∀ r, s.col = .ret (some r) → BoundedMerge seq hs r := by
  intro r hr
  obtain ⟨_, _, _, hdone, hsrc, hended, _, hbuf, _⟩ := hfin
  have hok := hinv.2.2.1
  obtain ⟨lab, gf, hgf, hval, hlab, hheld, hix, hov⟩ := hord
  refine ⟨lab, ?_, ?_, ?_, hov⟩
  · simpa [hr, hbuf, CollectPc.seen] using hval
  · intro a ha
    rw [← hsrc]
    exact hlab a ha
  · intro c hc
    obtain ⟨pre, h1, h2⟩ := hix c
    have hflow : inflow s.chans[c]? = [] := by
      have he := hended c hc
      cases hp : s.chans[c]? with
      | none => rfl
      | some p =>
        rw [hp] at he
        have hpok := hok c p hp
        simp [inflow, he.2, hpok.2.2 he.1]
    have hheldnil : heldIx gf c = [] := by
      unfold heldIx
      rw [List.flatMap_eq_nil_iff]
      intro a ha
      have : a.1 ∈ s.fwds := by
        rw [← hgf]
        exact List.mem_map_of_mem _ ha
      rw [hdone a.1 this]
      simp [FwdPc.hold]
    rw [hflow, List.append_nil] at h1
    subst h1
    rw [hheldnil] at h2
    simp only [Multiset.coe_nil, add_zero] at h2
    exact Multiset.coe_eq_coe.1 h2

theorem JoinSys.inev_merge {T : Type} (seq : Nat → List T) (hs : List Nat) (s : JoinSys T)
    (hinv : s.Inv seq hs) (hcons : s.Cons seq hs) (hord : s.Ord seq hs) :
    Inev JoinSys.next
      (fun t => JoinSys.Final seq hs t ∧
        ∀ r, t.col = .ret (some r) →
          r.Perm ((hs.dedup).flatMap seq) ∧ BoundedMerge seq hs r) s :=
  Inev.of_measure
    (fun t => JoinSys.Inv seq hs t ∧ JoinSys.Cons seq hs t ∧ JoinSys.Ord seq hs t) JoinSys.size
    (fun a b ha hb => ⟨⟨(JoinSys.join_inv_step seq hs a b ha.1 hb).1,
      JoinSys.cons_step seq hs a b ha.1 ha.2.1 hb, JoinSys.ord_step seq hs a b ha.1 ha.2.2 hb⟩,
      (JoinSys.join_inv_step seq hs a b ha.1 hb).2⟩)
    (fun a ha hn => ⟨JoinSys.join_inv_end seq hs a ha.1 hn, fun r hr =>
      ⟨JoinSys.end_perm seq hs a ha.1 ha.2.1 (JoinSys.join_inv_end seq hs a ha.1 hn) r hr,
        JoinSys.end_merge seq hs a ha.1 ha.2.2 (JoinSys.join_inv_end seq hs a ha.1 hn) r hr⟩⟩)
    s ⟨hinv, hcons, hord⟩

theorem Op.succ_map {α S S1 : Type} (o : Op α) (f : α → S) (bad : S) (g : S → S1) :
    (o.succ f bad).map g = o.succ (fun a => g (f a)) (g bad) := by
  cases o <;> rfl

theorem Op.map_succ {α β S : Type} (o : Op α) (h : α → β) (f : β → S) (bad : S) :
    (o.map h).succ f bad = o.succ (fun a => f (h a)) bad := by
  cases o <;> rfl

theorem Op.succ_congr {α S : Type} (o : Op α) (f g : α → S) (bad : S)
    (h : ∀ a, o = .ok a → f a = g a) : o.succ f bad = o.succ g bad := by
  cases o with
  | ok a => simp [Op.succ, h a rfl]
  | block => rfl
  | fault => rfl

theorem Join.main_col {T : Type} (s : JoinSys T) (e : CollectPc T) :
    Join.mainStep { s with col := e } = (Join.mainStep s).map (fun t => { t with col := e }) ∧
      ∀ t, Join.mainStep s = .ok t → t.col = s.col := by
  obtain ⟨chans, main, fwds, wg, closer, out, col, crashed⟩ := s
  cases main with
  | returned => simp [Join.mainStep, Op.map]
  | spawning rest =>
    cases rest with
    | nil =>
      refine ⟨rfl, ?_⟩
      intro t ht
      simp [Join.mainStep] at ht
      subst ht
      rfl
    | cons h rest =>
      cases h with
      | none =>
        refine ⟨rfl, ?_⟩
        intro t ht
        simp [Join.mainStep] at ht
        subst ht
        rfl
      | some c =>
        refine ⟨rfl, ?_⟩
        intro t ht
        simp [Join.mainStep] at ht
        subst ht
        rfl

theorem Join.feed_col {T : Type} (s : JoinSys T) (e : CollectPc T) (i : Nat) :
    Join.feedStep { s with col := e } i =
        (Join.feedStep s i).map (fun t => { t with col := e }) ∧
      ∀ t, Join.feedStep s i = .ok t → t.col = s.col := by
  obtain ⟨chans, main, fwds, wg, closer, out, col, crashed⟩ := s
  simp only [Join.feedStep]
  cases hp : chans[i]? with
  | none => simp [Op.map]
  | some p =>
    simp only
    cases hst : p.step with
    | block => simp [Op.map]
    | fault => simp [Op.map]
    | ok p1 =>
      refine ⟨rfl, ?_⟩
      intro t ht
      simp at ht
      subst ht
      rfl

theorem Join.fwd_col {T : Type} (s : JoinSys T) (e : CollectPc T) (k : Nat) :
    Join.fwdStep { s with col := e } k =
        (Join.fwdStep s k).map (fun t => { t with col := e }) ∧
      ∀ t, Join.fwdStep s k = .ok t → t.col = s.col := by
  obtain ⟨chans, main, fwds, wg, closer, out, col, crashed⟩ := s
  simp only [Join.fwdStep]
  cases hk : fwds[k]? with
  | none => simp [Op.map]
  | some f =>
    obtain ⟨src, pc⟩ := f
    simp only
    cases pc with
    | done => simp [Op.map]
    | exit =>
      simp only
      by_cases hwg : wg = 0
      · simp [hwg, Op.map]
      · simp only [hwg, if_false]
        refine ⟨rfl, ?_⟩
        intro t ht
        simp at ht
        subst ht
        rfl
    | send v =>
      simp only
      cases hr : out.send v with
      | block => simp [Op.map]
      | fault => simp [Op.map]
      | ok o1 =>
        refine ⟨rfl, ?_⟩
        intro t ht
        simp at ht
        subst ht
        rfl
    | loop =>
      simp only
      cases hp : chans[src]? with
      | none => simp [Op.map]
      | some p =>
        simp only
        cases hr : p.out.recv with
        | block => simp [Op.map]
        | fault => simp [Op.map]
        | ok r =>
          obtain ⟨ov, c1⟩ := r
          cases ov with
          | none =>
            refine ⟨rfl, ?_⟩
            intro t ht
            simp at ht
            subst ht
            rfl
          | some v =>
            refine ⟨rfl, ?_⟩
            intro t ht
            simp at ht
            subst ht
            rfl

theorem Join.closer_col {T : Type} (s : JoinSys T) (e : CollectPc T) :
    Join.closerStep { s with col := e } =
        (Join.closerStep s).map (fun t => { t with col := e }) ∧
      ∀ t, Join.closerStep s = .ok t → t.col = s.col := by
  obtain ⟨chans, main, fwds, wg, closer, out, col, crashed⟩ := s
  cases closer with
  | none => simp [Join.closerStep, Op.map]
  | some cl =>
    cases cl with
    | done => simp [Join.closerStep, Op.map]
    | wait =>
      simp only [Join.closerStep]
      by_cases hwg : wg = 0
      · simp only [hwg, if_true]
        refine ⟨rfl, ?_⟩
        intro t ht
        simp at ht
        subst ht
        rfl
      · simp [hwg, Op.map]
    | exit =>
      simp only [Join.closerStep]
      cases hr : out.close with
      | block => simp [Op.map]
      | fault => simp [Op.map]
      | ok o1 =>
        refine ⟨rfl, ?_⟩
        intro t ht
        simp at ht
        subst ht
        rfl

theorem Join.drain_sim {T : Type} (acc0 : T) (fn : T → T → T) (s : JoinSys T) :
    ((Join.collectStep s).succ id { s with crashed := true }).map (asReduce acc0 fn) =
      (JoinReduce.reduceStep acc0 fn (asReduce acc0 fn s)).succ id
        { asReduce acc0 fn s with sys := { (asReduce acc0 fn s).sys with crashed := true } } := by
  obtain ⟨chans, main, fwds, wg, closer, out, col, crashed⟩ := s
  cases main with
  | spawning rest => rfl
  | returned =>
    cases col with
    | entry => rfl
    | ret r => rfl
    | loop r =>
      simp only [Join.collectStep, JoinReduce.reduceStep, asReduce, Collect.step, Reduce.step,
        toReduce]
      cases hr : out.recv with
      | block => rfl
      | fault => rfl
      | ok a =>
        obtain ⟨ov, c1⟩ := a
        cases ov with
        | none => rfl
        | some v =>
          simp [Op.succ, asReduce, toReduce, CollectPc.seen, List.foldl_append]

theorem Join.step_sim {T : Type} (acc0 : T) (fn : T → T → T) (s : JoinSys T)
    (step : JoinSys T → Op (JoinSys T))
    (h : step { s with col := .entry } = (step s).map (fun t => { t with col := .entry }) ∧
      ∀ t, step s = .ok t → t.col = s.col) :
    ((step s).succ id { s with crashed := true }).map (asReduce acc0 fn) =
      (step (asReduce acc0 fn s).sys).succ (fun t => { asReduce acc0 fn s with sys := t })
        { asReduce acc0 fn s with sys := { (asReduce acc0 fn s).sys with crashed := true } } := by
  rw [Op.succ_map]
  have h1 : (asReduce acc0 fn s).sys = { s with col := .entry } := rfl
  rw [h1, h.1, Op.map_succ]
  apply Op.succ_congr
  intro t ht
  simp only [id, asReduce, h.2 t ht]

theorem JoinReduce.next_sim {T : Type} (acc0 : T) (fn : T → T → T) (s : JoinSys T) :
    JoinReduce.next acc0 fn (asReduce acc0 fn s) = (JoinSys.next s).map (asReduce acc0 fn) := by
  unfold JoinReduce.next JoinSys.next
  have hc : (asReduce acc0 fn s).sys.crashed = s.crashed := rfl
  have hn1 : (asReduce acc0 fn s).sys.chans.length = s.chans.length := rfl
  have hn2 : (asReduce acc0 fn s).sys.fwds.length = s.fwds.length := rfl
  rw [hc, hn1, hn2]
  by_cases hcr : s.crashed = true
  · rw [if_pos hcr, if_pos hcr]
    rfl
  · rw [if_neg hcr, if_neg hcr]
    have e1 := Join.step_sim acc0 fn s Join.mainStep (Join.main_col s .entry)
    have e2 := fun i => Join.step_sim acc0 fn s (fun t => Join.feedStep t i)
      (Join.feed_col s .entry i)
    have e3 := fun k => Join.step_sim acc0 fn s (fun t => Join.fwdStep t k)
      (Join.fwd_col s .entry k)
    have e4 := Join.step_sim acc0 fn s Join.closerStep (Join.closer_col s .entry)
    have e5 := Join.drain_sim acc0 fn s
    rw [List.map_append, List.map_append, List.map_append, List.map_append, List.map_flatMap,
      List.map_flatMap, e1, e4, e5]
    have h2 : (fun i => List.map (asReduce acc0 fn)
        ((Join.feedStep s i).succ id { s with crashed := true })) = _ := funext e2
    have h3 : (fun k => List.map (asReduce acc0 fn)
        ((Join.fwdStep s k).succ id { s with crashed := true })) = _ := funext e3
    rw [h2, h3]

theorem Inev.sim {S S1 : Type} {next : S → List S} {next1 : S1 → List S1} (img : S → S1)
    (hsim : ∀ s, next1 (img s) = (next s).map img) {P : S → Prop} {s : S}
    (h : Inev next P s) : Inev next1 (fun u => ∃ t, u = img t ∧ P t) (img s) := by
  induction h with
  | stop s hn hp =>
    refine Inev.stop _ ?_ ⟨s, rfl, hp⟩
    rw [hsim, hn]
    rfl
  | step s hne _ ih =>
    refine Inev.step _ ?_ ?_
    · rw [hsim]
      simpa using hne
    · intro u hu
      rw [hsim] at hu
      obtain ⟨t, ht, rfl⟩ := List.mem_map.1 hu
      exact ih t ht

theorem filterMap_cond {T : Type} (cond : T → Bool) (xs : List T) :
    xs.filterMap (fun v => if cond v then some v else none) = xs.filter cond := by
  induction xs with
  | nil => rfl
  | cons x xs ih => by_cases h : cond x <;> simp [List.filterMap_cons, List.filter_cons, h, ih]

theorem filterMap_some {T E : Type} (fn : T → E) (xs : List T) :
    xs.filterMap (fun v => some (fn v)) = xs.map fn := by
  induction xs with
  | nil => rfl
  | cons x xs ih => simp [List.filterMap_cons, ih]

theorem relay_reach {T E : Type} (act : T → Option E) (xs : List T) (s0 s : RelaySys T E)
    (h0 : s0.Inv act xs) (hr : Reach (RelaySys.next (Relay.step act)) s0 s) : s.Inv act xs :=
  Reach.inv h0 (fun a b ha hb => (RelaySys.relay_inv_step act xs a b ha hb).1) s hr

theorem relay_closed_done {T E : Type} {act : T → Option E} {xs : List T} {s : RelaySys T E}
    (h : s.Inv act xs) : s.crashed = false ∧ (s.out.closed = true → s.pc = .done) := by
  obtain ⟨hc, _, _, _, _, hpc, _⟩ := h
  refine ⟨hc, fun hcl => ?_⟩
  cases hp : s.pc <;> simp [hp, hcl] at hpc ⊢

theorem filter_inev {T : Type} (cond : T → Bool) (xs : List T) (s : RelaySys T T)
    (hs : s.Inv (fun v => if cond v then some v else none) xs) :
    Inev (Filter.next cond) (RelaySys.Final (xs.filter cond) xs.length) s := by
  have := RelaySys.relay_inev _ xs s hs
  rw [filterMap_cond] at this
  unfold Filter.next
  rwa [Filter.filter_step_eq]

theorem remap_inev {T E : Type} (fn : T → E) (xs : List T) (s : RelaySys T E)
    (hs : s.Inv (fun v => some (fn v)) xs) :
    Inev (Remap.next fn) (RelaySys.Final (xs.map fn) xs.length) s := by
  have := RelaySys.relay_inev _ xs s hs
  rw [filterMap_some] at this
  unfold Remap.next
  rwa [Remap.remap_step_eq]

theorem map_inev {T : Type} (fn : T → T) (xs : List T) (s : RelaySys T T)
    (hs : s.Inv (fun v => some (fn v)) xs) :
    Inev (Map.next fn) (RelaySys.Final (xs.map fn) xs.length) s := by
  have := RelaySys.relay_inev _ xs s hs
  rw [filterMap_some] at this
  unfold Map.next
  rwa [Map.map_step_eq]

theorem split_inev {T : Type} (cond : T → Bool) (xs : List T) (s : SplitSys T)
    (hs : s.Inv cond xs) :
    Inev (SplitSys.next cond)
      (SplitSys.Final (xs.filter cond) (xs.filter (fun v => !cond v)) xs.length) s :=
  Inev.of_measure (SplitSys.Inv cond xs) SplitSys.size
    (fun a b ha hb => SplitSys.split_inv_step cond xs a b ha hb)
    (fun a ha hn => SplitSys.split_inv_end cond xs a ha hn) s hs

theorem split_reach {T : Type} (cond : T → Bool) (xs : List T) (s0 s : SplitSys T)
    (h0 : s0.Inv cond xs) (hr : Reach (SplitSys.next cond) s0 s) : s.Inv cond xs :=
  Reach.inv h0 (fun a b ha hb => (SplitSys.split_inv_step cond xs a b ha hb).1) s hr

theorem split_closed_done {T : Type} {cond : T → Bool} {xs : List T} {s : SplitSys T}
    (h : s.Inv cond xs) :
    s.crashed = false ∧ (s.out1.closed = true → s.pc = .close2 ∨ s.pc = .done) ∧
      (s.out2.closed = true → s.pc = .done) := by
  obtain ⟨hc, _, _, _, _, _, _, hpc, _⟩ := h
  refine ⟨hc, fun hcl => ?_, fun hcl => ?_⟩
  · cases hp : s.pc <;> simp [hp, hcl] at hpc ⊢
  · cases hp : s.pc <;> simp [hp, hcl] at hpc ⊢

theorem collect_inev {T : Type} (b : Bool) (xs : List T) (s : CollectSys T) (hs : s.Inv b xs) :
    Inev CollectSys.next (CollectSys.Final (if b then some xs else none)) s :=
  Inev.of_measure (CollectSys.Inv b xs) CollectSys.size
    (fun a c ha hc => CollectSys.collect_inv_step b xs a c ha hc)
    (fun a ha hn => CollectSys.collect_inv_end b xs a ha hn) s hs

theorem collect_reach {T : Type} (b : Bool) (xs : List T) (s0 s : CollectSys T)
    (h0 : s0.Inv b xs) (hr : Reach CollectSys.next s0 s) : s.Inv b xs :=
  Reach.inv h0 (fun a c ha hc => (CollectSys.collect_inv_step b xs a c ha hc).1) s hr

theorem reduce_inev {T : Type} (acc0 : T) (fn : T → T → T) (xs : List T) (s : ReduceSys T)
    (hs : s.Inv acc0 fn xs) :
    Inev (ReduceSys.next acc0 fn) (ReduceSys.Final (xs.foldl fn acc0) xs.length) s :=
  Inev.of_measure (ReduceSys.Inv acc0 fn xs) ReduceSys.size
    (fun a b ha hb => ReduceSys.reduce_inv_step acc0 fn xs a b ha hb)
    (fun a ha hn => ReduceSys.reduce_inv_end acc0 fn xs a ha hn) s hs

theorem join_reach {T : Type} (seq : Nat → List T) (hs : List Nat) (s0 s : JoinSys T)
    (h0 : s0.Inv seq hs) (hr : Reach JoinSys.next s0 s) : s.Inv seq hs :=
  Reach.inv h0 (fun a b ha hb => (JoinSys.join_inv_step seq hs a b ha hb).1) s hr

theorem join_closed_after {T : Type} {seq : Nat → List T} {hs : List Nat} {s : JoinSys T}
    (h : s.Inv seq hs) (hcl : s.out.closed = true) :
    s.closer = some .done ∧ s.main = .returned ∧ s.fwds.map Fwd.src = hs ∧
      (∀ f, f ∈ s.fwds → f.pc = .done) ∧ (∀ c, c ∈ hs → inEnded s.chans[c]?) := by
  obtain ⟨hd, hw⟩ := Join.closed_wg h hcl
  obtain ⟨_, _, _, hhs, _, hwg, hclr, hend, _, _⟩ := h
  simp only [hd] at hclr
  have hdone := live_zero s.fwds (by omega)
  have hsrc : s.fwds.map Fwd.src = hs := by
    simpa [hclr.1, JoinPc.rest] using hhs
  refine ⟨hd, hclr.1, hsrc, hdone, ?_⟩
  intro c hc
  rw [← hsrc] at hc
  obtain ⟨f, hf, rfl⟩ := List.mem_map.1 hc
  exact hend f hf (by simp [hdone f hf, FwdPc.reading])

theorem foldl_unit {T : Type} (add : T → T → T) (zero : T) (hcomm : ∀ a b, add a b = add b a)
    (hassoc : ∀ a b c, add (add a b) c = add a (add b c)) (hzero : ∀ a, add zero a = a)
    (a : T) (l : List T) : l.foldl add a = add a (l.foldl add zero) := by
  induction l generalizing a with
  | nil => simp [hcomm a zero, hzero]
  | cons x l ih =>
    simp only [List.foldl_cons]
    rw [ih (add a x), ih (add zero x), hzero, hassoc]

theorem foldl_perm {T : Type} (add : T → T → T) (zero : T) (hcomm : ∀ a b, add a b = add b a)
    (hassoc : ∀ a b c, add (add a b) c = add a (add b c)) {l1 l2 : List T} (h : l1.Perm l2) :
    l1.foldl add zero = l2.foldl add zero := by
  have : RightCommutative add := ⟨fun a b c => by
    rw [hassoc, hassoc, hcomm b c]⟩
  exact h.foldl_eq zero

theorem foldl_flatMap {T : Type} (add : T → T → T) (zero : T) (hcomm : ∀ a b, add a b = add b a)
    (hassoc : ∀ a b c, add (add a b) c = add a (add b c)) (hzero : ∀ a, add zero a = a)
    (seq : Nat → List T) (hs : List Nat) :
    (hs.flatMap seq).foldl add zero = (hs.map (fun c => (seq c).foldl add zero)).foldl add zero := by
  induction hs with
  | nil => rfl
  | cons h t ih =>
    simp only [List.flatMap_cons, List.foldl_append, List.map_cons, List.foldl_cons]
    rw [foldl_unit add zero hcomm hassoc hzero ((seq h).foldl add zero), ih,
      foldl_unit add zero hcomm hassoc hzero (add zero _), hzero]

theorem filter_next_eq {T : Type} (cond : T → Bool) :
    Filter.next cond = RelaySys.next (Relay.step (fun v => if cond v then some v else none)) := by
  funext s
  simp only [Filter.next, Filter.filter_step_eq]

theorem map_next_eq {T : Type} (fn : T → T) :
    Map.next fn = RelaySys.next (Relay.step (fun v => some (fn v))) := by
  funext s
  simp only [Map.next, Map.map_step_eq]

theorem remap_next_eq {T E : Type} (gn : T → E) :
    Remap.next gn = RelaySys.next (Relay.step (fun v => some (gn v))) := by
  funext s
  simp only [Remap.next, Remap.remap_step_eq]

theorem relay_seen {T E : Type} {act : T → Option E} {xs : List T} {s : RelaySys T E}
    (h : s.Inv act xs) : ∃ rest, xs.filterMap act = s.col.seen ++ rest := by
  obtain ⟨_, _, _, hd, _⟩ := h
  exact ⟨s.out.buf ++ (s.pc.hold ++ (inflow s.inp).filterMap act), by
    rw [hd]; simp only [List.append_assoc]⟩

theorem relay_ret_done {T E : Type} {act : T → Option E} {xs : List T} {s : RelaySys T E}
    (h : s.Inv act xs) (r : Option (List E)) (hr : s.col = .ret r) : s.pc = .done :=
  (relay_closed_done h).2 (h.2.2.2.2.2.2 r hr).2.2

theorem split_seen {T : Type} {cond : T → Bool} {xs : List T} {s : SplitSys T}
    (h : s.Inv cond xs) :
    (∃ rest, xs.filter cond = s.col1.seen ++ rest) ∧
      ∃ rest, xs.filter (fun v => !cond v) = s.col2.seen ++ rest := by
  obtain ⟨_, _, _, _, hd1, hd2, _⟩ := h
  exact ⟨⟨s.out1.buf ++ (s.pc.hold1 ++ (inflow s.inp).filter cond), by
      rw [hd1]; simp only [List.append_assoc]⟩,
    ⟨s.out2.buf ++ (s.pc.hold2 ++ (inflow s.inp).filter (fun v => !cond v)), by
      rw [hd2]; simp only [List.append_assoc]⟩⟩

theorem split_ret_done {T : Type} {cond : T → Bool} {xs : List T} {s : SplitSys T}
    (h : s.Inv cond xs) (r : Option (List T)) (hr : s.col2 = .ret r) : s.pc = .done :=
  (split_closed_done h).2.2 (h.2.2.2.2.2.2.2.2.2 r hr).2.2

theorem join_ret_done {T : Type} {seq : Nat → List T} {hs : List Nat} {s : JoinSys T}
    (h : s.Inv seq hs) (r : Option (List T)) (hr : s.col = .ret r) :
    s.closer = some .done ∧ ∀ f, f ∈ s.fwds → f.pc = .done := by
  have hcl := (h.2.2.2.2.2.2.2.2.2 r hr).2.2
  have := join_closed_after h hcl
  exact ⟨this.1, this.2.2.2.1⟩

theorem collect_ret_exited {T : Type} {b : Bool} {xs : List T} {s : CollectSys T}
    (h : s.Inv b xs) (r : Option (List T)) (hr : s.col = .ret r) :
    ∀ p, s.inp = some p → p.exited = true := by
  obtain ⟨_, _, _, hcol⟩ := h
  rw [hr] at hcol
  intro p hp
  rw [hp] at hcol
  exact hcol.2.1

theorem relay_inv_start {T E : Type} (act : T → Option E) (inp : Option (Producer T))
    (hin : inp = none ∨ ∃ cap xs, 0 < cap ∧ inp = some (Producer.new cap xs)) :
    (RelaySys.init inp : RelaySys T E).Inv act (inflow inp) := by
  rcases hin with rfl | ⟨cap, xs, hcap, rfl⟩
  · exact RelaySys.relay_inv_init_nil act
  · simpa [inflow, Producer.new, makeChan] using RelaySys.relay_inv_init act cap hcap xs

theorem split_inv_start {T : Type} (cond : T → Bool) (inp : Option (Producer T))
    (hin : inp = none ∨ ∃ cap xs, 0 < cap ∧ inp = some (Producer.new cap xs)) :
    (SplitSys.init inp).Inv cond (inflow inp) := by
  rcases hin with rfl | ⟨cap, xs, hcap, rfl⟩
  · exact SplitSys.split_inv_init_nil cond
  · simpa [inflow, Producer.new, makeChan] using SplitSys.split_inv_init cond cap hcap xs

theorem stream_inv_start {T : Type} (xs : List T) :
    (CollectSys.init (some (Stream xs))).Inv true xs :=
  CollectSys.collect_inv_init 1 (by decide) xs

theorem ended_exited {T : Type} {inp : Option (Producer T)} (h : inEnded inp) :
    ∀ p, inp = some p → p.exited = true := by
  intro p hp
  subst hp
  exact h.1

/-- C1: for every finite list xs (the empty list included), under every
schedule Collect(Stream(xs...)) returns, and it returns a present slice that
is xs itself: all len(xs) values in the original order, nothing dropped,
duplicated or reordered. -/
theorem collect_stream_roundtrip {T : Type} (xs : List T) :
    Inev CollectSys.next (fun s => s.col = .ret (some xs))
      (CollectSys.init (some (Stream xs))) :=
  (collect_inev true xs _ (stream_inv_start xs)).mono (fun _ ht => by simpa using ht.1)

/-- C4: for every predicate cond and every input sequence xs delivered by a
non-nil stream, what a consumer has taken from Filter(stream, cond) is at
every moment an initial part of xs.filter cond, and under every schedule
Collect returns exactly xs.filter cond: a sub-sequence of xs in the original
order that holds a value if and only if the value is in xs and satisfies
cond. -/
theorem filter_delivers_subsequence {T : Type} (cond : T → Bool) (cap : Nat) (xs : List T)
    (hcap : 0 < cap) :
    (∀ s, Reach (Filter.next cond) (RelaySys.init (some (Producer.new cap xs))) s →
      ∃ rest, xs.filter cond = s.col.seen ++ rest) ∧
    Inev (Filter.next cond)
      (fun s => ∃ r, s.col = .ret (some r) ∧ r = xs.filter cond ∧ r.Sublist xs ∧
        (∀ v, v ∈ r ↔ v ∈ xs ∧ cond v = true))
      (RelaySys.init (some (Producer.new cap xs))) := by
  constructor
  · intro s hs
    rw [filter_next_eq] at hs
    have := relay_seen (relay_reach _ xs _ s (RelaySys.relay_inv_init _ cap hcap xs) hs)
    rwa [filterMap_cond] at this
  · refine (filter_inev cond xs _ (RelaySys.relay_inv_init _ cap hcap xs)).mono ?_
    intro t ht
    exact ⟨_, ht.1, rfl, List.filter_sublist _, fun v => List.mem_filter⟩

/-- C4 at a concrete input: the even values of 1..6 through a stream of
capacity 1. -/
theorem filter_delivers_subsequence_witness :
    0 < 1 ∧
    Inev (Filter.next (fun v : Nat => v % 2 == 0))
      (fun s => ∃ r, s.col = .ret (some r) ∧ r = [2, 4, 6])
      (RelaySys.init (some (Producer.new 1 [1, 2, 3, 4, 5, 6]))) :=
  ⟨by decide,
    (filter_delivers_subsequence (fun v : Nat => v % 2 == 0) 1 [1, 2, 3, 4, 5, 6]
      (by decide)).2.mono (fun _ ht => by
        obtain ⟨r, h1, h2, _⟩ := ht
        exact ⟨r, h1, by rw [h2]; decide⟩)⟩

/-- C5: for every total fn and every input sequence xs delivered by a non-nil
stream, what a consumer has taken from Map(stream, fn), or from
Remap(stream, gn) for gn into another element type, is at every moment an
initial part of the image of xs, and under every schedule Collect returns a
sequence of the length of xs whose i-th value is the function applied to the
i-th value of xs. -/
theorem map_remap_pointwise {T E : Type} (fn : T → T) (gn : T → E) (cap : Nat) (xs : List T)
    (hcap : 0 < cap) :
    ((∀ s, Reach (Map.next fn) (RelaySys.init (some (Producer.new cap xs))) s →
        ∃ rest, xs.map fn = s.col.seen ++ rest) ∧
      Inev (Map.next fn)
        (fun s => ∃ r, s.col = .ret (some r) ∧ r.length = xs.length ∧
          ∀ i : Nat, r[i]? = (xs[i]?).map fn)
        (RelaySys.init (some (Producer.new cap xs)))) ∧
    ((∀ s, Reach (Remap.next gn) (RelaySys.init (some (Producer.new cap xs))) s →
        ∃ rest, xs.map gn = s.col.seen ++ rest) ∧
      Inev (Remap.next gn)
        (fun s => ∃ r, s.col = .ret (some r) ∧ r.length = xs.length ∧
          ∀ i : Nat, r[i]? = (xs[i]?).map gn)
        (RelaySys.init (some (Producer.new cap xs)))) := by
  refine ⟨⟨?_, ?_⟩, ⟨?_, ?_⟩⟩
  · intro s hs
    rw [map_next_eq] at hs
    have := relay_seen (relay_reach _ xs _ s (RelaySys.relay_inv_init _ cap hcap xs) hs)
    rwa [filterMap_some] at this
  · refine (map_inev fn xs _ (RelaySys.relay_inv_init _ cap hcap xs)).mono ?_
    intro t ht
    exact ⟨_, ht.1, by simp, fun i => by simp⟩
  · intro s hs
    rw [remap_next_eq] at hs
    have := relay_seen (relay_reach _ xs _ s (RelaySys.relay_inv_init _ cap hcap xs) hs)
    rwa [filterMap_some] at this
  · refine (remap_inev gn xs _ (RelaySys.relay_inv_init _ cap hcap xs)).mono ?_
    intro t ht
    exact ⟨_, ht.1, by simp, fun i => by simp⟩

/-- C5 at the inputs of the test suite: plus-one over 1, 3, 5 and a change
of element type over 1..3. -/
theorem map_remap_pointwise_witness :
    0 < 1 ∧
    Inev (Map.next (fun v : Nat => v + 1))
      (fun s => s.col = .ret (some [2, 4, 6]))
      (RelaySys.init (some (Producer.new 1 [1, 3, 5]))) :=
  ⟨by decide,
    (map_remap_pointwise (fun v : Nat => v + 1) (fun v : Nat => (v : Int)) 1 [1, 3, 5]
      (by decide)).1.2.mono (fun t ht => by
        obtain ⟨r, h1, h2, h3⟩ := ht
        rw [h1]
        congr 2
        apply List.ext_getElem?
        intro i
        rw [h3 i]
        match i with
        | 0 => rfl
        | 1 => rfl
        | 2 => rfl
        | (k + 3) => rfl)⟩

/-- C6: Reduce(stream, acc, fn) over a stream delivering xs returns the left
fold of fn over xs from acc, calling fn once per value; on a nil stream it
returns acc without calling fn; ReduceDefault(stream, fn) is Reduce from the
zero value of the element type, so on a nil stream it returns that zero
value. -/
theorem reduce_left_fold {T : Type} [Inhabited T] (acc : T) (fn : T → T → T) (cap : Nat)
    (xs : List T) (hcap : 0 < cap) :
    Inev (ReduceSys.next acc fn)
      (fun s => s.red = .ret (xs.foldl fn acc) ∧ s.calls = xs.length)
      (ReduceSys.init (some (Producer.new cap xs))) ∧
    Inev (ReduceSys.next acc fn) (fun s => s.red = .ret acc ∧ s.calls = 0)
      (ReduceSys.init none) ∧
    (∀ s, ReduceDefault.next fn s = ReduceSys.next default fn s) ∧
    Inev (ReduceDefault.next fn) (fun s => s.red = .ret (xs.foldl fn default))
      (ReduceSys.init (some (Producer.new cap xs))) ∧
    Inev (ReduceDefault.next fn) (fun s => s.red = .ret default ∧ s.calls = 0)
      (ReduceSys.init none) := by
  refine ⟨?_, ?_, fun _ => rfl, ?_, ?_⟩
  · exact (reduce_inev acc fn xs _ (ReduceSys.reduce_inv_init acc fn cap hcap xs)).mono
      (fun _ ht => ⟨ht.1, ht.2.1⟩)
  · exact (reduce_inev acc fn [] _ (ReduceSys.reduce_inv_init_nil acc fn)).mono
      (fun _ ht => ⟨ht.1, ht.2.1⟩)
  · exact (reduce_inev default fn xs _ (ReduceSys.reduce_inv_init default fn cap hcap xs)).mono
      (fun _ ht => ht.1)
  · exact (reduce_inev default fn [] _ (ReduceSys.reduce_inv_init_nil default fn)).mono
      (fun _ ht => ⟨ht.1, ht.2.1⟩)

/-- C6 at the inputs of the test suite: summing 1..6 from 21 gives 42. -/
theorem reduce_left_fold_witness :
    0 < 1 ∧
    Inev (ReduceSys.next (21 : Int) (fun a v => a + v)) (fun s => s.red = .ret 42)
      (ReduceSys.init (some (Producer.new 1 [1, 2, 3, 4, 5, 6]))) :=
  ⟨by decide,
    (reduce_left_fold (21 : Int) (fun a v => a + v) 1 [1, 2, 3, 4, 5, 6] (by decide)).1.mono
      (fun _ ht => by rw [ht.1]; rfl)⟩

/-- C7: Collect tells no stream from an empty stream: on a nil handle it
returns the nil slice, on every non-nil stream it returns a present slice, and
for a stream that closes without a value that slice is present and empty. -/
theorem collect_nil_vs_empty {T : Type} (cap : Nat) (xs : List T) (hcap : 0 < cap) :
    Inev CollectSys.next (fun s => s.col = .ret none)
      (CollectSys.init (none : Option (Producer T))) ∧
    Inev CollectSys.next (fun s => ∃ r, s.col = .ret (some r))
      (CollectSys.init (some (Producer.new cap xs))) ∧
    Inev CollectSys.next (fun s => s.col = .ret (some []) ∧ s.col ≠ .ret none)
      (CollectSys.init (some (Producer.new cap ([] : List T)))) := by
  refine ⟨?_, ?_, ?_⟩
  · exact (collect_inev false [] _ CollectSys.collect_inv_init_nil).mono (fun _ ht => by simpa using ht.1)
  · exact (collect_inev true xs _ (CollectSys.collect_inv_init cap hcap xs)).mono
      (fun _ ht => ⟨xs, by simpa using ht.1⟩)
  · exact (collect_inev true [] _ (CollectSys.collect_inv_init cap hcap [])).mono
      (fun _ ht => by
        have := ht.1
        simp at this
        simp [this])

/-- C7 at a concrete input: an empty stream of capacity 1. -/
theorem collect_nil_vs_empty_witness :
    0 < 1 ∧
    Inev CollectSys.next (fun s => s.col = .ret (some []) ∧ s.col ≠ .ret none)
      (CollectSys.init (some (Producer.new 1 ([] : List Nat)))) :=
  ⟨by decide, (collect_nil_vs_empty 1 ([] : List Nat) (by decide)).2.2⟩

theorem join_inv_single {T : Type} (cap : Nat) (xs : List T) (hcap : 0 < cap)
    (ins : List (Option Nat)) (hval : ∀ c, c ∈ ins.filterMap id → c < 1) :
    (Join [Producer.new cap xs] ins).Inv (contents [(cap, xs)]) (ins.filterMap id) :=
  JoinSys.join_inv_init [(cap, xs)] ins (by simpa using hcap) (by simpa using hval)

/-- C3: for every predicate cond and every input sequence xs delivered by a
non-nil stream, what has been taken from the first output of
Split(stream, cond) is at every moment an initial part of the values of xs
with cond true, and from the second an initial part of those with cond false;
with both outputs drained concurrently, under every schedule the first
delivers exactly xs.filter cond and the second exactly the rest, each in input
order; together they are a rearrangement of xs, so a commutative and
associative sum over both outputs is the sum over xs (1..6 split by even
gives 12 and 9). -/
theorem split_partitions {T : Type} (cond : T → Bool) (cap : Nat) (xs : List T)
    (hcap : 0 < cap) :
    (∀ s, Reach (SplitSys.next cond) (SplitSys.init (some (Producer.new cap xs))) s →
      (∃ rest, xs.filter cond = s.col1.seen ++ rest) ∧
        ∃ rest, xs.filter (fun v => !cond v) = s.col2.seen ++ rest) ∧
    Inev (SplitSys.next cond)
      (fun s => ∃ r1 r2, s.col1 = .ret (some r1) ∧ s.col2 = .ret (some r2) ∧
        r1 = xs.filter cond ∧ r2 = xs.filter (fun v => !cond v) ∧ (r1 ++ r2).Perm xs ∧
        ∀ (add : T → T → T) (zero : T), (∀ a b, add a b = add b a) →
          (∀ a b c, add (add a b) c = add a (add b c)) → (∀ a, add zero a = a) →
          add (r1.foldl add zero) (r2.foldl add zero) = xs.foldl add zero)
      (SplitSys.init (some (Producer.new cap xs))) ∧
    Inev (SplitSys.next (fun v : Int => v % 2 == 0))
      (fun s => ∃ r1 r2, s.col1 = .ret (some r1) ∧ s.col2 = .ret (some r2) ∧
        r1.foldl (fun a v => a + v) 0 = 12 ∧ r2.foldl (fun a v => a + v) 0 = 9)
      (SplitSys.init (some (Stream [1, 2, 3, 4, 5, 6]))) := by
  refine ⟨?_, ?_, ?_⟩
  · intro s hs
    exact split_seen (split_reach cond xs _ s (SplitSys.split_inv_init cond cap hcap xs) hs)
  · refine (split_inev cond xs _ (SplitSys.split_inv_init cond cap hcap xs)).mono ?_
    intro t ht
    refine ⟨_, _, ht.1, ht.2.1, rfl, rfl, List.filter_append_perm cond xs, ?_⟩
    intro add zero hcomm hassoc hzero
    rw [← foldl_unit add zero hcomm hassoc hzero, ← List.foldl_append]
    exact foldl_perm add zero hcomm hassoc (List.filter_append_perm cond xs)
  · refine (split_inev _ _ _ (SplitSys.split_inv_init _ 1 (by decide) [1, 2, 3, 4, 5, 6])).mono ?_
    intro t ht
    exact ⟨_, _, ht.1, ht.2.1, by decide, by decide⟩

/-- C3 at a concrete input: 1..6 split by even through a stream of capacity 1. -/
theorem split_partitions_witness :
    0 < 1 ∧
    Inev (SplitSys.next (fun v : Nat => v % 2 == 0))
      (fun s => s.col1 = .ret (some [2, 4, 6]) ∧ s.col2 = .ret (some [1, 3, 5]))
      (SplitSys.init (some (Producer.new 1 [1, 2, 3, 4, 5, 6]))) :=
  ⟨by decide,
    (split_partitions (fun v : Nat => v % 2 == 0) 1 [1, 2, 3, 4, 5, 6] (by decide)).2.1.mono
      (fun _ ht => by
        obtain ⟨r1, r2, h1, h2, h3, h4, _⟩ := ht
        subst h3 h4
        exact ⟨h1, h2⟩)⟩

/-- C8: a nil handle is an empty, closed stream for every operator and is
never read: Filter, Map and Remap on nil deliver nothing and close their
output without one call of the callback; Split on nil closes both outputs
empty; Join of no handles or of nil handles only starts no forwarder and
closes its output empty; and a nil entry adds nothing, so Join(s, nil) and
Join(s) both deliver exactly the sequence of s through a single forwarder. -/
theorem nil_handle_is_empty_stream {T E : Type} (cond : T → Bool) (fn : T → T) (gn : T → E)
    (n : Nat) (cap : Nat) (xs : List T) (hcap : 0 < cap) :
    Inev (Filter.next cond)
      (fun s => s.col = .ret (some []) ∧ s.out.closed = true ∧ s.calls = 0)
      (RelaySys.init none) ∧
    Inev (Map.next fn)
      (fun s => s.col = .ret (some []) ∧ s.out.closed = true ∧ s.calls = 0)
      (RelaySys.init none) ∧
    Inev (Remap.next gn)
      (fun s => s.col = .ret (some []) ∧ s.out.closed = true ∧ s.calls = 0)
      (RelaySys.init none) ∧
    Inev (SplitSys.next cond)
      (fun s => s.col1 = .ret (some []) ∧ s.col2 = .ret (some []) ∧ s.out1.closed = true ∧
        s.out2.closed = true ∧ s.calls = 0)
      (SplitSys.init none) ∧
    Inev JoinSys.next
      (fun s => s.col = .ret (some []) ∧ s.out.closed = true ∧ s.fwds = [])
      (Join ([] : List (Producer T)) (List.replicate n none)) ∧
    Inev JoinSys.next
      (fun s => s.col = .ret (some xs) ∧ s.fwds.map Fwd.src = [0])
      (Join [Producer.new cap xs] [some 0, none]) ∧
    Inev JoinSys.next
      (fun s => s.col = .ret (some xs) ∧ s.fwds.map Fwd.src = [0])
      (Join [Producer.new cap xs] [some 0]) := by
  refine ⟨?_, ?_, ?_, ?_, ?_, ?_, ?_⟩
  · exact (filter_inev cond [] _ (RelaySys.relay_inv_init_nil _)).mono
      (fun _ ht => ⟨ht.1, ht.2.2.1, ht.2.2.2.2.2.1⟩)
  · exact (map_inev fn [] _ (RelaySys.relay_inv_init_nil _)).mono
      (fun _ ht => ⟨ht.1, ht.2.2.1, ht.2.2.2.2.2.1⟩)
  · exact (remap_inev gn [] _ (RelaySys.relay_inv_init_nil _)).mono
      (fun _ ht => ⟨ht.1, ht.2.2.1, ht.2.2.2.2.2.1⟩)
  · exact (split_inev cond [] _ (SplitSys.split_inv_init_nil _)).mono
      (fun _ ht => ⟨ht.1, ht.2.1, ht.2.2.2.1, ht.2.2.2.2.1, ht.2.2.2.2.2.2.2.2.1⟩)
  · have hnil : (List.replicate n (none : Option Nat)).filterMap id = [] := by
      induction n with
      | zero => rfl
      | succ k ih => simp [List.replicate_succ]
    have h0 := JoinSys.join_inv_init ([] : List (Nat × List T)) (List.replicate n none)
      (by simp) (by simp [List.filterMap_replicate_of_none])
    rw [hnil] at h0
    refine (JoinSys.join_inev _ _ _ h0).mono ?_
    intro t ht
    obtain ⟨⟨r, hr, hi⟩, _, _, _, hsrc, _, hcl, _, _⟩ := ht
    have := Interleaving.nil (hi.interleaving List.nodup_nil)
    subst this
    exact ⟨hr, hcl, by simpa using hsrc⟩
  · have h0 := join_inv_single cap xs hcap [some 0, none] (by simp)
    refine (JoinSys.join_inev _ _ _ h0).mono ?_
    intro t ht
    obtain ⟨⟨r, hr, hi⟩, _, _, _, hsrc, _, _, _, _⟩ := ht
    have := Interleaving.single (hi.interleaving (by simp))
    subst this
    exact ⟨by simpa [contents] using hr, by simpa using hsrc⟩
  · have h0 := join_inv_single cap xs hcap [some 0] (by simp)
    refine (JoinSys.join_inev _ _ _ h0).mono ?_
    intro t ht
    obtain ⟨⟨r, hr, hi⟩, _, _, _, hsrc, _, _, _, _⟩ := ht
    have := Interleaving.single (hi.interleaving (by simp))
    subst this
    exact ⟨by simpa [contents] using hr, by simpa using hsrc⟩

/-- C8 at a concrete input: Join(Stream(1, 2, 3), nil) delivers 1, 2, 3. -/
theorem nil_handle_is_empty_stream_witness :
    0 < 1 ∧
    Inev JoinSys.next (fun s => s.col = .ret (some [1, 2, 3]))
      (Join [Stream [1, 2, 3]] [some 0, none]) :=
  ⟨by decide,
    (nil_handle_is_empty_stream (fun v : Nat => v % 2 == 0) (fun v => v + 1)
      (fun v : Nat => (v : Int)) 2 1 [1, 2, 3] (by decide)).2.2.2.2.2.1.mono
      (fun _ ht => ht.1)⟩

theorem Inev.and_reach {S : Type} {next : S → List S} {P Q : S → Prop} {s : S}
    (h : Inev next P s) (hq : ∀ t, Reach next s t → Q t) :
    Inev next (fun t => P t ∧ Q t) s := by
  induction h with
  | stop s hn hp => exact Inev.stop s hn ⟨hp, hq s Relation.ReflTransGen.refl⟩
  | step s hne _ ih =>
    refine Inev.step s hne (fun t ht => ih t ht (fun u hu => hq u ?_))
    exact Relation.ReflTransGen.head ht hu

theorem relay_safe_live {T E : Type} (act : T → Option E) (inp : Option (Producer T))
    (hin : inp = none ∨ ∃ cap xs, 0 < cap ∧ inp = some (Producer.new cap xs)) :
    (∀ s, Reach (RelaySys.next (Relay.step act)) (RelaySys.init inp) s →
        s.crashed = false ∧ (s.out.closed = true → s.pc = .done)) ∧
    Inev (RelaySys.next (Relay.step act))
      (fun s => s.crashed = false ∧ s.out.closed = true ∧ s.pc = .done ∧
        ∀ p, s.inp = some p → p.exited = true)
      (RelaySys.init inp) := by
  have h0 : (RelaySys.init inp : RelaySys T E).Inv act (inflow inp) :=
    relay_inv_start act inp hin
  refine ⟨fun s hs => relay_closed_done (relay_reach act _ _ s h0 hs), ?_⟩
  exact (RelaySys.relay_inev act _ _ h0).mono
    (fun _ ht => ⟨ht.2.2.2.2.1, ht.2.2.1, ht.2.1, ended_exited ht.2.2.2.2.2.2⟩)

theorem stream_safe_live {T : Type} (xs : List T) :
    (∀ s, Reach CollectSys.next (CollectSys.init (some (Stream xs))) s →
        s.crashed = false ∧ ∀ p, s.inp = some p → p.out.closed = true → p.exited = true) ∧
    Inev CollectSys.next
      (fun s => s.crashed = false ∧ ∀ p, s.inp = some p → p.out.closed = true ∧ p.exited = true)
      (CollectSys.init (some (Stream xs))) := by
  have h0 := stream_inv_start xs
  have hr : ∀ s, Reach CollectSys.next (CollectSys.init (some (Stream xs))) s →
      ∀ p, s.inp = some p → p.out.closed = p.exited := by
    intro s hs p hp
    have := (collect_reach true xs _ s h0 hs).2.2.1
    rw [hp] at this
    exact this.2.1
  refine ⟨fun s hs => ⟨(collect_reach true xs _ s h0 hs).1, fun p hp hcl => ?_⟩, ?_⟩
  · rw [← hr s hs p hp]
    exact hcl
  · refine ((collect_inev true xs _ h0).and_reach hr).mono ?_
    intro t ht
    refine ⟨ht.1.2.1, fun p hp => ?_⟩
    have he := ended_exited ht.1.2.2 p hp
    exact ⟨by rw [ht.2 p hp]; exact he, he⟩

theorem split_safe_live {T : Type} (cond : T → Bool) (inp : Option (Producer T))
    (hin : inp = none ∨ ∃ cap xs, 0 < cap ∧ inp = some (Producer.new cap xs)) :
    (∀ s, Reach (SplitSys.next cond) (SplitSys.init inp) s →
        s.crashed = false ∧ (s.out1.closed = true → s.pc = .close2 ∨ s.pc = .done) ∧
          (s.out2.closed = true → s.pc = .done)) ∧
    Inev (SplitSys.next cond)
      (fun s => s.crashed = false ∧ s.out1.closed = true ∧ s.out2.closed = true ∧
        s.pc = .done ∧ ∀ p, s.inp = some p → p.exited = true)
      (SplitSys.init inp) := by
  have h0 := split_inv_start cond inp hin
  refine ⟨fun s hs => split_closed_done (split_reach cond _ _ s h0 hs), ?_⟩
  exact (split_inev cond _ _ h0).mono
    (fun _ ht => ⟨ht.2.2.2.2.2.2.2.1, ht.2.2.2.1, ht.2.2.2.2.1, ht.2.2.1,
      ended_exited ht.2.2.2.2.2.2.2.2.2⟩)

theorem join_reach_cons {T : Type} (seq : Nat → List T) (hs : List Nat) (s0 s : JoinSys T)
    (h0 : s0.Inv seq hs) (c0 : s0.Cons seq hs) (hr : Reach JoinSys.next s0 s) :
    s.Inv seq hs ∧ s.Cons seq hs := by
  have key : ∀ u, Reach JoinSys.next s0 u → JoinSys.Inv seq hs u ∧ JoinSys.Cons seq hs u :=
    Reach.inv ⟨h0, c0⟩ (fun a b ha hb => ⟨(JoinSys.join_inv_step seq hs a b ha.1 hb).1,
      JoinSys.cons_step seq hs a b ha.1 ha.2 hb⟩)
  exact key s hr

theorem join_closed_relayed {T : Type} {seq : Nat → List T} {hs : List Nat} {s : JoinSys T}
    (h : s.Inv seq hs) (hc : s.Cons seq hs) (hcl : s.out.closed = true) :
    (s.col.seen ++ s.out.buf).Perm ((hs.dedup).flatMap seq) := by
  obtain ⟨_, _, _, hdone, hended⟩ := join_closed_after h hcl
  have hok := h.2.2.1
  unfold JoinSys.Cons JoinSys.stock at hc
  have hflow : bag hs (fun c => inflow s.chans[c]?) = 0 := by
    apply bag_nil
    intro c hcm
    have he := hended c hcm
    cases hp : s.chans[c]? with
    | none => rfl
    | some p =>
      rw [hp] at he
      have hpok := hok c p hp
      simp [inflow, he.2, hpok.2.2 he.1]
  rw [hflow, heldAll_done _ hdone, bag_flatMap] at hc
  simp only [Multiset.coe_nil, add_zero] at hc
  exact Multiset.coe_eq_coe.1 hc

theorem join_safe_live {T : Type} (specs : List (Nat × List T)) (ins : List (Option Nat))
    (hcaps : ∀ a, a ∈ specs → 0 < a.1) (hval : ∀ c, c ∈ ins.filterMap id → c < specs.length) :
    (∀ s, Reach JoinSys.next (Join (inputs specs) ins) s →
        s.crashed = false ∧ (s.out.closed = true →
          s.closer = some .done ∧ s.main = .returned ∧
          s.fwds.map Fwd.src = ins.filterMap id ∧ (∀ f, f ∈ s.fwds → f.pc = .done) ∧
          (∀ c, c ∈ ins.filterMap id → inEnded s.chans[c]?) ∧
          (s.col.seen ++ s.out.buf).Perm
            (((ins.filterMap id).dedup).flatMap (contents specs)))) ∧
    Inev JoinSys.next
      (fun s => s.crashed = false ∧ s.out.closed = true ∧ s.main = .returned ∧
        s.closer = some .done ∧ (∀ f, f ∈ s.fwds → f.pc = .done) ∧
        s.fwds.map Fwd.src = ins.filterMap id)
      (Join (inputs specs) ins) := by
  have h0 := JoinSys.join_inv_init specs ins hcaps hval
  have c0 := JoinSys.cons_init specs ins
  refine ⟨fun s hs => ?_, ?_⟩
  · have hi := join_reach_cons _ _ _ s h0 c0 hs
    refine ⟨hi.1.1, fun hcl => ?_⟩
    obtain ⟨a1, a2, a3, a4, a5⟩ := join_closed_after hi.1 hcl
    exact ⟨a1, a2, a3, a4, a5, join_closed_relayed hi.1 hi.2 hcl⟩
  · exact (JoinSys.join_inev _ _ _ h0).mono
      (fun _ ht => ⟨ht.2.2.2.2.2.2.2.2, ht.2.2.2.2.2.2.1, ht.2.1, ht.2.2.1, ht.2.2.2.1,
        ht.2.2.2.2.1⟩)

/-- C9: in every execution of Stream, Filter, Map, Remap, Split and Join no
send on a closed channel and no second close ever happens (the crashed flag
stays off), an output is closed only once its writing goroutine is past its
last send, and every run ends with each output closed; so each output is
closed exactly once and nothing is sent after the close.  For Join the output
is closed only after Join has returned, every forwarder it started (one per
non-nil handle) has exited, every such input is closed and empty, and all
their values have been passed on to the output. -/
theorem outputs_closed_once {T E : Type} (cond : T → Bool) (fn : T → T) (gn : T → E)
    (xs : List T) (inp : Option (Producer T)) (specs : List (Nat × List T))
    (ins : List (Option Nat))
    (hin : inp = none ∨ ∃ cap ys, 0 < cap ∧ inp = some (Producer.new cap ys))
    (hcaps : ∀ a, a ∈ specs → 0 < a.1) (hval : ∀ c, c ∈ ins.filterMap id → c < specs.length) :
    ((∀ s, Reach CollectSys.next (CollectSys.init (some (Stream xs))) s →
        s.crashed = false ∧ ∀ p, s.inp = some p → p.out.closed = true → p.exited = true) ∧
      Inev CollectSys.next
        (fun s => s.crashed = false ∧ ∀ p, s.inp = some p → p.out.closed = true)
        (CollectSys.init (some (Stream xs)))) ∧
    ((∀ s, Reach (Filter.next cond) (RelaySys.init inp) s →
        s.crashed = false ∧ (s.out.closed = true → s.pc = .done)) ∧
      Inev (Filter.next cond) (fun s => s.crashed = false ∧ s.out.closed = true)
        (RelaySys.init inp)) ∧
    ((∀ s, Reach (Map.next fn) (RelaySys.init inp) s →
        s.crashed = false ∧ (s.out.closed = true → s.pc = .done)) ∧
      Inev (Map.next fn) (fun s => s.crashed = false ∧ s.out.closed = true)
        (RelaySys.init inp)) ∧
    ((∀ s, Reach (Remap.next gn) (RelaySys.init inp) s →
        s.crashed = false ∧ (s.out.closed = true → s.pc = .done)) ∧
      Inev (Remap.next gn) (fun s => s.crashed = false ∧ s.out.closed = true)
        (RelaySys.init inp)) ∧
    ((∀ s, Reach (SplitSys.next cond) (SplitSys.init inp) s →
        s.crashed = false ∧ (s.out1.closed = true → s.pc = .close2 ∨ s.pc = .done) ∧
          (s.out2.closed = true → s.pc = .done)) ∧
      Inev (SplitSys.next cond)
        (fun s => s.crashed = false ∧ s.out1.closed = true ∧ s.out2.closed = true)
        (SplitSys.init inp)) ∧
    ((∀ s, Reach JoinSys.next (Join (inputs specs) ins) s →
        s.crashed = false ∧ (s.out.closed = true →
          s.closer = some .done ∧ s.main = .returned ∧
          s.fwds.map Fwd.src = ins.filterMap id ∧ (∀ f, f ∈ s.fwds → f.pc = .done) ∧
          (∀ c, c ∈ ins.filterMap id → inEnded s.chans[c]?) ∧
          (s.col.seen ++ s.out.buf).Perm
            (((ins.filterMap id).dedup).flatMap (contents specs)))) ∧
      Inev JoinSys.next (fun s => s.crashed = false ∧ s.out.closed = true)
        (Join (inputs specs) ins)) := by
  refine ⟨?_, ?_, ?_, ?_, ?_, ?_⟩
  · exact ⟨(stream_safe_live xs).1,
      (stream_safe_live xs).2.mono (fun _ ht => ⟨ht.1, fun p hp => (ht.2 p hp).1⟩)⟩
  · rw [filter_next_eq]
    exact ⟨(relay_safe_live _ inp hin).1,
      (relay_safe_live _ inp hin).2.mono (fun _ ht => ⟨ht.1, ht.2.1⟩)⟩
  · rw [map_next_eq]
    exact ⟨(relay_safe_live _ inp hin).1,
      (relay_safe_live _ inp hin).2.mono (fun _ ht => ⟨ht.1, ht.2.1⟩)⟩
  · rw [remap_next_eq]
    exact ⟨(relay_safe_live _ inp hin).1,
      (relay_safe_live _ inp hin).2.mono (fun _ ht => ⟨ht.1, ht.2.1⟩)⟩
  · exact ⟨(split_safe_live cond inp hin).1,
      (split_safe_live cond inp hin).2.mono (fun _ ht => ⟨ht.1, ht.2.1, ht.2.2.1⟩)⟩
  · exact ⟨(join_safe_live specs ins hcaps hval).1,
      (join_safe_live specs ins hcaps hval).2.mono (fun _ ht => ⟨ht.1, ht.2.1⟩)⟩

/-- C9 at a concrete input: Join of two streams and a nil handle never
crashes and ends with its output closed. -/
theorem outputs_closed_once_witness :
    Inev JoinSys.next (fun s => s.crashed = false ∧ s.out.closed = true)
      (Join (inputs [(1, [1, 3, 5]), (1, [2, 4, 6])]) [some 0, none, some 1]) :=
  (outputs_closed_once (fun v : Nat => v % 2 == 0) (fun v => v + 1) (fun v : Nat => (v : Int))
    [1, 2, 3] (some (Producer.new 1 [1, 2, 3])) [(1, [1, 3, 5]), (1, [2, 4, 6])]
    [some 0, none, some 1] (Or.inr ⟨1, [1, 2, 3], by decide, rfl⟩)
    (by decide) (by decide)).2.2.2.2.2.2

/-- C10: when every input closes and every returned stream is drained, each
operator comes to rest under every schedule after finitely many steps with no
goroutine left blocked: the Stream goroutine, the Filter, Map, Remap and Split
goroutines have exited, and for Join the call has returned and the closing
goroutine and every forwarder have exited.  Moreover in every reachable state
in which the consumer has seen the outputs closed, those goroutines have
already exited. -/
theorem no_leak_when_drained {T E : Type} (cond : T → Bool) (fn : T → T) (gn : T → E)
    (xs : List T) (inp : Option (Producer T)) (specs : List (Nat × List T))
    (ins : List (Option Nat))
    (hin : inp = none ∨ ∃ cap ys, 0 < cap ∧ inp = some (Producer.new cap ys))
    (hcaps : ∀ a, a ∈ specs → 0 < a.1)
    (hval : ∀ c, c ∈ ins.filterMap id → c < specs.length) :
    ((∀ s r, Reach CollectSys.next (CollectSys.init (some (Stream xs))) s →
        s.col = .ret r → ∀ p, s.inp = some p → p.exited = true) ∧
      Inev CollectSys.next (fun s => ∀ p, s.inp = some p → p.exited = true)
        (CollectSys.init (some (Stream xs)))) ∧
    ((∀ s r, Reach (Filter.next cond) (RelaySys.init inp) s → s.col = .ret r → s.pc = .done) ∧
      Inev (Filter.next cond) (fun s => s.pc = .done) (RelaySys.init inp)) ∧
    ((∀ s r, Reach (Map.next fn) (RelaySys.init inp) s → s.col = .ret r → s.pc = .done) ∧
      Inev (Map.next fn) (fun s => s.pc = .done) (RelaySys.init inp)) ∧
    ((∀ s r, Reach (Remap.next gn) (RelaySys.init inp) s → s.col = .ret r → s.pc = .done) ∧
      Inev (Remap.next gn) (fun s => s.pc = .done) (RelaySys.init inp)) ∧
    ((∀ s r, Reach (SplitSys.next cond) (SplitSys.init inp) s → s.col2 = .ret r →
        s.pc = .done) ∧
      Inev (SplitSys.next cond) (fun s => s.pc = .done) (SplitSys.init inp)) ∧
    ((∀ s r, Reach JoinSys.next (Join (inputs specs) ins) s → s.col = .ret r →
        s.closer = some .done ∧ ∀ f, f ∈ s.fwds → f.pc = .done) ∧
      Inev JoinSys.next
        (fun s => s.main = .returned ∧ s.closer = some .done ∧
          (∀ f, f ∈ s.fwds → f.pc = .done) ∧ s.fwds.length = (ins.filterMap id).length)
        (Join (inputs specs) ins)) := by
  have hrel : ∀ (U : Type) (act : T → Option U),
      (∀ s r, Reach (RelaySys.next (Relay.step act)) (RelaySys.init inp) s →
        s.col = .ret r → s.pc = .done) ∧
      Inev (RelaySys.next (Relay.step act)) (fun s => s.pc = .done) (RelaySys.init inp) := by
    intro U act
    have h0 : (RelaySys.init inp : RelaySys T U).Inv act (inflow inp) :=
      relay_inv_start act inp hin
    exact ⟨fun s r hs hr => relay_ret_done (relay_reach act _ _ s h0 hs) r hr,
      (relay_safe_live act inp hin).2.mono (fun _ ht => ht.2.2.1)⟩
  refine ⟨⟨?_, ?_⟩, ?_, ?_, ?_, ⟨?_, ?_⟩, ⟨?_, ?_⟩⟩
  · intro s r hs hr
    exact collect_ret_exited (collect_reach true xs _ s (stream_inv_start xs) hs) r hr
  · exact (stream_safe_live xs).2.mono (fun _ ht p hp => (ht.2 p hp).2)
  · rw [filter_next_eq]
    exact hrel T _
  · rw [map_next_eq]
    exact hrel T _
  · rw [remap_next_eq]
    exact hrel E _
  · intro s r hs hr
    exact split_ret_done (split_reach cond _ _ s (split_inv_start cond inp hin) hs) r hr
  · exact (split_safe_live cond inp hin).2.mono (fun _ ht => ht.2.2.2.1)
  · intro s r hs hr
    exact join_ret_done (join_reach _ _ _ s (JoinSys.join_inv_init specs ins hcaps hval) hs) r hr
  · exact (join_safe_live specs ins hcaps hval).2.mono
      (fun _ ht => ⟨ht.2.2.1, ht.2.2.2.1, ht.2.2.2.2.1, by
        rw [← ht.2.2.2.2.2, List.length_map]⟩)

/-- C10 at a concrete input: Split of 1..3 by even comes to rest with its
goroutine exited. -/
theorem no_leak_when_drained_witness :
    Inev (SplitSys.next (fun v : Nat => v % 2 == 0)) (fun s => s.pc = .done)
      (SplitSys.init (some (Producer.new 1 [1, 2, 3]))) :=
  (no_leak_when_drained (fun v : Nat => v % 2 == 0) (fun v => v + 1) (fun v : Nat => (v : Int))
    [1, 2, 3] (some (Producer.new 1 [1, 2, 3])) [(1, [1, 3, 5]), (1, [2, 4, 6])]
    [some 0, none, some 1] (Or.inr ⟨1, [1, 2, 3], by decide, rfl⟩)
    (by decide) (by decide)).2.2.2.2.1.2

theorem pick_sublist {T : Type} (c : Nat) (lab : List Nat) (d : List T)
    (h : lab.length = d.length) : (pick c lab d).Sublist d := by
  have h1 : ((lab.zip d).map Prod.snd) = d := List.map_snd_zip _ _ (by omega)
  have h2 : (pick c lab d).Sublist ((lab.zip d).map Prod.snd) :=
    (List.filter_sublist _).map Prod.snd
  rwa [h1] at h2

theorem OrderKept.sublist {T : Type} {seq : Nat → List T} {hs : List Nat} {r : List T}
    (h : OrderKept seq hs r) (c : Nat) (hc : hs.count c = 1) : (seq c).Sublist r := by
  obtain ⟨lab, h1, _, h3⟩ := h
  rw [← h3 c hc]
  exact pick_sublist c lab r h1

theorem BoundedMerge.first {T : Type} {seq : Nat → List T} {hs : List Nat} {v : T}
    {r : List T} (h : BoundedMerge seq hs (v :: r)) :
    ∃ c j, c ∈ hs ∧ (seq c)[j]? = some v ∧ j < hs.count c := by
  obtain ⟨lab, h1, h2, _, h4⟩ := h
  cases lab with
  | nil => simp at h1
  | cons a lab =>
    simp only [List.map_cons, List.cons.injEq] at h1
    have := h4 [] a (by simp)
    exact ⟨a.1, a.2, h2 a (by simp), h1.1.symm, by simpa using this⟩

theorem join_collect_inev {T : Type} (specs : List (Nat × List T)) (ins : List (Option Nat))
    (hcaps : ∀ a, a ∈ specs → 0 < a.1)
    (hval : ∀ c, c ∈ ins.filterMap id → c < specs.length) :
    Inev JoinSys.next
      (fun s => ∃ r, s.col = .ret (some r) ∧
        r.Perm (((ins.filterMap id).dedup).flatMap (contents specs)) ∧
        OrderKept (contents specs) (ins.filterMap id) r ∧
        BoundedMerge (contents specs) (ins.filterMap id) r)
      (Join (inputs specs) ins) := by
  refine (JoinSys.inev_merge _ _ _ (JoinSys.join_inv_init specs ins hcaps hval)
    (JoinSys.cons_init specs ins) (JoinSys.ord_init specs ins)).mono ?_
  intro t ht
  obtain ⟨⟨⟨r, hr, hi⟩, _⟩, hall⟩ := ht
  exact ⟨r, hr, (hall r hr).1, hi, (hall r hr).2⟩

theorem join_reduce_inev {T : Type} (specs : List (Nat × List T)) (ins : List (Option Nat))
    (hcaps : ∀ a, a ∈ specs → 0 < a.1)
    (hval : ∀ c, c ∈ ins.filterMap id → c < specs.length)
    (add : T → T → T) (zero : T) (hcomm : ∀ a b, add a b = add b a)
    (hassoc : ∀ a b c, add (add a b) c = add a (add b c)) :
    Inev (JoinReduce.next zero add)
      (fun s => s.red =
        .ret ((((ins.filterMap id).dedup).flatMap (contents specs)).foldl add zero))
      (JoinReduce.init (inputs specs) ins) := by
  have h := (join_collect_inev specs ins hcaps hval).sim (asReduce zero add)
    (JoinReduce.next_sim zero add)
  refine h.mono ?_
  rintro u ⟨t, rfl, r, hr, hp, _⟩
  simp only [asReduce, hr, toReduce, Option.getD_some]
  rw [foldl_perm add zero hcomm hassoc hp]

/-- Bounded overtaking at a concrete input: in Join(s, s) with s delivering
1, 2, 3 the output is a rearrangement of the three values that never starts
with 3, because 3 is received only after one of the two forwarders has passed
on 1 or 2. -/
theorem join_twice_never_starts_with_last :
    Inev JoinSys.next
      (fun s => ∃ r, s.col = .ret (some r) ∧ r.Perm [1, 2, 3] ∧ r.head? ≠ some 3)
      (Join (inputs [(1, [1, 2, 3])]) [some 0, some 0]) := by
  refine (join_collect_inev [(1, [1, 2, 3])] [some 0, some 0] (by decide) (by decide)).mono ?_
  rintro t ⟨r, hr, hp, _, hb⟩
  refine ⟨r, hr, hp, ?_⟩
  cases r with
  | nil => simp
  | cons v r =>
    obtain ⟨c, j, hc, hv, hj⟩ := hb.first
    have hc0 : c = 0 := by simpa using hc
    subst hc0
    have hj2 : j < 2 := by simpa using hj
    intro h3
    simp only [List.head?_cons, Option.some.injEq] at h3
    subst h3
    match j, hj2 with
    | 0, _ => simp [contents] at hv
    | 1, _ => simp [contents] at hv

/-- C2 (amended): for every list of handles passed to Join (nil entries
skipped) and under every schedule, the sequence drained from the output holds
every value of every input channel exactly once, a channel passed several
times counting once: it is a rearrangement of the inputs laid end to end.
The values of every channel that is passed exactly once keep their relative
order, whatever else is passed: the positions of the output can be labelled
by input such that the values labelled c are exactly the sequence of input c,
in order, for each such c.  When no channel is passed twice the output is
therefore an interleaving of the inputs.  A channel passed m times has m
forwarders, each holding one value at most, so each of its values is
delivered after all but at most m - 1 of the values before it in that
channel (BoundedMerge).  Hence Reduce over the output with a commutative and
associative operation returns, from any seed, the fold of the inputs laid end
to end, which is the sum of the folds of the inputs when the seed is the unit
of the operation; and ReduceDefault with integer addition over
Join(Stream(1, 3, 5), Stream(2, 4, 6)) returns 21. -/
theorem join_delivers_each_once {T : Type} (specs : List (Nat × List T))
    (ins : List (Option Nat)) (hcaps : ∀ a, a ∈ specs → 0 < a.1)
    (hval : ∀ c, c ∈ ins.filterMap id → c < specs.length) :
    Inev JoinSys.next
      (fun s => ∃ r, s.col = .ret (some r) ∧
        r.Perm (((ins.filterMap id).dedup).flatMap (contents specs)) ∧
        OrderKept (contents specs) (ins.filterMap id) r ∧
        (∀ c, (ins.filterMap id).count c = 1 → (contents specs c).Sublist r) ∧
        ((ins.filterMap id).Nodup → Interleaving (contents specs) (ins.filterMap id) r) ∧
        BoundedMerge (contents specs) (ins.filterMap id) r)
      (Join (inputs specs) ins) ∧
    (∀ (add : T → T → T) (zero : T), (∀ a b, add a b = add b a) →
      (∀ a b c, add (add a b) c = add a (add b c)) →
      Inev (JoinReduce.next zero add)
        (fun s => s.red =
            .ret ((((ins.filterMap id).dedup).flatMap (contents specs)).foldl add zero) ∧
          ((∀ a, add zero a = a) → s.red = .ret ((((ins.filterMap id).dedup).map
            (fun c => (contents specs c).foldl add zero)).foldl add zero)))
        (JoinReduce.init (inputs specs) ins)) ∧
    Inev (JoinReduce.next (default : Int) (fun a v => a + v)) (fun s => s.red = .ret 21)
      (JoinReduce.init [Stream [1, 3, 5], Stream [2, 4, 6]] [some 0, some 1]) := by
  refine ⟨?_, ?_, ?_⟩
  · refine (join_collect_inev specs ins hcaps hval).mono ?_
    rintro t ⟨r, hr, hp, ho, hb⟩
    exact ⟨r, hr, hp, ho, fun c hc => ho.sublist c hc, fun hnd => ho.interleaving hnd, hb⟩
  · intro add zero hcomm hassoc
    refine (join_reduce_inev specs ins hcaps hval add zero hcomm hassoc).mono ?_
    intro t ht
    refine ⟨ht, fun hzero => ?_⟩
    rw [ht]
    exact congrArg _ (foldl_flatMap add zero hcomm hassoc hzero _ _)
  · exact (join_reduce_inev [(1, [1, 3, 5]), (1, [2, 4, 6])] [some 0, some 1] (by decide)
      (by decide) (fun a v => a + v) 0 (fun a b => Int.add_comm a b)
      (fun a b c => Int.add_assoc a b c)).mono (fun _ ht => by rw [ht]; rfl)

/-- C2 at a concrete input: in Join(a, b, b) with a delivering 1, 2 and b
delivering 3, 4 every schedule ends with a rearrangement of the four values
in which 1 comes before 2, although b is passed twice. -/
theorem join_delivers_each_once_witness :
    Inev JoinSys.next
      (fun s => ∃ r, s.col = .ret (some r) ∧ r.Perm [1, 2, 3, 4] ∧ [1, 2].Sublist r)
      (Join (inputs [(1, [1, 2]), (1, [3, 4])]) [some 0, some 1, some 1]) :=
  (join_delivers_each_once [(1, [1, 2]), (1, [3, 4])] [some 0, some 1, some 1]
    (by decide) (by decide)).1.mono (fun _ ht => by
      obtain ⟨r, hr, hp, _, hsub, _⟩ := ht
      exact ⟨r, hr, hp, hsub 0 (by decide)⟩)

/-- C2 as stated fails in two ways.  When one channel is passed twice the
order of its values is lost: in Join(s, s) with s delivering 1, 2 the two
forwarders race on s, and there is a schedule that comes to rest with Collect
returning 2, 1, which is no interleaving that keeps the order of s.  And a
commutative and associative operation whose seed is not its unit does not
give the sum of the folds of the inputs: with a + b + 1 from seed 0, Reduce
over Join(Stream(1, 3, 5), Stream(2, 4, 6)) returns 27 under every schedule,
while the folds of the inputs are 12 and 15, which combine to 28, or to 29
when folded from the seed. -/
theorem join_unrestricted_fails :
    ((∃ s, Reach JoinSys.next (Join [Stream [1, 2]] [some 0, some 0]) s ∧ s.next = [] ∧
        s.col = .ret (some [2, 1])) ∧
      ¬ Interleaving (contents [(1, [1, 2])]) [0, 0] [2, 1] ∧
      ¬ Inev JoinSys.next
        (fun s => ∃ r, s.col = .ret (some r) ∧ Interleaving (contents [(1, [1, 2])]) [0, 0] r)
        (Join (inputs [(1, [1, 2])]) [some 0, some 0])) ∧
    ((∀ a b : Int, a + b + 1 = b + a + 1) ∧ (∀ a b c : Int, a + b + 1 + c + 1 = a + (b + c + 1) + 1) ∧
      Inev (JoinReduce.next (default : Int) (fun a v => a + v + 1)) (fun s => s.red = .ret 27)
        (JoinReduce.init [Stream [1, 3, 5], Stream [2, 4, 6]] [some 0, some 1]) ∧
      [1, 3, 5].foldl (fun a v => a + v + 1) (0 : Int) = 12 ∧
      [2, 4, 6].foldl (fun a v => a + v + 1) (0 : Int) = 15 ∧
      (12 : Int) + 15 + 1 ≠ 27 ∧
      ¬ Inev (JoinReduce.next (default : Int) (fun a v => a + v + 1))
        (fun s => s.red = .ret ((([some 0, some 1].filterMap id).dedup.map
          (fun c => (contents [(1, [1, 3, 5]), (1, [2, 4, 6])] c).foldl
            (fun a v => a + v + 1) 0)).foldl (fun a v => a + v + 1) 0))
        (JoinReduce.init (inputs [(1, [1, 3, 5]), (1, [2, 4, 6])]) [some 0, some 1])) := by
  have hfollow : follow JoinSys.next
      [0, 0, 0, 0, 0, 0, 0, 1, 1, 0, 0, 0, 0, 0, 0, 0, 0, 0, 0, 0]
      (Join [Stream [1, 2]] [some 0, some 0]) =
      some { chans := [{ rest := [], out := { buf := [], cap := 1, closed := true },
                         exited := true }],
             main := .returned, fwds := [⟨0, .done⟩, ⟨0, .done⟩], wg := 0,
             closer := some .done, out := { buf := [], cap := 1, closed := true },
             col := .ret (some [2, 1]), crashed := false } := by
    decide
  have hreach := follow_reach _ _ _ _ hfollow
  have hnot : ¬ Interleaving (contents [(1, [1, 2])]) [0, 0] [2, 1] := by
    rintro ⟨lab, h1, h2, h3⟩
    match lab, h1 with
    | [a, b], _ =>
      have ha : a = 0 := by simpa using h2 a (by simp)
      have hb : b = 0 := by simpa using h2 b (by simp)
      subst ha hb
      have := h3 0 (by simp)
      simp [pick, contents] at this
  have h27 : Inev (JoinReduce.next (default : Int) (fun a v => a + v + 1))
      (fun s => s.red = .ret 27)
      (JoinReduce.init (inputs [(1, [1, 3, 5]), (1, [2, 4, 6])]) [some 0, some 1]) :=
    (join_reduce_inev [(1, [1, 3, 5]), (1, [2, 4, 6])] [some 0, some 1] (by decide)
      (by decide) (fun a v => a + v + 1) 0 (fun a b => by show a + b + 1 = b + a + 1; omega)
      (fun a b c => by show a + b + 1 + c + 1 = a + (b + c + 1) + 1; omega)).mono
      (fun _ ht => by rw [ht]; rfl)
  refine ⟨⟨⟨_, hreach, by decide, rfl⟩, hnot, ?_⟩,
    fun a b => by omega, fun a b c => by omega, h27, by decide, by decide, by decide, ?_⟩
  · intro hinev
    obtain ⟨r, hr, hi⟩ := hinev.reach_end hreach (by decide)
    simp only [CollectPc.ret.injEq, Option.some.injEq] at hr
    subst hr
    exact hnot hi
  · intro hinev
    obtain ⟨t, ht, hn, h1⟩ := h27.exists_end
    have h2 := hinev.reach_end ht hn
    rw [h1] at h2
    simp only [ReducePc.ret.injEq] at h2
    revert h2
    decide

end Chanz
